import Mathlib

/-!
Shallow embedding, in Lean 4, of the diff engine of mpieuchot/diff
(src/diff_atomize_text.c, src/diff_main.c, src/diff_main.h, src/diff_myers.c,
src/diff_patience.c, src/diff.c), together with theorems settling the claims
about its specification.

Modelling conventions:
* bytes are natural numbers; a buffer is a list of bytes;
* C `unsigned int` arithmetic wraps modulo 2^32, `size_t` modulo 2^64; the
  wrap is written out explicitly where the source can overflow;
* reads past the end of a buffer (which the C source performs in a few spots)
  are modelled as reading the value 0 for byte data and -1 for the Myers
  state arrays (the latter matching the explicit -1 initialisation of the
  allocated state);
* allocation never fails in the model, so the ENOMEM paths of the source are
  not taken and the result code is never DIFF_RC_ENOMEM.
-/

namespace Diff

/-- Byte code of a carriage return. -/
def crByte : Nat := 13

/-- Byte code of a line feed. -/
def lfByte : Nat := 10

/-- Modulus of C `unsigned int` arithmetic. -/
def hashMod : Nat := 2 ^ 32

/-- Modulus of C `size_t` arithmetic. -/
def sizeTMod : Nat := 2 ^ 64

/-- Value of sizeof(int) on the platforms this code targets. -/
def sizeofInt : Nat := 4

/-- Read a byte of the buffer; out-of-range reads (which in the C source are
reads past the mapped buffer) are modelled as the value 0. -/
def byteAt (data : List Nat) (i : Nat) : Nat := data.getD i 0

/-- Inner scan loop of diff_data_atomize_text_lines.  The C pointer line_end
walking towards end becomes structural recursion over the remaining byte
suffix: advance while the head byte exists and is not a terminator, folding
the hash as h := h * 23 + byte (in unsigned int arithmetic).  Returns the
number of payload bytes consumed, the hash, and the remaining suffix (whose
head, if any, is the terminator byte the scan stopped at). -/
def scanPayload : List Nat → Nat → Nat × Nat × List Nat
  | [], h => (0, h, [])
  | b :: bs, h =>
    if b ≠ crByte ∧ b ≠ lfByte then
      match scanPayload bs ((h * 23 + b) % hashMod) with
      | (n, h2, rest) => (n + 1, h2, rest)
    else (0, h, b :: bs)

/-- Having consumed the terminator (when the scan did not stop at the end of
the buffer), the faulty CRLF pull-in step of the C source checks
`line_end[0] == CR and line_end < end and line_end[1] == LF`; line_end has
already been advanced past the terminator, so this inspects the byte after
the consumed terminator rather than the terminator itself.  `rest1` is the
suffix at the advanced line_end; reads past the end of the buffer are
modelled as 0. -/
def crlfExtra (rest1 : List Nat) : Nat :=
  if rest1.headD 0 = crByte ∧ rest1 ≠ [] ∧ (rest1.drop 1).headD 0 = lfByte then 1 else 0

/-- Total number of bytes of the atom starting at a suffix: the payload, plus
the consumed terminator when the scan stopped inside the buffer, plus the
faulty CRLF extension. -/
def lineLen (cur : List Nat) : Nat :=
  let sp := scanPayload cur 0
  let c1 := if sp.2.2 = [] then 0 else 1
  sp.1 + c1 + crlfExtra (sp.2.2.drop c1)

/-- Diff atom (struct diff_atom): a byte slice of the root buffer, with its
offset in the root and the cached hash.  The stored length of the C struct is
the length of the slice, so it is carried here by the slice itself. -/
structure Atom where
  off : Nat
  bytes : List Nat
  hash : Nat
  deriving Repr, DecidableEq

/-- Loop of diff_data_atomize_text_lines: cut one line-atom off the remaining
suffix per iteration.  Each iteration consumes at least one byte, so the fuel
(buffer length + 1) used by atomize never runs out; the pos counter records
the offset of the suffix in the root buffer. -/
def atomizeFrom : Nat → List Nat → Nat → List Atom
  | 0, _, _ => []
  | _, [], _ => []
  | fuel + 1, b :: bs, pos =>
    let len := lineLen (b :: bs)
    Atom.mk pos ((b :: bs).take len) (scanPayload (b :: bs) 0).2.1 ::
      atomizeFrom fuel ((b :: bs).drop len) (pos + len)

/-- diff_data_atomize_text_lines, producing the atom list of a buffer. -/
def atomize (data : List Nat) : List Atom := atomizeFrom (data.length + 1) data 0

theorem scanPayload_le (cur : List Nat) (h : Nat) :
    (scanPayload cur h).1 + (scanPayload cur h).2.2.length = cur.length := by
  induction cur generalizing h with
  | nil => simp [scanPayload]
  | cons b bs ih =>
    rw [scanPayload]
    split
    · have h2 := ih ((h * 23 + b) % hashMod)
      rcases hres : scanPayload bs ((h * 23 + b) % hashMod) with ⟨n, h', rest⟩
      rw [hres] at h2
      simp at h2 ⊢
      omega
    · simp

theorem lineLen_pos (b : Nat) (bs : List Nat) : 0 < lineLen (b :: bs) := by
  unfold lineLen
  rcases hsp : scanPayload (b :: bs) 0 with ⟨p, h, rest⟩
  rcases hr : rest with _ | ⟨c, cs⟩
  · have := scanPayload_le (b :: bs) 0
    rw [hsp, hr] at this
    simp at this ⊢
    omega
  · simp

theorem scanPayload_rest (cur : List Nat) (h : Nat) :
    (scanPayload cur h).2.2 = cur.drop (scanPayload cur h).1 := by
  induction cur generalizing h with
  | nil => simp [scanPayload]
  | cons b bs ih =>
    rw [scanPayload]
    split
    · have h2 := ih ((h * 23 + b) % hashMod)
      rcases hres : scanPayload bs ((h * 23 + b) % hashMod) with ⟨n, h', rest⟩
      rw [hres] at h2
      simp at h2 ⊢
      exact h2
    · simp

theorem lineLen_le (b : Nat) (bs : List Nat) : lineLen (b :: bs) ≤ (b :: bs).length := by
  unfold lineLen
  rcases hsp : scanPayload (b :: bs) 0 with ⟨p, h, rest⟩
  have hlen := scanPayload_le (b :: bs) 0
  rw [hsp] at hlen
  rcases hr : rest with _ | ⟨c, cs⟩
  · subst hr; simp at hlen ⊢; simp [crlfExtra]; omega
  · subst hr
    simp at hlen
    simp
    unfold crlfExtra
    split
    · next hcond =>
      rcases hd : cs with _ | ⟨e, es⟩
      · rw [hd] at hcond
        simp at hcond
      · rw [hd] at hlen
        simp at hlen
        omega
    · omega

/-- diff_atom_same: compare hashes, then lengths, then the bytes. -/
def diff_atom_same (a b : Atom) : Bool :=
  a.hash == b.hash && a.bytes.length == b.bytes.length && a.bytes == b.bytes

theorem diff_atom_same_refl (a : Atom) : diff_atom_same a a = true := by
  simp [diff_atom_same]

theorem diff_atom_same_bytes {a b : Atom} (h : diff_atom_same a b = true) :
    a.bytes = b.bytes := by
  simp [diff_atom_same] at h
  exact h.2

/-- Unsigned int value of a C int expression (conversion int to unsigned). -/
def uint32 (i : Int) : Nat := (i % (2 ^ 32 : Int)).toNat

/-- Unsigned subtraction of two unsigned int values (wraps modulo 2^32). -/
def usub (a b : Nat) : Nat := uint32 ((a : Int) - (b : Int))

/-- View of a side (struct diff_data): a contiguous slice of the root atom
array.  `off` is the index in the root of the first atom of the slice (the C
source carries a pointer into the root array instead; pointer arithmetic
becomes index arithmetic). -/
structure View where
  off : Nat
  atoms : List Atom
  deriving Repr, DecidableEq

def defaultAtom : Atom := ⟨0, [], 0⟩

/-- Atom of a view at a local index (DD_ATOM_AT). -/
def atomAtN (v : View) (i : Nat) : Atom := v.atoms.getD i defaultAtom

/-- Equality test of left atom x against right atom y for the Myers snake
slides.  The C source only guards the upper bounds before dereferencing; a
dereference outside the atom array (possible only on executions this
development proves unreachable) is modelled as comparing unequal. -/
def sameAtXY (l r : View) (x y : Int) : Bool :=
  if 0 ≤ x ∧ x < (l.atoms.length : Int) ∧ 0 ≤ y ∧ y < (r.atoms.length : Int) then
    diff_atom_same (atomAtN l x.toNat) (atomAtN r y.toNat)
  else false

/-- Diff chunk (struct diff_chunk).  Starts are root atom indices; `none`
models a NULL start pointer (always passed together with a zero count). -/
structure Chunk where
  solved : Bool
  lStart : Option Int
  lCount : Nat
  rStart : Option Int
  rCount : Nat
  deriving Repr, DecidableEq

/-- State of one diff invocation (struct diff_state), holding the shared
result chunk list and this level's temp chunk list.  The extra `junks` stream
supplies, one pair per invocation of the Myers divide algorithm, the values of
the two uninitialised local variables prev_x and prev_y that the C source
reads in the backward step at d == 0 (undefined behaviour; the model
quantifies over every possible stream). -/
structure DState where
  chunks : List Chunk
  temp : List Chunk
  junks : List (Int × Int)
  deriving Repr, DecidableEq

/-- diff_state_add_chunk: a solved chunk goes directly to the result when the
temp list is empty, otherwise chunks queue up in the temp list. -/
def addChunk (st : DState) (solved : Bool) (ls : Option Int) (lc : Nat)
    (rs : Option Int) (rcn : Nat) : DState :=
  if solved && st.temp.isEmpty then
    { st with chunks := st.chunks ++ [Chunk.mk solved ls lc rs rcn] }
  else
    { st with temp := st.temp ++ [Chunk.mk solved ls lc rs rcn] }

/-- Result codes that can reach the dispatch loop in the model (allocation
never fails, so ENOMEM is not represented). -/
inductive Rc
  | ok
  | useFallback
  deriving Repr, DecidableEq

/-- Length of the equal head run of the two sides (the while loop at the top
of diff_algo_none). -/
def equalHeadLen : List Atom → List Atom → Nat
  | a :: l', b :: r' => if diff_atom_same a b then equalHeadLen l' r' + 1 else 0
  | _, _ => 0

/-- diff_algo_none: one equal chunk for the identical head run, then one minus
chunk for the remaining left atoms, then one plus chunk for the remaining
right atoms. -/
def diff_algo_none (l r : View) (st : DState) : DState :=
  let e := equalHeadLen l.atoms r.atoms
  let st1 := if 0 < e then
      addChunk st true (some (l.off : Int)) e (some (r.off : Int)) e
    else st
  let st2 := if e < l.atoms.length then
      addChunk st1 true (some ((l.off : Int) + e)) (l.atoms.length - e) none 0
    else st1
  if e < r.atoms.length then
    addChunk st2 true none 0 (some ((r.off : Int) + e)) (r.atoms.length - e)
  else st2

/-! Myers full trace (diff_algo_myers in src/diff_myers.c). -/

/-- C unsigned int `max = left len + right len` of diff_algo_myers. -/
def myersMax (L R : Nat) : Nat := (L + R) % hashMod

/-- size_t `kd_len = max + 1 + max`. -/
def myersKdLen (L R : Nat) : Nat := myersMax L R + 1 + myersMax L R

/-- size_t `kd_buf_size = kd_len * kd_len` (size_t multiplication wraps). -/
def myersKdBufSize (L R : Nat) : Nat := (myersKdLen L R * myersKdLen L R) % sizeTMod

/-- State-size rejection test of diff_algo_myers: overflow of the square, or
more bytes than permitted_state_size. -/
def myersRejects (L R permitted : Nat) : Bool :=
  decide (myersKdBufSize L R < myersKdLen L R ∨
    (myersKdBufSize L R * sizeofInt) % sizeTMod > permitted)

/-- Read of the Myers state buffer.  Slots are initialised to -1; reads
outside the allocation (unreachable on the executions analysed here) are also
modelled as -1. -/
def kdGet (buf : Array Int) (i : Int) : Int :=
  if h : 0 ≤ i ∧ i.toNat < buf.size then buf.get ⟨i.toNat, h.2⟩ else -1

/-- Write of the Myers state buffer; writes outside the allocation
(unreachable on the executions analysed here) are modelled as no-ops. -/
def kdSet (buf : Array Int) (i : Int) (v : Int) : Array Int :=
  if h : 0 ≤ i ∧ i.toNat < buf.size then buf.set ⟨i.toNat, h.2⟩ v else buf

/-- Flat index of diagonal k of column d of the full Myers state matrix: the
column pointer is kd_origin + d * kd_len, and kd_origin sits max slots into
the allocation. -/
def kdIdx (kdLen maxv : Nat) (d : Nat) (k : Int) : Int :=
  (d * kdLen : Nat) + (maxv : Int) + k

/-- Snake slide of the forward traversals: advance x while both coordinates
are in range and the atoms compare equal.  A slide step needs 0 ≤ x < left
length, so fuel (left length + 1) is ample at every call site. -/
def slideDown (l r : View) (k : Int) : Nat → Int → Int
  | 0, x => x
  | fuel + 1, x =>
    if x < (l.atoms.length : Int) ∧ x - k < (r.atoms.length : Int) ∧
        sameAtXY l r x (x - k) = true then
      slideDown l r k fuel (x + 1)
    else x

/-- Inner k loop of one column of the full Myers forward pass.  Returns the
updated buffer and the terminal diagonal when the bottom-right corner was
reached in this column. -/
def myersFwdCol (l r : View) (kdLen maxv d : Nat) :
    Array Int → List Int → Array Int × Option Int
  | buf, [] => (buf, none)
  | buf, k :: ks =>
      let L : Int := l.atoms.length
      let R : Int := r.atoms.length
      if k < -R ∨ k > L then
        if k < 0 then (buf, none)
        else myersFwdCol l r kdLen maxv d buf ks
      else
        let x : Int :=
          if d = 0 then 0
          else if k > -(d : Int) ∧ (k = d ∨ (k - 1 ≥ -R ∧
              kdGet buf (kdIdx kdLen maxv (d - 1) (k - 1)) ≥
                kdGet buf (kdIdx kdLen maxv (d - 1) (k + 1)))) then
            kdGet buf (kdIdx kdLen maxv (d - 1) (k - 1)) + 1
          else
            kdGet buf (kdIdx kdLen maxv (d - 1) (k + 1))
        let x := slideDown l r k (l.atoms.length + 1) x
        let buf := kdSet buf (kdIdx kdLen maxv d k) x
        if x = L ∧ x - k = R then (buf, some k)
        else myersFwdCol l r kdLen maxv d buf ks

/-- Sequence of diagonals visited by a column loop: d, d-2, ..., -d. -/
def kSeq (d : Nat) : List Int :=
  (List.range (d + 1)).map (fun j => (d : Int) - 2 * (j : Int))

/-- Outer d loop of the full Myers forward pass, running columns d = 0..max
until the terminal is found.  The second component is (backtrack_d,
backtrack_k) when the end of both files was reached. -/
def myersFwdLoop (l r : View) (kdLen maxv : Nat) :
    Array Int → Nat → Nat → Array Int × Option (Nat × Int)
  | buf, _, 0 => (buf, none)
  | buf, d, fuel + 1 =>
      match hcol : myersFwdCol l r kdLen maxv d buf (kSeq d) with
      | (buf', some k) => (buf', some (d, k))
      | (buf', none) => myersFwdLoop l r kdLen maxv buf' (d + 1) fuel

/-- Backtrace of the full Myers pass, from column backtrack_d down to column
0, collecting the best position of every column in ascending column order.
The C source stores each pair in slots 0 and 1 of the already-processed
column, which the backtrace itself never reads again, so collecting them in a
list is observationally equivalent. -/
def myersBacktrace (buf : Array Int) (kdLen maxv : Nat) :
    Nat → Int → List (Int × Int)
  | 0, k =>
      let x := kdGet buf (kdIdx kdLen maxv 0 k)
      [(x, x - k)]
  | d + 1, k =>
      let x := kdGet buf (kdIdx kdLen maxv (d + 1) k)
      let y := x - k
      let km := kdGet buf (kdIdx kdLen maxv d (k - 1))
      let kp := kdGet buf (kdIdx kdLen maxv d (k + 1))
      let k' := if y = 0 ∨ (x > 0 ∧ km ≥ kp) then k - 1 else k + 1
      myersBacktrace buf kdLen maxv d k' ++ [(x, y)]

/-- Chunk emission pass of the full Myers algorithm: walk the recorded
positions forward, emitting for each step a one-atom lead-in (when the section
lengths differ by one) followed by the snake as an equal chunk, or a pure
minus / plus chunk.  Returns USE_FALLBACK on the "should never happen" branch
where the section lengths differ by more than one. -/
def myersEmitSteps (l r : View) : DState → Int → Int → List (Int × Int) → Rc × DState
  | st, _, _, [] => (.ok, st)
  | st, x, y, (nx, ny) :: rest =>
      let lsl : Int := nx - x
      let rsl : Int := ny - y
      if lsl ≠ 0 ∧ rsl ≠ 0 then
        if lsl = rsl + 1 then
          let st := addChunk st true (some ((l.off : Int) + x)) 1 (some ((r.off : Int) + y)) 0
          let st := addChunk st true (some ((l.off : Int) + x + 1)) (uint32 (lsl - 1))
            (some ((r.off : Int) + y)) (uint32 rsl)
          myersEmitSteps l r st nx ny rest
        else if rsl = lsl + 1 then
          let st := addChunk st true (some ((l.off : Int) + x)) 0 (some ((r.off : Int) + y)) 1
          let st := addChunk st true (some ((l.off : Int) + x)) (uint32 lsl)
            (some ((r.off : Int) + y + 1)) (uint32 (rsl - 1))
          myersEmitSteps l r st nx ny rest
        else if lsl ≠ rsl then (.useFallback, st)
        else
          let st := addChunk st true (some ((l.off : Int) + x)) (uint32 lsl)
            (some ((r.off : Int) + y)) (uint32 rsl)
          myersEmitSteps l r st nx ny rest
      else if lsl ≠ 0 ∧ rsl = 0 then
        let st := addChunk st true (some ((l.off : Int) + x)) (uint32 lsl)
          (some ((r.off : Int) + y)) 0
        myersEmitSteps l r st nx ny rest
      else if lsl = 0 ∧ rsl ≠ 0 then
        let st := addChunk st true (some ((l.off : Int) + x)) 0
          (some ((r.off : Int) + y)) (uint32 rsl)
        myersEmitSteps l r st nx ny rest
      else myersEmitSteps l r st nx ny rest

/-- diff_algo_myers: the full-trace Myers algorithm.  Rejects oversized state
with USE_FALLBACK.  When the forward pass never reaches the terminal (which
correctness of the pass rules out), the C source leaves backtrack_d at -1,
skips both remaining loops and returns OK without emitting anything. -/
def diff_algo_myers (permitted : Nat) (l r : View) (st : DState) : Rc × DState :=
  let L := l.atoms.length
  let R := r.atoms.length
  if myersRejects L R permitted then (.useFallback, st)
  else
    let maxv := L + R
    let kdLen := 2 * maxv + 1
    let buf := Array.mkArray (kdLen * kdLen) (-1 : Int)
    match myersFwdLoop l r kdLen maxv buf 0 (maxv + 1) with
    | (_, none) => (.ok, st)
    | (buf', some (bd, bk)) =>
        myersEmitSteps l r st 0 0 (myersBacktrace buf' kdLen maxv bd bk)

/-! Myers divide and conquer (diff_algo_myers_divide in src/diff_myers.c). -/

/-- Mid-snake box (struct diff_box); fields are C unsigned int. -/
structure DiffBox where
  leftStart : Nat
  leftEnd : Nat
  rightStart : Nat
  rightEnd : Nat
  deriving Repr, DecidableEq

/-- diff_box_empty tests only left_end == 0. -/
def diffBoxEmpty (b : DiffBox) : Bool := b.leftEnd == 0

/-- Flat index of forward diagonal k: kd_forward = kd_buf + max / 2. -/
def dvFwdIdx (maxv : Nat) (k : Int) : Int := ((maxv / 2 : Nat) : Int) + k

/-- Flat index of backward diagonal c: kd_backward = kd_buf + kd_len + max / 2. -/
def dvBwdIdx (kdLen maxv : Nat) (c : Int) : Int := (kdLen : Int) + ((maxv / 2 : Nat) : Int) + c

/-- Snake slide of the backward traversal: decrease x while both previous
coordinates are positive and the atoms before them compare equal.  As in the
forward slide, reads past the end of an atom array are modelled as unequal;
fuel (left length + 1) is ample since a step needs 0 < x ≤ left length. -/
def slideUp (l r : View) (delta c : Int) : Nat → Int → Int
  | 0, x => x
  | fuel + 1, x =>
    if x > 0 ∧ x - c + delta > 0 ∧ sameAtXY l r (x - 1) (x - c + delta - 1) = true then
      slideUp l r delta c fuel (x - 1)
    else x

/-- One k iteration sequence step of diff_divide_myers_forward.  Returns the
updated buffer and a box when the forward traversal discovered the meeting
point in this call. -/
def dvFwdCol (l r : View) (kdLen maxv d : Nat) :
    Array Int → List Int → Array Int × Option DiffBox
  | buf, [] => (buf, none)
  | buf, k :: ks =>
      let L : Int := l.atoms.length
      let R : Int := r.atoms.length
      let delta : Int := R - L
      if k < -R ∨ k > L then
        if k < 0 then (buf, none)
        else dvFwdCol l r kdLen maxv d buf ks
      else
        let pxy : Int × Int × Int :=
          if d = 0 then (0, 0, 0)
          else if k > -(d : Int) ∧ (k = d ∨ (k - 1 ≥ -R ∧
              kdGet buf (dvFwdIdx maxv (k - 1)) ≥ kdGet buf (dvFwdIdx maxv (k + 1)))) then
            let px := kdGet buf (dvFwdIdx maxv (k - 1))
            (px + 1, px, px - (k - 1))
          else
            let px := kdGet buf (dvFwdIdx maxv (k + 1))
            (px, px, px - (k + 1))
        let x := slideDown l r k (l.atoms.length + 1) pxy.1
        let prevX := pxy.2.1
        let prevY := pxy.2.2
        let buf := kdSet buf (dvFwdIdx maxv k) x
        if x < 0 ∨ x > L ∨ x - k < 0 ∨ x - k > R then
          dvFwdCol l r kdLen maxv d buf ks
        else
          if delta % 2 ≠ 0 ∧ (d : Int) - 1 ≥ 0 then
            let c := k + delta
            if c ≥ -((d : Int) - 1) ∧ c ≤ (d : Int) - 1 then
              let backwardX := kdGet buf (dvBwdIdx kdLen maxv c)
              let backwardY := backwardX - c + delta
              if prevX ≤ backwardX ∧ prevY ≤ backwardY ∧ x ≥ backwardX then
                (buf, some ⟨uint32 backwardX, uint32 x, uint32 (backwardX - c + delta),
                  uint32 (x - k)⟩)
              else dvFwdCol l r kdLen maxv d buf ks
            else dvFwdCol l r kdLen maxv d buf ks
          else dvFwdCol l r kdLen maxv d buf ks

/-- One c iteration sequence step of diff_divide_myers_backward.  For d == 0
the C source reads the uninitialised locals prev_x and prev_y in the meeting
test; their indeterminate values are the junkX and junkY parameters. -/
def dvBwdCol (l r : View) (kdLen maxv d : Nat) (junkX junkY : Int) :
    Array Int → List Int → Array Int × Option DiffBox
  | buf, [] => (buf, none)
  | buf, c :: cs =>
      let L : Int := l.atoms.length
      let R : Int := r.atoms.length
      let delta : Int := R - L
      if c < -L ∨ c > R then
        if c < 0 then (buf, none)
        else dvBwdCol l r kdLen maxv d junkX junkY buf cs
      else
        let pxy : Int × Int × Int :=
          if d = 0 then (L, junkX, junkY)
          else if c > -(d : Int) ∧ (c = d ∨ (c - 1 ≥ -R ∧
              kdGet buf (dvBwdIdx kdLen maxv (c - 1)) ≤
                kdGet buf (dvBwdIdx kdLen maxv (c + 1)))) then
            let px := kdGet buf (dvBwdIdx kdLen maxv (c - 1))
            (px, px, px - (c - 1) + delta)
          else
            let px := kdGet buf (dvBwdIdx kdLen maxv (c + 1))
            (px - 1, px, px - (c + 1) + delta)
        let x := slideUp l r delta c (l.atoms.length + 1) pxy.1
        let prevX := pxy.2.1
        let prevY := pxy.2.2
        let buf := kdSet buf (dvBwdIdx kdLen maxv c) x
        if x < 0 ∨ x > L ∨ x - c + delta < 0 ∨ x - c + delta > R then
          dvBwdCol l r kdLen maxv d junkX junkY buf cs
        else
          if delta % 2 = 0 then
            let k := c - delta
            if k ≥ -(d : Int) ∧ k ≤ (d : Int) then
              let forwardX := kdGet buf (dvFwdIdx maxv k)
              let forwardY := forwardX - k
              if forwardX ≤ prevX ∧ forwardY ≤ prevY ∧ forwardX ≥ x then
                (buf, some ⟨uint32 x, uint32 forwardX, uint32 (x - c + delta),
                  uint32 (forwardX - k)⟩)
              else dvBwdCol l r kdLen maxv d junkX junkY buf cs
            else dvBwdCol l r kdLen maxv d junkX junkY buf cs
          else dvBwdCol l r kdLen maxv d junkX junkY buf cs

/-- Outer d loop of diff_algo_myers_divide: forward step then backward step,
stopping as soon as the mid-snake box is non-empty (left_end not 0).  A
meeting whose box is empty by that test is recorded but does not stop the
search. -/
def dvLoop (l r : View) (kdLen maxv : Nat) (junkX junkY : Int) :
    Array Int → DiffBox → Nat → Nat → DiffBox
  | _, box, _, 0 => box
  | buf, box, d, fuel + 1 =>
      let (buf1, fb) := dvFwdCol l r kdLen maxv d buf (kSeq d)
      let box1 := fb.getD box
      if diffBoxEmpty box1 = false then box1
      else
        let (buf2, bb) := dvBwdCol l r kdLen maxv d junkX junkY buf1 (kSeq d)
        let box2 := bb.getD box1
        if diffBoxEmpty box2 = false then box2
        else dvLoop l r kdLen maxv junkX junkY buf2 box2 (d + 1) fuel

/-- Emission of one section around the mid-snake: unsolved when both sides
are non-empty, otherwise a solved minus or plus chunk. -/
def dvSection (st : DState) (lAt : Int) (lLen : Nat) (rAt : Int) (rLen : Nat) : DState :=
  if lLen ≠ 0 ∧ rLen ≠ 0 then addChunk st false (some lAt) lLen (some rAt) rLen
  else if lLen ≠ 0 ∧ rLen = 0 then addChunk st true (some lAt) lLen (some rAt) 0
  else if lLen = 0 ∧ rLen ≠ 0 then addChunk st true (some lAt) 0 (some rAt) rLen
  else st

/-- diff_algo_myers_divide: find the mid-snake with the bidirectional search,
then emit the section before it, the mid-snake itself as a solved equal chunk,
and the section after it.  Returns USE_FALLBACK when no (non-empty) meeting
point was found.  The junk pair models the uninitialised prev_x and prev_y of
the backward step at d == 0. -/
def diff_algo_myers_divide (junkX junkY : Int) (l r : View) (st : DState) : Rc × DState :=
  let L := l.atoms.length
  let R := r.atoms.length
  let maxv := L + R
  let kdLen := maxv + 1
  let buf := Array.mkArray (2 * kdLen) (-1 : Int)
  let box := dvLoop l r kdLen maxv junkX junkY buf ⟨0, 0, 0, 0⟩ 0 (maxv / 2 + 1)
  if diffBoxEmpty box then (.useFallback, st)
  else
    let st := dvSection st (l.off : Int) box.leftStart (r.off : Int) box.rightStart
    let st := addChunk st true (some ((l.off : Int) + box.leftStart))
      (usub box.leftEnd box.leftStart)
      (some ((r.off : Int) + box.rightStart)) (usub box.rightEnd box.rightStart)
    let st := dvSection st ((l.off : Int) + box.leftEnd) (usub L box.leftEnd)
      ((r.off : Int) + box.rightEnd) (usub R box.rightEnd)
    (.ok, st)

/-! Patience (diff_algo_patience in src/diff_patience.c).  The per-atom
scratch state that the C source stores inside struct diff_atom is modelled as
side arrays indexed by the local atom index of the view: unique_here,
unique_in_both and identical_lines per side, and pos_in_other as an optional
index into the other side (none models a NULL pointer). -/

def aget (a : Array Bool) (i : Nat) : Bool := a.getD i false

def aset {α : Type} (a : Array α) (i : Nat) (v : α) : Array α :=
  if h : i < a.size then a.set ⟨i, h⟩ v else a

def atomA (a : Array Atom) (i : Nat) : Atom := a.getD i defaultAtom

def pget (a : Array (Option Nat)) (i : Nat) : Option Nat := a.getD i none

/-- Inner forward scan of diff_atoms_mark_unique for one atom i: unmark every
later duplicate (and i itself on the first duplicate found), decrementing the
count accordingly. -/
def muInner (va : Array Atom) (i : Nat) (s : Array Bool × Array Bool × Nat) :
    Array Bool × Array Bool × Nat :=
  (List.range' (i + 1) (va.size - (i + 1))).foldl (fun s j =>
    if diff_atom_same (atomA va i) (atomA va j) then
      let s1 := if aget s.1 i then (aset s.1 i false, aset s.2.1 i false, s.2.2 - 1) else s
      (aset s1.1 j false, aset s1.2.1 j false, s1.2.2 - 1)
    else s) s

/-- diff_atoms_mark_unique: mark every atom, then scan forward from each atom
that is still marked.  Returns (unique_here, unique_in_both, count). -/
def markUnique (va : Array Atom) : Array Bool × Array Bool × Nat :=
  (List.range va.size).foldl (fun s i => if aget s.1 i then muInner va i s else s)
    (Array.mkArray va.size true, Array.mkArray va.size true, va.size)

/-- Right-hand scan of the cross-match phase for one left atom: find matching
right atoms, recording the mutual pos_in_other on every match that is unique
on the right, stopping with found = 2 at the first match that is not. -/
def cmScan (vl vr : Array Atom) (uhR : Array Bool) (i : Nat) :
    List Nat → Nat × Array (Option Nat) × Array (Option Nat) →
      Nat × Array (Option Nat) × Array (Option Nat)
  | [], s => s
  | j :: js, (found, posL, posR) =>
      if diff_atom_same (atomA vl i) (atomA vr j) = false then
        cmScan vl vr uhR i js (found, posL, posR)
      else if aget uhR j = false then (2, posL, posR)
      else cmScan vl vr uhR i js (1, aset posL i (some j), aset posR j (some i))

/-- diff_atoms_mark_unique_in_both: mark each side's unique atoms, cross-match
left uniques against the right side, then sweep the right side clearing
unique_in_both on atoms with no surviving mate on the left.  Returns the left
and right unique_in_both arrays, both pos_in_other arrays and the count. -/
def markUniqueInBoth (vl vr : Array Atom) :
    Array Bool × Array (Option Nat) × Array Bool × Array (Option Nat) × Nat :=
  let ml := markUnique vl
  let mr := markUnique vr
  let uhL := ml.1
  let uhR := mr.1
  let sweep := (List.range vl.size).foldl (fun s i =>
      if aget uhL i = false then s
      else
        let scanned := cmScan vl vr uhR i (List.range vr.size) (0, s.2.1, s.2.2.1)
        if scanned.1 = 0 ∨ 1 < scanned.1 then
          (aset s.1 i false, scanned.2.1, scanned.2.2, s.2.2.2 - 1)
        else (s.1, scanned.2.1, scanned.2.2, s.2.2.2))
    (ml.2.1, Array.mkArray vl.size (none : Option Nat),
      Array.mkArray vr.size (none : Option Nat), ml.2.2)
  let uibL := sweep.1
  let uibR := (List.range vr.size).foldl (fun uibR j =>
      if aget uhR j = false ∨ aget uibR j = false then uibR
      else if (List.range vl.size).any (fun i =>
          aget uibL i && diff_atom_same (atomA vr j) (atomA vl i)) then uibR
      else aset uibR j false) mr.2.1
  (uibL, sweep.2.1, uibR, sweep.2.2.1, sweep.2.2.2)

/-- Upward swallow of diff_atoms_swallow_identical_neighbors: extend the
identical range upwards while above the previous range and the preceding
atoms compare equal (structural recursion on the left position). -/
def swUp (vl vr : Array Atom) (lMin rMin : Nat) : Nat → Nat → Nat × Nat
  | 0, rs => (0, rs)
  | ls + 1, rs =>
    if ls + 1 > lMin ∧ rs > rMin ∧
        diff_atom_same (atomA vl ls) (atomA vr (rs - 1)) = true then
      swUp vl vr lMin rMin ls (rs - 1)
    else (ls + 1, rs)

/-- Downward swallow: extend the identical range downwards, clearing
unique_in_both on every absorbed common-unique atom pair.  Returns the
range ends, the updated marks and count, and the next outer loop index.  A
step needs le < left size, so fuel (left size + 1) is ample. -/
def swDown (vl vr : Array Atom) :
    Nat → Nat → Nat → Nat → Array Bool → Array Bool → Nat →
      Nat × Nat × Array Bool × Array Bool × Nat × Nat
  | 0, le, re, nxt, uibL, uibR, cnt => (le, re, uibL, uibR, cnt, nxt)
  | fuel + 1, le, re, nxt, uibL, uibR, cnt =>
    if le < vl.size ∧ re < vr.size ∧
        diff_atom_same (atomA vl le) (atomA vr re) = true then
      if aget uibL le then
        swDown vl vr fuel (le + 1) (re + 1) (nxt + 1)
          (aset uibL le false) (aset uibR re false) (cnt - 1)
      else
        swDown vl vr fuel (le + 1) (re + 1) (nxt + 1) uibL uibR cnt
    else (le, re, uibL, uibR, cnt, nxt)

/-- Per-invocation state of the swallow phase: unique_in_both marks of both
sides, identical_lines ranges of both sides, and the running count. -/
structure SwallowSt where
  uibL : Array Bool
  uibR : Array Bool
  idL : Array (Nat × Nat)
  idR : Array (Nat × Nat)
  cnt : Nat

/-- Outer loop of diff_atoms_swallow_identical_neighbors over the left atoms:
each surviving common-unique atom swallows identical neighbours upwards (not
below the previous range) and downwards, the absorbed common-unique atoms
losing their mark; the outer loop resumes after the swallowed range. -/
def swallowLoop (vl vr : Array Atom) (posL : Array (Option Nat)) :
    Nat → Nat → Nat → Nat → SwallowSt → SwallowSt
  | 0, _, _, _, s => s
  | fuel + 1, lIdx, lMin, rMin, s =>
      if vl.size ≤ lIdx then s
      else if aget s.uibL lIdx = false then
        swallowLoop vl vr posL fuel (lIdx + 1) lMin rMin s
      else
        let rIdx := (pget posL lIdx).getD vr.size
        let up := swUp vl vr lMin rMin lIdx rIdx
        let dn := swDown vl vr (vl.size + 1) (lIdx + 1) (rIdx + 1) (lIdx + 1)
          s.uibL s.uibR s.cnt
        let s' : SwallowSt :=
          { uibL := dn.2.2.1, uibR := dn.2.2.2.1,
            idL := aset s.idL lIdx (up.1, dn.1),
            idR := aset s.idR rIdx (up.2, dn.2.1),
            cnt := dn.2.2.2.2.1 }
        swallowLoop vl vr posL fuel dn.2.2.2.2.2 dn.1 dn.2.1 s'

/-- Binary search of the patience sort: find the leftmost stack whose top has
a pos_in_other not less than the candidate's.  Every step shrinks the
interval, so fuel (hi + 1) is ample. -/
def psearch (pstacks : Array Nat) (posL : Array (Option Nat)) (m : Nat) (pos : Nat) :
    Nat → Nat → Nat → Nat
  | 0, lo, _ => lo
  | fuel + 1, lo, hi =>
    if lo < hi then
      let mid := (lo + hi) >>> 1
      if (pget posL (pstacks.getD mid 0)).getD m < pos then
        psearch pstacks posL m pos fuel (mid + 1) hi
      else
        psearch pstacks posL m pos fuel lo mid
    else lo

/-- Placement loop of the patience sort over the collected common-unique left
atoms, in left order: each is placed on the leftmost stack whose top lies
further right on the other side, or opens a new stack; its prev_stack link
records the top of the stack immediately to the left at placement time. -/
def placeUniques (posL : Array (Option Nat)) (m : Nat) :
    List Nat → Array Nat × Nat × Array (Option Nat) →
      Array Nat × Nat × Array (Option Nat)
  | [], s => s
  | i :: is, (pstacks, cnt, prevStack) =>
      let pos := (pget posL i).getD m
      let target := if cnt = 0 then 0 else psearch pstacks posL m pos (cnt + 1) 0 cnt
      let pstacks := aset pstacks target i
      let cnt' := if target = cnt then cnt + 1 else cnt
      let prevStack := aset prevStack i
        (if target = 0 then none else some (pstacks.getD (target - 1) 0))
      placeUniques posL m is (pstacks, cnt', prevStack)

/-- Backtrace through the prev_stack links, building the LCS in left order. -/
def chainBack (prevStack : Array (Option Nat)) : Nat → Nat → List Nat
  | 0, cur => [cur]
  | fuel + 1, cur =>
      match pget prevStack cur with
      | none => [cur]
      | some p => chainBack prevStack fuel p ++ [cur]

/-- Emission of one gap between patience anchors: an unsolved chunk when both
sides are non-empty, otherwise a solved minus or plus chunk (section lengths
are C unsigned subtractions). -/
def patGap (l r : View) (leftPos li rightPos ri : Nat) (st : DState) : DState :=
  let lsl := usub li leftPos
  let rsl := usub ri rightPos
  if lsl ≠ 0 ∧ rsl ≠ 0 then
    addChunk st false (some ((l.off : Int) + leftPos)) lsl (some ((r.off : Int) + rightPos)) rsl
  else if lsl ≠ 0 ∧ rsl = 0 then
    addChunk st true (some ((l.off : Int) + leftPos)) lsl (some ((r.off : Int) + rightPos)) 0
  else if lsl = 0 ∧ rsl ≠ 0 then
    addChunk st true (some ((l.off : Int) + leftPos)) 0 (some ((r.off : Int) + rightPos)) rsl
  else st

/-- Emission loop of diff_algo_patience over the LCS: for each anchor, the gap
before it and then its identical_lines range as a solved equal chunk; one
final iteration emits the trailing gap. -/
def patEmit (l r : View) (posL : Array (Option Nat)) (idL idR : Array (Nat × Nat)) :
    List Nat → Nat → Nat → DState → DState
  | [], leftPos, rightPos, st =>
      patGap l r leftPos l.atoms.length rightPos r.atoms.length st
  | a :: rest, leftPos, rightPos, st =>
      let ar := (pget posL a).getD r.atoms.length
      let rangeL := idL.getD a (0, 0)
      let rangeR := idR.getD ar (0, 0)
      let st := patGap l r leftPos rangeL.1 rightPos rangeR.1 st
      let st := addChunk st true (some ((l.off : Int) + rangeL.1)) (rangeL.2 - rangeL.1)
        (some ((r.off : Int) + rangeR.1)) (rangeR.2 - rangeR.1)
      patEmit l r posL idL idR rest rangeL.2 rangeR.2 st

/-- diff_algo_patience: mark common-unique atoms, fall back when there are
none, swallow identical neighbours, compute the LCS by patience sort, and
emit the gaps and anchors. -/
def diff_algo_patience (l r : View) (st : DState) : Rc × DState :=
  let vl := l.atoms.toArray
  let vr := r.atoms.toArray
  let marks := markUniqueInBoth vl vr
  let posL := marks.2.1
  if marks.2.2.2.2 = 0 then (.useFallback, st)
  else
    let sw := swallowLoop vl vr posL (vl.size + 1) 0 0 0
      ⟨marks.1, marks.2.2.1, Array.mkArray vl.size (0, 0), Array.mkArray vr.size (0, 0),
        marks.2.2.2.2⟩
    let uniques := (List.range vl.size).filter (fun i => aget sw.uibL i)
    let placed := placeUniques posL vr.size uniques
      (Array.mkArray vl.size 0, 0, Array.mkArray vl.size (none : Option Nat))
    let lcsTail := placed.1.getD (placed.2.1 - 1) 0
    let lcs := chainBack placed.2.2 vl.size lcsTail
    (.ok, patEmit l r posL sw.idL sw.idR lcs 0 0 st)

/-! Algorithm framework (diff_run_algo and diff_main in src/diff_main.c), and
the default algorithm configuration of src/diff.c. -/

/-- The three algorithm implementations that a config can point at. -/
inductive ImplKind
  | myersFull
  | myersDiv
  | patienceAlgo
  deriving Repr, DecidableEq

/-- struct diff_algo_config.  inner and fallback reference other configs by
index into a table (the C source links them by pointer; cycles are allowed). -/
structure AlgoConf where
  impl : Option ImplKind
  permittedStateSize : Nat
  innerAlgo : Option Nat
  fallbackAlgo : Option Nat
  deriving Repr, DecidableEq

abbrev ConfTable := List AlgoConf

/-- Dispatch to an algorithm implementation.  The Myers divide algorithm
additionally consumes one junk pair from the stream modelling its
uninitialised locals. -/
def runImpl (ik : ImplKind) (permitted : Nat) (l r : View) (st : DState) : Rc × DState :=
  match ik with
  | .myersFull => diff_algo_myers permitted l r st
  | .myersDiv =>
      let j := st.junks.headD (0, 0)
      diff_algo_myers_divide j.1 j.2 l r { st with junks := st.junks.tail }
  | .patienceAlgo => diff_algo_patience l r st

/-- Sub-view of a root atom list for recursing into an unsolved chunk
(diff_data_init_subsection): the slice of the root starting at the chunk's
start index. -/
def subView (root : List Atom) (s cnt : Nat) : View :=
  ⟨s, (root.drop s).take cnt⟩

/-- diff_run_algo.  The fuel argument bounds the number of nested
diff_run_algo activations; the C source has no such bound and simply recurses
(`none` models a run that is still recursing when the fuel is spent).  Temp is
cleared on entry, the configured implementation runs, USE_FALLBACK recurses
into the fallback config with the same state and depth, and on OK the temp
chunks are drained in order: solved ones are appended to the result, and
unsolved ones are recursed into with the inner config, decremented depth, and
a fresh inner state sharing the result list. -/
def runAlgo (tbl : ConfTable) (lroot rroot : List Atom) :
    Nat → Option Nat → Nat → View → View → DState → Option DState
  | 0, _, _, _, _, _ => none
  | fuel + 1, confIdx, depth, l, r, st =>
      let st := { st with temp := [] }
      match confIdx.bind (fun i => tbl.get? i) with
      | none => some (diff_algo_none l r st)
      | some conf =>
          match conf.impl with
          | none => some (diff_algo_none l r st)
          | some ik =>
              if depth = 0 then some (diff_algo_none l r st)
              else
                match runImpl ik conf.permittedStateSize l r st with
                | (.useFallback, st') =>
                    runAlgo tbl lroot rroot fuel conf.fallbackAlgo depth l r st'
                | (.ok, st') =>
                    let drained := st'.temp.foldl (fun acc c =>
                      match acc with
                      | none => none
                      | some stA =>
                          if c.solved then
                            some { stA with chunks := stA.chunks ++ [c] }
                          else
                            let lv := subView lroot (c.lStart.getD 0).toNat c.lCount
                            let rv := subView rroot (c.rStart.getD 0).toNat c.rCount
                            match runAlgo tbl lroot rroot fuel conf.innerAlgo
                                (depth - 1) lv rv ⟨stA.chunks, [], stA.junks⟩ with
                            | none => none
                            | some stB => some ⟨stB.chunks, stA.temp, stB.junks⟩)
                      (some st')
                    match drained with
                    | none => none
                    | some st'' => some { st'' with temp := [] }

/-- The default algorithm configuration of src/diff.c: index 0 is the Myers
full-trace root with its state budget and Patience as fallback, index 1 is
Patience with itself as inner and Myers divide as fallback, index 2 is Myers
divide with the root as inner and no fallback. -/
def defaultTable : ConfTable :=
  [ ⟨some .myersFull, 1024 * 1024 * sizeofInt, none, some 1⟩,
    ⟨some .patienceAlgo, 0, some 1, some 2⟩,
    ⟨some .myersDiv, 0, some 0, none⟩ ]

/-- Nested diff_run_algo activations never exceed three per recursion level
(root, fallback Patience, fallback Myers divide), so this fuel is ample for
the default depth of 1024. -/
def diffMainFuel : Nat := 4 * 1025

/-- diff_main with the configuration of src/diff.c: atomise both buffers by
line and run the root algorithm at recursion depth 1024 over the full views.
The junk stream feeds the uninitialised locals of the Myers divide steps. -/
def diffMain (junks : List (Int × Int)) (ldata rdata : List Nat) : Option DState :=
  let latoms := atomize ldata
  let ratoms := atomize rdata
  runAlgo defaultTable latoms ratoms diffMainFuel (some 0) 1024
    ⟨0, latoms⟩ ⟨0, ratoms⟩ ⟨[], [], junks⟩

/-! Derived notions used to state the claims. -/

/-- Atom list that starts at root index n, every atom adjacent to its
predecessor and non-empty. -/
def contiguousFrom : Nat → List Atom → Prop
  | _, [] => True
  | n, a :: rest => a.off = n ∧ a.bytes ≠ [] ∧ contiguousFrom (n + a.bytes.length) rest

/-- Hash formula asserted by the specification for claim C5: fold
h := 23 h + b over every byte of a slice (terminators included when applied
to a whole atom). -/
def specHashEveryByte (bytes : List Nat) : Nat :=
  bytes.foldl (fun h b => (h * 23 + b) % hashMod) 0

/-- Test of a non-terminator byte. -/
def nonTerm (b : Nat) : Bool := !(b == crByte || b == lfByte)

/-! Support lemmas about the atomiser. -/

theorem scanPayload_hash (cur : List Nat) (h : Nat) :
    (scanPayload cur h).2.1 =
      (cur.take (scanPayload cur h).1).foldl (fun h b => (h * 23 + b) % hashMod) h := by
  induction cur generalizing h with
  | nil => simp [scanPayload]
  | cons b bs ih =>
    rw [scanPayload]
    split
    · have h2 := ih ((h * 23 + b) % hashMod)
      rcases hres : scanPayload bs ((h * 23 + b) % hashMod) with ⟨n, h', rest⟩
      rw [hres] at h2
      simp at h2 ⊢
      exact h2
    · simp

theorem scanPayload_nonterm (cur : List Nat) (h : Nat) :
    ∀ b ∈ cur.take (scanPayload cur h).1, nonTerm b = true := by
  induction cur generalizing h with
  | nil => simp [scanPayload]
  | cons b bs ih =>
    rw [scanPayload]
    split
    · next hb =>
      have h2 := ih ((h * 23 + b) % hashMod)
      rcases hres : scanPayload bs ((h * 23 + b) % hashMod) with ⟨n, h', rest⟩
      rw [hres] at h2
      simp at h2 ⊢
      constructor
      · simp [nonTerm]
        exact ⟨hb.1, hb.2⟩
      · exact h2
    · simp

theorem scanPayload_stopTerm (cur : List Nat) (h : Nat) :
    (scanPayload cur h).2.2 = [] ∨ nonTerm ((scanPayload cur h).2.2.headD 0) = false := by
  induction cur generalizing h with
  | nil => simp [scanPayload]
  | cons b bs ih =>
    rw [scanPayload]
    split
    · have h2 := ih ((h * 23 + b) % hashMod)
      rcases hres : scanPayload bs ((h * 23 + b) % hashMod) with ⟨n, h', rest⟩
      rw [hres] at h2
      simpa using h2
    · next hb =>
      right
      simp [nonTerm]
      by_contra hc
      push_neg at hc
      exact hb ⟨hc.1, hc.2⟩

/-- takeWhile of a list whose front satisfies the test and whose remainder, if
any, starts with a failing element. -/
theorem takeWhile_front (p : Nat → Bool) (l1 l2 : List Nat)
    (h1 : ∀ b ∈ l1, p b = true) (h2 : l2 = [] ∨ p (l2.headD 0) = false) :
    (l1 ++ l2).takeWhile p = l1 := by
  induction l1 with
  | nil =>
    rcases h2 with h2 | h2
    · simp [h2]
    · rcases l2 with _ | ⟨c, cs⟩
      · simp
      · simp at h2
        simp [List.takeWhile, h2]
  | cons b bs ih =>
    have hb := h1 b (List.mem_cons_self b bs)
    simp [List.takeWhile, hb]
    exact ih (fun x hx => h1 x (List.mem_cons_of_mem b hx))

theorem lineLen_eq (cur : List Nat) (p h : Nat) (rest : List Nat)
    (hsp : scanPayload cur 0 = (p, h, rest)) :
    lineLen cur = p + (if rest = [] then 0 else 1) +
      crlfExtra (rest.drop (if rest = [] then 0 else 1)) := by
  simp only [lineLen, hsp]

theorem lineLen_ge_payload (cur : List Nat) : (scanPayload cur 0).1 ≤ lineLen cur := by
  rcases hsp : scanPayload cur 0 with ⟨p, h, rest⟩
  rw [lineLen_eq cur p h rest hsp]
  simp only [hsp]
  split <;> omega

/-- Bytes of a line-atom before the first terminator are exactly the scanned
payload. -/
theorem take_lineLen_takeWhile (cur : List Nat) :
    (cur.take (lineLen cur)).takeWhile nonTerm = cur.take (scanPayload cur 0).1 := by
  have hp := lineLen_ge_payload cur
  have hsplit : cur.take (lineLen cur) =
      cur.take (scanPayload cur 0).1 ++
        (cur.drop (scanPayload cur 0).1).take (lineLen cur - (scanPayload cur 0).1) := by
    rw [← List.take_add]
    congr 1
    omega
  rw [hsplit]
  apply takeWhile_front
  · exact scanPayload_nonterm cur 0
  · rcases hstop : scanPayload cur 0 with ⟨p, h, rest⟩
    have hrest : cur.drop p = rest := by
      have h2 := scanPayload_rest cur 0
      rw [hstop] at h2
      exact h2.symm
    have hp' : p ≤ lineLen cur := by
      have := hp
      rw [hstop] at this
      exact this
    simp only [hstop]
    rw [hrest]
    rcases hr : rest with _ | ⟨c, cs⟩
    · left
      simp
    · by_cases hlen : lineLen cur = p
      · left
        simp [hlen]
      · right
        have hterm := scanPayload_stopTerm cur 0
        rw [hstop] at hterm
        rw [hr] at hterm
        simp at hterm
        rcases hn : lineLen cur - p with _ | n
        · omega
        · simp [hn]
          exact hterm

/-- Hash of a line-atom is the 23-fold over the payload only. -/
theorem lineHash_eq (cur : List Nat) :
    (scanPayload cur 0).2.1 = specHashEveryByte (cur.take (scanPayload cur 0).1) := by
  have := scanPayload_hash cur 0
  rw [this]
  rfl

/-- Partition property of the atomiser loop. -/
theorem atomizeFrom_partition (fuel : Nat) :
    ∀ cur pos, cur.length < fuel →
      ((atomizeFrom fuel cur pos).map Atom.bytes).flatten = cur ∧
        contiguousFrom pos (atomizeFrom fuel cur pos) := by
  induction fuel with
  | zero => intro cur pos h; omega
  | succ fuel ih =>
    intro cur pos h
    rcases cur with _ | ⟨b, bs⟩
    · simp [atomizeFrom, contiguousFrom]
    · rw [atomizeFrom]
      have hpos := lineLen_pos b bs
      have hle := lineLen_le b bs
      have hlen : ((b :: bs).take (lineLen (b :: bs))).length = lineLen (b :: bs) := by
        simp only [List.length_take, List.length_cons]
        simp only [List.length_cons] at hle
        omega
      have hrest := ih ((b :: bs).drop (lineLen (b :: bs))) (pos + lineLen (b :: bs))
        (by
          simp only [List.length_drop, List.length_cons] at h ⊢
          simp only [List.length_cons] at hle
          omega)
      constructor
      · simp only [List.map_cons, List.flatten_cons]
        rw [hrest.1]
        exact List.take_append_drop _ _
      · refine ⟨rfl, ?_, ?_⟩
        · intro hnil
          have h0 : ((b :: bs).take (lineLen (b :: bs))).length = 0 := by
            have hx : (b :: bs).take (lineLen (b :: bs)) = [] := hnil
            rw [hx]
            rfl
          omega
        · rw [hlen]
          exact hrest.2

/-- Hashes of all atoms produced by the atomiser loop. -/
theorem atomizeFrom_hash (fuel : Nat) :
    ∀ cur pos a, a ∈ atomizeFrom fuel cur pos →
      a.hash = specHashEveryByte (a.bytes.takeWhile nonTerm) := by
  induction fuel with
  | zero => intro cur pos a ha; simp [atomizeFrom] at ha
  | succ fuel ih =>
    intro cur pos a ha
    rcases cur with _ | ⟨b, bs⟩
    · simp [atomizeFrom] at ha
    · rw [atomizeFrom] at ha
      rcases List.mem_cons.mp ha with hhd | htl
      · subst hhd
        simp only []
        rw [take_lineLen_takeWhile (b :: bs)]
        exact lineHash_eq (b :: bs)
      · exact ih _ _ a htl

end Diff

namespace Diff

/-! Claim theorems about the atomiser. -/

/-- Claim C4 (code bug): the claim says the line atomiser pulls an LF that
directly follows a CR into the same atom, as the source's own comment
announces; but the CRLF check of the code runs after line_end was already
advanced past the terminator, so the buffer "bar\x0d\x0a" is split into the
two atoms "bar\x0d" and "\x0a" instead of one atom. -/
theorem C4_crlf_split :
    (atomize [98, 97, 114, 13, 10]).map Atom.bytes = [[98, 97, 114, 13], [10]] := by decide

/-- Claim C5, counterexample: for the buffer "a\x0a" the single atom stores
hash 97 (the fold over the payload byte only), not the fold 97 * 23 + 10 =
2241 over every byte of the atom as the claim asserts. -/
theorem C5_hash_counterexample :
    (atomize [97, 10]).map Atom.hash = [97] ∧
      specHashEveryByte [97, 10] = 2241 ∧ (97 : Nat) ≠ 2241 := by decide

/-- Claim C5, amended: the stored hash of every atom equals the fold
h := 23 h + b over the atom's bytes strictly before its first line-terminator
byte; the terminator bytes are not hashed. -/
theorem C5_hash_amended (data : List Nat) (a : Atom) (ha : a ∈ atomize data) :
    a.hash = specHashEveryByte (a.bytes.takeWhile nonTerm) :=
  atomizeFrom_hash (data.length + 1) data 0 a ha

theorem C5_hash_amended_witness :
    (Atom.mk 0 [97, 10] 97) ∈ atomize [97, 10] ∧
      (Atom.mk 0 [97, 10] 97).hash =
        specHashEveryByte ((Atom.mk 0 [97, 10] 97).bytes.takeWhile nonTerm) :=
  ⟨by decide, C5_hash_amended [97, 10] (Atom.mk 0 [97, 10] 97) (by decide)⟩

/-- Claim C10: the atoms of a buffer partition it: concatenating the atom
slices in order restores the buffer, the first atom starts at offset 0, each
atom is non-empty and starts where its predecessor ended (so the last one
ends at the buffer's end), and an empty buffer yields no atoms. -/
theorem C10_atomize_partition (data : List Nat) :
    ((atomize data).map Atom.bytes).flatten = data ∧
      contiguousFrom 0 (atomize data) ∧
      (data = [] → atomize data = []) := by
  have h := atomizeFrom_partition (data.length + 1) data 0 (Nat.lt_succ_self _)
  refine ⟨h.1, h.2, ?_⟩
  intro hd
  subst hd
  rfl

end Diff


namespace Diff

/-! Claim theorems about the default pipeline configuration and the Myers
state-size check. -/

/-- Claim C9, counterexample: the root Myers config of src/diff.c sets
permitted_state_size = 1024 * 1024 * sizeof(int) = 4194304 bytes (4 MiB), not
1 MiB as the claim says. -/
theorem C9_pipeline_counterexample :
    (defaultTable.get? 0).map (fun c => c.permittedStateSize) = some 4194304 ∧
      (4194304 : Nat) ≠ 1024 * 1024 := by decide

/-- Claim C9, amended: the default pipeline is root MyersFull with
permitted_state_size = 1024 * 1024 * sizeof(int) bytes (4 MiB) and fallback
Patience; Patience with itself as inner algorithm and fallback MyersDivide;
MyersDivide with MyersFull as inner algorithm and no fallback (hence
algorithm "none" on its failure). -/
theorem C9_pipeline_amended :
    defaultTable =
      [ AlgoConf.mk (some .myersFull) (1024 * 1024 * sizeofInt) none (some 1),
        AlgoConf.mk (some .patienceAlgo) 0 (some 1) (some 2),
        AlgoConf.mk (some .myersDiv) 0 (some 0) none ] ∧
      1024 * 1024 * sizeofInt = 4 * 1024 * 1024 := by decide

/-- Claim C6, counterexample: with one atom per side and
permitted_state_size = 50, the claim's formula (1+1+1)^2 * sizeof(int) = 36
does not exceed 50, yet diff_algo_myers rejects and returns USE_FALLBACK
without emitting, because the state is really (2*(1+1)+1)^2 = 25 ints = 100
bytes. -/
theorem C6_state_size_counterexample :
    diff_algo_myers 50 (View.mk 0 (atomize [97, 10])) (View.mk 0 (atomize [98, 10]))
        (DState.mk [] [] []) = (.useFallback, DState.mk [] [] []) ∧
      ¬ ((1 + 1 + 1) ^ 2 * sizeofInt > 50) := by decide

/-- Claim C6, amended: diff_algo_myers returns USE_FALLBACK with the state
untouched (so no chunk emitted) whenever its state-size check fires; for
sides below the overflow range the check fires exactly when
(2*(L+R)+1)^2 * sizeof(int) bytes exceed permitted_state_size; and
permitted_state_size = 0 does not mean "no limitation" (as the header comment
claims) but fires the check for every input. -/
theorem C6_state_size_amended (p : Nat) (l r : View) (st : DState) :
    (myersRejects l.atoms.length r.atoms.length p = true →
        diff_algo_myers p l r st = (.useFallback, st)) ∧
      (l.atoms.length + r.atoms.length < 2 ^ 30 →
        (myersRejects l.atoms.length r.atoms.length p = true ↔
          (2 * (l.atoms.length + r.atoms.length) + 1) ^ 2 * sizeofInt > p)) ∧
      myersRejects l.atoms.length r.atoms.length 0 = true := by
  have hodd : ∀ L R : Nat, myersKdLen L R % 2 = 1 := by
    intro L R
    unfold myersKdLen
    omega
  refine ⟨?_, ?_, ?_⟩
  · intro h
    simp [diff_algo_myers, h]
  · intro hsz
    set L := l.atoms.length
    set R := r.atoms.length
    have hmax : myersMax L R = L + R := by
      unfold myersMax hashMod
      apply Nat.mod_eq_of_lt
      omega
    have hkd : myersKdLen L R = 2 * (L + R) + 1 := by
      unfold myersKdLen
      rw [hmax]
      omega
    have hsq : myersKdLen L R * myersKdLen L R < sizeTMod := by
      rw [hkd]
      unfold sizeTMod
      nlinarith
    have hbuf : myersKdBufSize L R = myersKdLen L R * myersKdLen L R := by
      unfold myersKdBufSize
      exact Nat.mod_eq_of_lt hsq
    have hbytes : myersKdBufSize L R * sizeofInt < sizeTMod := by
      rw [hbuf, hkd]
      unfold sizeTMod sizeofInt
      unfold sizeTMod at hsq
      rw [hkd] at hsq
      nlinarith
    unfold myersRejects
    rw [hbuf] at hbytes ⊢
    rw [Nat.mod_eq_of_lt hbytes]
    rw [hkd]
    have hge : ¬ ((2 * (L + R) + 1) * (2 * (L + R) + 1) < 2 * (L + R) + 1) := by
      nlinarith
    constructor
    · intro h
      have h2 := of_decide_eq_true h
      rcases h2 with h2 | h2
      · exact absurd h2 hge
      · calc (2 * (L + R) + 1) ^ 2 * sizeofInt
            = (2 * (L + R) + 1) * (2 * (L + R) + 1) * sizeofInt := by ring
          _ > p := h2
    · intro h
      apply decide_eq_true
      right
      calc (2 * (L + R) + 1) * (2 * (L + R) + 1) * sizeofInt
          = (2 * (L + R) + 1) ^ 2 * sizeofInt := by ring
        _ > p := h
  · unfold myersRejects
    apply decide_eq_true
    right
    set K := myersKdLen l.atoms.length r.atoms.length with hK
    have ho : K % 2 = 1 := hodd _ _
    have hsqo : (K * K) % 2 = 1 := by
      conv_lhs => rw [Nat.mul_mod, ho]
    unfold myersKdBufSize
    rw [← hK]
    unfold sizeTMod sizeofInt
    omega

end Diff

namespace Diff

theorem C6_state_size_amended_witness :
    diff_algo_myers 50 (View.mk 0 (atomize [97, 10])) (View.mk 0 (atomize [98, 10]))
        (DState.mk [] [] []) = (.useFallback, DState.mk [] [] []) ∧
      (myersRejects (View.mk 0 (atomize [97, 10])).atoms.length
          (View.mk 0 (atomize [98, 10])).atoms.length 50 = true ↔
        (2 * ((View.mk 0 (atomize [97, 10])).atoms.length +
          (View.mk 0 (atomize [98, 10])).atoms.length) + 1) ^ 2 * sizeofInt > 50) :=
  ⟨(C6_state_size_amended 50 (View.mk 0 (atomize [97, 10])) (View.mk 0 (atomize [98, 10]))
      (DState.mk [] [] [])).1 (by decide),
   (C6_state_size_amended 50 (View.mk 0 (atomize [97, 10])) (View.mk 0 (atomize [98, 10]))
      (DState.mk [] [] [])).2.1 (by decide)⟩

end Diff

namespace Diff

/-! Characterisation of the patience marking phases.  `csame va i` counts the
atoms of the array with the same content as atom i (including i itself);
`firstSame va i` is the first index whose atom has the same content. -/

def sameB (va : Array Atom) (i j : Nat) : Bool := diff_atom_same (atomA va i) (atomA va j)

def csame (va : Array Atom) (i : Nat) : Nat :=
  ((List.range va.size).filter (fun j => sameB va i j)).length

def firstSame (va : Array Atom) (i : Nat) : Nat :=
  Nat.find (⟨i, diff_atom_same_refl (atomA va i)⟩ :
    ∃ j, diff_atom_same (atomA va i) (atomA va j) = true)

theorem diff_atom_same_iff (a b : Atom) :
    diff_atom_same a b = true ↔ a.hash = b.hash ∧ a.bytes = b.bytes := by
  constructor
  · intro h
    simp only [diff_atom_same, Bool.and_eq_true, beq_iff_eq] at h
    exact ⟨h.1.1, h.2⟩
  · intro h
    simp [diff_atom_same, h.1, h.2]

theorem sameB_refl (va : Array Atom) (i : Nat) : sameB va i i = true :=
  diff_atom_same_refl _

theorem sameB_symm (va : Array Atom) (i j : Nat) : sameB va i j = sameB va j i := by
  rw [Bool.eq_iff_iff]
  unfold sameB
  rw [diff_atom_same_iff, diff_atom_same_iff]
  constructor <;> (intro h; exact ⟨h.1.symm, h.2.symm⟩)

theorem sameB_trans {va : Array Atom} {i j k : Nat} (h1 : sameB va i j = true)
    (h2 : sameB va j k = true) : sameB va i k = true := by
  unfold sameB at h1 h2 ⊢
  rw [diff_atom_same_iff] at h1 h2 ⊢
  exact ⟨h1.1.trans h2.1, h1.2.trans h2.2⟩

theorem firstSame_le (va : Array Atom) (i : Nat) : firstSame va i ≤ i :=
  Nat.find_le (diff_atom_same_refl _)

theorem firstSame_same (va : Array Atom) (i : Nat) : sameB va i (firstSame va i) = true :=
  Nat.find_spec (⟨i, diff_atom_same_refl (atomA va i)⟩ :
    ∃ j, diff_atom_same (atomA va i) (atomA va j) = true)

theorem firstSame_min (va : Array Atom) (i j : Nat) (h : sameB va i j = true) :
    firstSame va i ≤ j :=
  Nat.find_min' _ h

theorem firstSame_congr (va : Array Atom) {i j : Nat} (h : sameB va i j = true) :
    firstSame va i = firstSame va j := by
  apply Nat.le_antisymm
  · exact firstSame_min va i _ (sameB_trans h (firstSame_same va j))
  · have hji : sameB va j i = true := by rw [sameB_symm]; exact h
    exact firstSame_min va j _ (sameB_trans hji (firstSame_same va i))

end Diff

namespace Diff

theorem aset_size {α : Type} (a : Array α) (k : Nat) (v : α) :
    (aset a k v).size = a.size := by
  unfold aset
  split
  · exact Array.size_set a _ v
  · rfl

theorem getD_aset_eq {α : Type} (a : Array α) {k : Nat} (h : k < a.size) (v d : α) :
    (aset a k v).getD k d = v := by
  unfold aset
  rw [dif_pos h]
  have hk : k < (a.set ⟨k, h⟩ v).size := by rw [Array.size_set]; exact h
  rw [Array.getD, dif_pos hk]
  exact Array.get_set_eq a ⟨k, h⟩ v

theorem getD_aset_ne {α : Type} (a : Array α) {i k : Nat} (h : i ≠ k) (v d : α) :
    (aset a k v).getD i d = a.getD i d := by
  unfold aset
  split
  · rename_i hk
    by_cases hi : i < a.size
    · have hi2 : i < (a.set ⟨k, hk⟩ v).size := by rw [Array.size_set]; exact hi
      rw [Array.getD, dif_pos hi2, Array.getD, dif_pos hi]
      exact Array.get_set_ne a ⟨k, hk⟩ v hi (fun he => h he.symm)
    · have hi2 : ¬ i < (a.set ⟨k, hk⟩ v).size := by rw [Array.size_set]; exact hi
      rw [Array.getD, dif_neg hi2, Array.getD, dif_neg hi]
  · rfl

theorem aget_aset_eq (a : Array Bool) {k : Nat} (h : k < a.size) (v : Bool) :
    aget (aset a k v) k = v := getD_aset_eq a h v false

theorem aget_aset_ne (a : Array Bool) {i k : Nat} (h : i ≠ k) (v : Bool) :
    aget (aset a k v) i = aget a i := getD_aset_ne a h v false

theorem aget_mkArray (n : Nat) (i : Nat) (h : i < n) :
    aget (Array.mkArray n true) i = true := by
  unfold aget
  rw [Array.getD, dif_pos (by rw [Array.size_mkArray]; exact h)]
  exact Array.getElem_mkArray ..

theorem aget_oob (a : Array Bool) {i : Nat} (h : a.size ≤ i) : aget a i = false := by
  unfold aget
  rw [Array.getD, dif_neg (by omega)]

/-- A list containing two distinct elements has length at least two. -/
theorem two_le_length {α : Type} {l : List α} {i j : α} (hi : i ∈ l) (hj : j ∈ l)
    (hij : i ≠ j) : 2 ≤ l.length := by
  match l with
  | [] => cases hi
  | [a] =>
      rw [List.mem_singleton] at hi hj
      exact absurd (hi.trans hj.symm) hij
  | a :: b :: t => simp [List.length_cons]

theorem csame_pos (va : Array Atom) {i : Nat} (h : i < va.size) : 1 ≤ csame va i := by
  have hm : i ∈ (List.range va.size).filter (fun j => sameB va i j) :=
    List.mem_filter.mpr ⟨List.mem_range.mpr h, sameB_refl va i⟩
  exact List.length_pos.mpr (List.ne_nil_of_mem hm)

theorem csame_congr (va : Array Atom) {i j : Nat} (h : sameB va i j = true) :
    csame va i = csame va j := by
  unfold csame
  congr 1
  apply List.filter_congr
  intro k _
  rw [Bool.eq_iff_iff]
  constructor
  · intro hik
    exact sameB_trans (by rw [sameB_symm]; exact h) hik
  · intro hjk
    exact sameB_trans h hjk

theorem csame_two (va : Array Atom) {i j : Nat} (hi : i < va.size) (hj : j < va.size)
    (hij : i ≠ j) (h : sameB va i j = true) : 2 ≤ csame va i := by
  have hmi : i ∈ (List.range va.size).filter (fun j => sameB va i j) :=
    List.mem_filter.mpr ⟨List.mem_range.mpr hi, sameB_refl va i⟩
  have hmj : j ∈ (List.range va.size).filter (fun j => sameB va i j) :=
    List.mem_filter.mpr ⟨List.mem_range.mpr hj, h⟩
  exact two_le_length hmi hmj hij

/-- A duplicate-free list whose elements all equal i has at most one element. -/
theorem length_le_one_of_nodup {α : Type} {l : List α} (hn : l.Nodup) {i : α}
    (hall : ∀ x ∈ l, x = i) : l.length ≤ 1 := by
  match l with
  | [] => simp
  | [a] => simp
  | a :: b :: t =>
      have ha := hall a (by simp)
      have hb := hall b (by simp)
      rw [List.nodup_cons] at hn
      exact absurd (by rw [ha.trans hb.symm]; exact List.mem_cons_self b t) hn.1

/-- An atom is counted unique exactly when no other index carries the same
content. -/
theorem csame_eq_one_iff (va : Array Atom) {i : Nat} (hi : i < va.size) :
    csame va i = 1 ↔ ∀ j < va.size, sameB va i j = true → j = i := by
  constructor
  · intro h1 j hj hs
    by_contra hne
    have := csame_two va hi hj (fun he => hne he.symm) hs
    omega
  · intro hall
    have hn : ((List.range va.size).filter (fun j => sameB va i j)).Nodup :=
      (List.nodup_range va.size).filter _
    have hle : csame va i ≤ 1 := length_le_one_of_nodup hn (fun x hx => by
      rcases List.mem_filter.mp hx with ⟨hxr, hxs⟩
      exact hall x (List.mem_range.mp hxr) hxs)
    have := csame_pos va hi
    omega

end Diff

namespace Diff

/-- The loop body of muInner, named for reasoning about the fold. -/
def muBody (va : Array Atom) (t : Nat) (s : Array Bool × Array Bool × Nat) (j : Nat) :
    Array Bool × Array Bool × Nat :=
  if diff_atom_same (atomA va t) (atomA va j) then
    let s1 := if aget s.1 t then (aset s.1 t false, aset s.2.1 t false, s.2.2 - 1) else s
    (aset s1.1 j false, aset s1.2.1 j false, s1.2.2 - 1)
  else s

theorem muInner_eq_foldl (va : Array Atom) (t : Nat) (s : Array Bool × Array Bool × Nat) :
    muInner va t s = (List.range' (t + 1) (va.size - (t + 1))).foldl (muBody va t) s := rfl

/-- Effect of the inner duplicate scan on an arbitrary list of indices: a later
index j is unmarked exactly when it matches atom t, atom t itself is unmarked
exactly when some scanned index matches, and the count decrements once per
match plus once for atom t when it was marked and a match exists. -/
theorem muInner_gen (va : Array Atom) (t : Nat) (js : List Nat) (ht : t < va.size) :
    ∀ s : Array Bool × Array Bool × Nat,
      s.1.size = va.size → s.2.1.size = va.size →
      (∀ j ∈ js, j < va.size ∧ j ≠ t) →
      (js.foldl (muBody va t) s).1.size = va.size ∧
      (js.foldl (muBody va t) s).2.1.size = va.size ∧
      (∀ i, aget (js.foldl (muBody va t) s).1 i = true ↔
        (aget s.1 i = true ∧ ¬(i ∈ js ∧ sameB va t i = true) ∧
          ¬(i = t ∧ ∃ x ∈ js, sameB va t x = true))) ∧
      (∀ i, aget (js.foldl (muBody va t) s).2.1 i = true ↔
        (aget s.2.1 i = true ∧ ¬(i ∈ js ∧ sameB va t i = true) ∧
          ¬(i = t ∧ aget s.1 t = true ∧ ∃ x ∈ js, sameB va t x = true))) ∧
      (js.foldl (muBody va t) s).2.2 =
        s.2.2 - (js.filter (fun j => sameB va t j)).length -
          (if aget s.1 t = true ∧ ∃ x ∈ js, sameB va t x = true then 1 else 0) := by
  induction js with
  | nil =>
      intro s h1 h2 _
      refine ⟨h1, h2, ?_, ?_, ?_⟩
      · intro i; simp
      · intro i; simp
      · simp
  | cons j rest ih =>
      intro s h1 h2 hjs
      obtain ⟨hjlt, hjt⟩ := hjs j (List.mem_cons_self j rest)
      have hrest : ∀ x ∈ rest, x < va.size ∧ x ≠ t := fun x hx =>
        hjs x (List.mem_cons_of_mem j hx)
      rw [List.foldl_cons]
      by_cases hm : sameB va t j = true
      · have hm' : diff_atom_same (atomA va t) (atomA va j) = true := hm
        have hex : ∃ x ∈ j :: rest, sameB va t x = true :=
          ⟨j, List.mem_cons_self j rest, hm⟩
        have hflt : ((j :: rest).filter (fun x => sameB va t x)).length =
            (rest.filter (fun x => sameB va t x)).length + 1 := by
          rw [List.filter_cons_of_pos hm]
          simp
        by_cases hg : aget s.1 t = true
        · -- first match while t is marked: unmark t and j, count drops twice
          have hstep : muBody va t s j =
              (aset (aset s.1 t false) j false, aset (aset s.2.1 t false) j false,
                s.2.2 - 1 - 1) := by
            simp [muBody, hm', hg]
          rw [hstep]
          have hs1 : (aset (aset s.1 t false) j false).size = va.size := by
            rw [aset_size, aset_size]; exact h1
          have hs2 : (aset (aset s.2.1 t false) j false).size = va.size := by
            rw [aset_size, aset_size]; exact h2
          obtain ⟨ih1, ih2, ihm1, ihm2, ihc⟩ :=
            ih (aset (aset s.1 t false) j false, aset (aset s.2.1 t false) j false,
              s.2.2 - 1 - 1) hs1 hs2 hrest
          have hgetj : aget (aset (aset s.1 t false) j false) j = false := by
            rw [aget_aset_eq]; rw [aset_size, h1]; exact hjlt
          have hgett : aget (aset (aset s.1 t false) j false) t = false := by
            rw [aget_aset_ne _ (fun he => hjt he.symm), aget_aset_eq]
            rw [h1]; exact ht
          have hgetj2 : aget (aset (aset s.2.1 t false) j false) j = false := by
            rw [aget_aset_eq]; rw [aset_size, h2]; exact hjlt
          have hgett2 : aget (aset (aset s.2.1 t false) j false) t = false := by
            rw [aget_aset_ne _ (fun he => hjt he.symm), aget_aset_eq]
            rw [h2]; exact ht
          refine ⟨ih1, ih2, ?_, ?_, ?_⟩
          · intro i
            rw [ihm1 i]
            dsimp only
            by_cases hij : i = j
            · subst hij
              simp [hgetj, hm, List.mem_cons]
            · by_cases hit : i = t
              · subst hit
                simp [hgett, hm]
              · have hvi : aget (aset (aset s.1 t false) j false) i = aget s.1 i := by
                  rw [aget_aset_ne _ hij, aget_aset_ne _ hit]
                rw [hvi]
                constructor
                · rintro ⟨hv, hnot, _⟩
                  refine ⟨hv, ?_, fun h => absurd h.1 hit⟩
                  rintro ⟨hmem, hsi⟩
                  rcases List.mem_cons.mp hmem with he | hmem2
                  · exact hij he
                  · exact hnot ⟨hmem2, hsi⟩
                · rintro ⟨hv, hnot, _⟩
                  refine ⟨hv, ?_, fun h => absurd h.1 hit⟩
                  rintro ⟨hmem, hsi⟩
                  exact hnot ⟨List.mem_cons_of_mem j hmem, hsi⟩
          · intro i
            rw [ihm2 i]
            dsimp only
            by_cases hij : i = j
            · subst hij
              simp [hgetj2, hm, List.mem_cons]
            · by_cases hit : i = t
              · subst hit
                simp [hgett2, hgett, hg, hm]
              · have hvi : aget (aset (aset s.2.1 t false) j false) i = aget s.2.1 i := by
                  rw [aget_aset_ne _ hij, aget_aset_ne _ hit]
                rw [hvi]
                constructor
                · rintro ⟨hv, hnot, _⟩
                  refine ⟨hv, ?_, fun h => absurd h.1 hit⟩
                  rintro ⟨hmem, hsi⟩
                  rcases List.mem_cons.mp hmem with he | hmem2
                  · exact hij he
                  · exact hnot ⟨hmem2, hsi⟩
                · rintro ⟨hv, hnot, _⟩
                  refine ⟨hv, ?_, fun h => absurd h.1 hit⟩
                  rintro ⟨hmem, hsi⟩
                  exact hnot ⟨List.mem_cons_of_mem j hmem, hsi⟩
          · rw [ihc]
            dsimp only
            rw [hgett]
            rw [if_neg (by rintro ⟨h3, _⟩; cases h3)]
            rw [if_pos ⟨hg, hex⟩, hflt]
            omega
        · -- match but t already unmarked: only j is unmarked, count drops once
          have hg' : aget s.1 t = false := by
            cases h : aget s.1 t
            · rfl
            · exact absurd h hg
          have hstep : muBody va t s j =
              (aset s.1 j false, aset s.2.1 j false, s.2.2 - 1) := by
            simp [muBody, hm', hg']
          rw [hstep]
          have hs1 : (aset s.1 j false).size = va.size := by rw [aset_size]; exact h1
          have hs2 : (aset s.2.1 j false).size = va.size := by rw [aset_size]; exact h2
          obtain ⟨ih1, ih2, ihm1, ihm2, ihc⟩ :=
            ih (aset s.1 j false, aset s.2.1 j false, s.2.2 - 1) hs1 hs2 hrest
          have hgetj : aget (aset s.1 j false) j = false := by
            rw [aget_aset_eq]; rw [h1]; exact hjlt
          have hgett : aget (aset s.1 j false) t = aget s.1 t :=
            aget_aset_ne _ (fun he => hjt he.symm) false
          have hgetj2 : aget (aset s.2.1 j false) j = false := by
            rw [aget_aset_eq]; rw [h2]; exact hjlt
          refine ⟨ih1, ih2, ?_, ?_, ?_⟩
          · intro i
            rw [ihm1 i]
            dsimp only
            by_cases hij : i = j
            · subst hij
              simp [hgetj, hm, List.mem_cons]
            · have hvi : aget (aset s.1 j false) i = aget s.1 i := aget_aset_ne _ hij false
              rw [hvi]
              constructor
              · rintro ⟨hv, hnot, _⟩
                refine ⟨hv, ?_, ?_⟩
                · rintro ⟨hmem, hsi⟩
                  rcases List.mem_cons.mp hmem with he | hmem2
                  · exact hij he
                  · exact hnot ⟨hmem2, hsi⟩
                · rintro ⟨hit, _⟩
                  rw [hit, hg'] at hv; cases hv
              · rintro ⟨hv, hnot, _⟩
                refine ⟨hv, ?_, ?_⟩
                · rintro ⟨hmem, hsi⟩
                  exact hnot ⟨List.mem_cons_of_mem j hmem, hsi⟩
                · rintro ⟨hit, _⟩
                  rw [hit, hg'] at hv; cases hv
          · intro i
            rw [ihm2 i]
            dsimp only
            by_cases hij : i = j
            · subst hij
              simp [hgetj2, hm, List.mem_cons]
            · have hvi : aget (aset s.2.1 j false) i = aget s.2.1 i :=
                aget_aset_ne _ hij false
              rw [hvi, hgett]
              constructor
              · rintro ⟨hv, hnot, _⟩
                refine ⟨hv, ?_, ?_⟩
                · rintro ⟨hmem, hsi⟩
                  rcases List.mem_cons.mp hmem with he | hmem2
                  · exact hij he
                  · exact hnot ⟨hmem2, hsi⟩
                · rintro ⟨_, hgt, _⟩
                  rw [hg'] at hgt; cases hgt
              · rintro ⟨hv, hnot, _⟩
                refine ⟨hv, ?_, ?_⟩
                · rintro ⟨hmem, hsi⟩
                  exact hnot ⟨List.mem_cons_of_mem j hmem, hsi⟩
                · rintro ⟨_, hgt, _⟩
                  rw [hg'] at hgt; cases hgt
          · rw [ihc]
            dsimp only
            rw [hgett, hg']
            rw [if_neg (by rintro ⟨h3, _⟩; cases h3), if_neg (by rintro ⟨h3, _⟩; cases h3),
              hflt]
            omega
      · -- no match: this index changes nothing
        have hm' : diff_atom_same (atomA va t) (atomA va j) = false := by
          cases h : sameB va t j
          · exact h
          · exact absurd h hm
        have hstep : muBody va t s j = s := by
          simp [muBody, hm']
        rw [hstep]
        obtain ⟨ih1, ih2, ihm1, ihm2, ihc⟩ := ih s h1 h2 hrest
        refine ⟨ih1, ih2, ?_, ?_, ?_⟩
        · intro i
          rw [ihm1 i]
          constructor
          · rintro ⟨hv, hnot, hnt⟩
            refine ⟨hv, ?_, ?_⟩
            · rintro ⟨hmem, hsi⟩
              rcases List.mem_cons.mp hmem with he | hmem2
              · rw [he] at hsi; exact absurd hsi hm
              · exact hnot ⟨hmem2, hsi⟩
            · rintro ⟨hit, x, hxmem, hxs⟩
              rcases List.mem_cons.mp hxmem with he | hmem2
              · rw [he] at hxs; exact absurd hxs hm
              · exact hnt ⟨hit, x, hmem2, hxs⟩
          · rintro ⟨hv, hnot, hnt⟩
            refine ⟨hv, ?_, ?_⟩
            · rintro ⟨hmem, hsi⟩
              exact hnot ⟨List.mem_cons_of_mem j hmem, hsi⟩
            · rintro ⟨hit, x, hxmem, hxs⟩
              exact hnt ⟨hit, x, List.mem_cons_of_mem j hxmem, hxs⟩
        · intro i
          rw [ihm2 i]
          constructor
          · rintro ⟨hv, hnot, hnt⟩
            refine ⟨hv, ?_, ?_⟩
            · rintro ⟨hmem, hsi⟩
              rcases List.mem_cons.mp hmem with he | hmem2
              · rw [he] at hsi; exact absurd hsi hm
              · exact hnot ⟨hmem2, hsi⟩
            · rintro ⟨hit, hgt, x, hxmem, hxs⟩
              rcases List.mem_cons.mp hxmem with he | hmem2
              · rw [he] at hxs; exact absurd hxs hm
              · exact hnt ⟨hit, hgt, x, hmem2, hxs⟩
          · rintro ⟨hv, hnot, hnt⟩
            refine ⟨hv, ?_, ?_⟩
            · rintro ⟨hmem, hsi⟩
              exact hnot ⟨List.mem_cons_of_mem j hmem, hsi⟩
            · rintro ⟨hit, hgt, x, hxmem, hxs⟩
              exact hnt ⟨hit, hgt, x, List.mem_cons_of_mem j hxmem, hxs⟩
        · rw [ihc]
          rw [List.filter_cons_of_neg hm]
          congr 1
          by_cases hc : aget s.1 t = true ∧ ∃ x ∈ rest, sameB va t x = true
          · rw [if_pos hc, if_pos ⟨hc.1, hc.2.choose, List.mem_cons_of_mem j
              hc.2.choose_spec.1, hc.2.choose_spec.2⟩]
          · rw [if_neg hc, if_neg ?_]
            rintro ⟨hgt, x, hxmem, hxs⟩
            rcases List.mem_cons.mp hxmem with he | hmem2
            · rw [he] at hxs; exact absurd hxs hm
            · exact hc ⟨hgt, x, hmem2, hxs⟩

end Diff

namespace Diff

theorem length_filter_and_split {α : Type} (l : List α) (P K : α → Bool) :
    (l.filter (fun i => P i && K i)).length +
      (l.filter (fun i => P i && !(K i))).length = (l.filter P).length := by
  induction l with
  | nil => simp
  | cons a l ih =>
      cases hp : P a <;> cases hk : K a <;>
        simp [List.filter_cons, hp, hk] <;> omega

theorem length_filter_or_disjoint {α : Type} (l : List α) (A B : α → Bool)
    (h : ∀ i ∈ l, A i = true → B i = false) :
    (l.filter (fun i => A i || B i)).length =
      (l.filter A).length + (l.filter B).length := by
  induction l with
  | nil => simp
  | cons a l ih =>
      have hrest : ∀ i ∈ l, A i = true → B i = false := fun i hi =>
        h i (List.mem_cons_of_mem a hi)
      cases ha : A a
      · cases hb : B a <;> simp [List.filter_cons, ha, hb, ih hrest] <;> omega
      · have hb := h a (List.mem_cons_self a l) ha
        simp [List.filter_cons, ha, hb, ih hrest]
        omega

/-- Filtering the range for one fixed value keeps exactly one element. -/
theorem length_filter_beq_range {n t : Nat} (ht : t < n) :
    ((List.range n).filter (fun i => i == t)).length = 1 := by
  have hmem : t ∈ (List.range n).filter (fun i => i == t) :=
    List.mem_filter.mpr ⟨List.mem_range.mpr ht, by simp⟩
  have hle : ((List.range n).filter (fun i => i == t)).length ≤ 1 :=
    length_le_one_of_nodup ((List.nodup_range n).filter _) (fun x hx => by
      have h2 := (List.mem_filter.mp hx).2
      simpa using h2)
  have hpos := List.length_pos.mpr (List.ne_nil_of_mem hmem)
  omega

/-- Splitting the range at t + 1: filtering for indices above t is the same
as filtering the upper part of the range. -/
theorem filter_range_above (n t : Nat) (ht : t < n) (Q : Nat → Bool) :
    ((List.range n).filter (fun i => decide (t < i) && Q i)).length =
      ((List.range' (t + 1) (n - (t + 1))).filter Q).length := by
  have hsplit : List.range n =
      List.range' 0 (t + 1) ++ List.range' (t + 1) (n - (t + 1)) := by
    rw [List.range_eq_range']
    have h3 := List.range'_append 0 (t + 1) (n - (t + 1)) 1
    simp only [Nat.zero_add, Nat.one_mul] at h3
    have h4 : n - (t + 1) + (t + 1) = n := by omega
    rw [h4] at h3
    rw [← h3]
  rw [hsplit, List.filter_append, List.length_append]
  have h1 : (List.range' 0 (t + 1)).filter (fun i => decide (t < i) && Q i) = [] := by
    rw [List.filter_eq_nil]
    intro a ha
    rcases List.mem_range'_1.mp ha with ⟨_, hlt⟩
    simp only [Bool.and_eq_true, decide_eq_true_eq]
    rintro ⟨hta, _⟩
    omega
  have h2 : (List.range' (t + 1) (n - (t + 1))).filter (fun i => decide (t < i) && Q i) =
      (List.range' (t + 1) (n - (t + 1))).filter Q := by
    apply List.filter_congr
    intro a ha
    rcases List.mem_range'_1.mp ha with ⟨hge, _⟩
    have : decide (t < a) = true := decide_eq_true_eq.mpr (by omega)
    rw [this, Bool.true_and]
  rw [h1, h2]
  simp

end Diff


namespace Diff

/-- The outer loop body of diff_atoms_mark_unique. -/
def markBody (va : Array Atom) (s : Array Bool × Array Bool × Nat) (i : Nat) :
    Array Bool × Array Bool × Nat :=
  if aget s.1 i then muInner va i s else s

theorem markUnique_eq_foldl (va : Array Atom) :
    markUnique va = (List.range va.size).foldl (markBody va)
      (Array.mkArray va.size true, Array.mkArray va.size true, va.size) := rfl

/-- Invariant of the outer marking loop after processing atoms 0..t-1: an atom
is still marked exactly when its content is unique or its class has not been
scanned yet (its first occurrence is at index ≥ t), the unique_in_both array
mirrors unique_here, and the count equals the number of marked atoms. -/
def muInv (va : Array Atom) (t : Nat) (s : Array Bool × Array Bool × Nat) : Prop :=
  s.1.size = va.size ∧ s.2.1.size = va.size ∧
  (∀ i, aget s.2.1 i = aget s.1 i) ∧
  (∀ i < va.size, (aget s.1 i = true ↔ (csame va i = 1 ∨ t ≤ firstSame va i))) ∧
  s.2.2 = ((List.range va.size).filter (fun i => aget s.1 i)).length

theorem muInv_step (va : Array Atom) (t : Nat) (ht : t < va.size)
    (s : Array Bool × Array Bool × Nat) (h : muInv va t s) :
    muInv va (t + 1) (markBody va s t) := by
  obtain ⟨hs1, hs2, hmir, hmark, hcnt⟩ := h
  by_cases hg : aget s.1 t = true
  · -- atom t is still marked: scan its duplicates
    have hmt := (hmark t ht).mp hg
    have hfst : firstSame va t = t := by
      rcases hmt with hc | hle
      · exact (csame_eq_one_iff va ht).mp hc (firstSame va t)
          (lt_of_le_of_lt (firstSame_le va t) ht) (firstSame_same va t)
      · exact Nat.le_antisymm (firstSame_le va t) hle
    have hbody : markBody va s t = muInner va t s := by simp [markBody, hg]
    rw [hbody, muInner_eq_foldl]
    have hjs : ∀ j ∈ List.range' (t + 1) (va.size - (t + 1)), j < va.size ∧ j ≠ t := by
      intro j hj
      rcases List.mem_range'_1.mp hj with ⟨hge, hlt⟩
      exact ⟨by omega, by omega⟩
    obtain ⟨g1, g2, gm1, gm2, gc⟩ := muInner_gen va t
      (List.range' (t + 1) (va.size - (t + 1))) ht s hs1 hs2 hjs
    have hdup_iff : (∃ x ∈ List.range' (t + 1) (va.size - (t + 1)),
        sameB va t x = true) ↔ 2 ≤ csame va t := by
      constructor
      · rintro ⟨x, hxmem, hxs⟩
        obtain ⟨hxlt, hxt⟩ := hjs x hxmem
        exact csame_two va ht hxlt (fun he => hxt he.symm) hxs
      · intro h2
        by_cases hall : ∀ j < va.size, sameB va t j = true → j = t
        · have := (csame_eq_one_iff va ht).mpr hall
          omega
        · push_neg at hall
          obtain ⟨j, hjlt, hjsame, hjne⟩ := hall
          have hge : t ≤ j := hfst ▸ firstSame_min va t j hjsame
          exact ⟨j, List.mem_range'_1.mpr ⟨by omega, by omega⟩, hjsame⟩
    have hclassmark : ∀ i, t < i → i < va.size → sameB va t i = true →
        aget s.1 i = true := by
      intro i hti hin hsi
      have hfsi : firstSame va i = t := (firstSame_congr va hsi).symm.trans hfst
      exact (hmark i hin).mpr (Or.inr (le_of_eq hfsi.symm))
    refine ⟨g1, g2, ?_, ?_, ?_⟩
    · -- mirror
      intro i
      rw [Bool.eq_iff_iff, gm1 i, gm2 i, hmir i]
      constructor
      · rintro ⟨hv, hA, hB⟩
        exact ⟨hv, hA, fun hc => hB ⟨hc.1, hg, hc.2⟩⟩
      · rintro ⟨hv, hA, hB⟩
        exact ⟨hv, hA, fun hc => hB ⟨hc.1, hc.2.2⟩⟩
    · -- marks characterisation at t + 1
      intro i hi
      rw [gm1 i]
      by_cases hsi : sameB va t i = true
      · have hfsi : firstSame va i = t := (firstSame_congr va hsi).symm.trans hfst
        by_cases hit : i = t
        · subst hit
          have htjs : i ∉ List.range' (i + 1) (va.size - (i + 1)) :=
            fun hmem => (hjs i hmem).2 rfl
          constructor
          · rintro ⟨_, _, hB⟩
            left
            have hnd : ¬ ∃ x ∈ List.range' (i + 1) (va.size - (i + 1)),
                sameB va i x = true := fun hd => hB ⟨rfl, hd⟩
            have h2 : ¬ 2 ≤ csame va i := fun h2 => hnd (hdup_iff.mpr h2)
            have := csame_pos va hi
            omega
          · rintro (hc | hle)
            · refine ⟨hg, ?_, ?_⟩
              · rintro ⟨hmem, _⟩
                exact htjs hmem
              · rintro ⟨_, hd⟩
                have := hdup_iff.mp hd
                omega
            · rw [hfst] at hle
              omega
        · have hti : t < i := by
            have hge := hfst ▸ firstSame_min va t i hsi
            omega
          have hmem : i ∈ List.range' (t + 1) (va.size - (t + 1)) :=
            List.mem_range'_1.mpr ⟨by omega, by omega⟩
          constructor
          · rintro ⟨_, hA, _⟩
            exact absurd ⟨hmem, hsi⟩ hA
          · rintro (hc | hle)
            · have h2 : 2 ≤ csame va i :=
                csame_two va hi ht (fun he => hit he)
                  (by rw [sameB_symm]; exact hsi)
              omega
            · rw [hfsi] at hle
              omega
      · have hit : i ≠ t := by
          intro he
          rw [he, sameB_refl] at hsi
          exact hsi rfl
        have hne : firstSame va i ≠ t := by
          intro he
          have hs' := firstSame_same va i
          rw [he, sameB_symm] at hs'
          exact hsi hs'
        constructor
        · rintro ⟨hv, _, _⟩
          rcases (hmark i hi).mp hv with hc | hle
          · exact Or.inl hc
          · exact Or.inr (by omega)
        · intro hrhs
          refine ⟨(hmark i hi).mpr ?_, ?_, ?_⟩
          · rcases hrhs with hc | hle
            · exact Or.inl hc
            · exact Or.inr (by omega)
          · rintro ⟨_, hsii⟩
            exact hsi hsii
          · rintro ⟨he, _⟩
            exact hit he
    · -- count equals number of marked atoms
      rw [gc]
      have hdupb : (List.range' (t + 1) (va.size - (t + 1))).any
          (fun x => sameB va t x) = true ↔
          (∃ x ∈ List.range' (t + 1) (va.size - (t + 1)), sameB va t x = true) :=
        List.any_eq_true
      have hpoint : ∀ i ∈ List.range va.size,
          aget ((List.range' (t + 1) (va.size - (t + 1))).foldl (muBody va t) s).1 i =
          (aget s.1 i &&
            !((decide (t < i) && sameB va t i) ||
              ((i == t) && (List.range' (t + 1) (va.size - (t + 1))).any
                (fun x => sameB va t x)))) := by
        intro i hir
        have hi : i < va.size := List.mem_range.mp hir
        rw [Bool.eq_iff_iff, gm1 i]
        rw [Bool.and_eq_true, Bool.not_eq_true', Bool.or_eq_false_iff,
          Bool.and_eq_false_iff, Bool.and_eq_false_iff]
        constructor
        · rintro ⟨hv, hA, hB⟩
          refine ⟨hv, ?_, ?_⟩
          · by_cases hti : t < i
            · right
              by_cases hsi : sameB va t i = true
              · exact absurd ⟨List.mem_range'_1.mpr ⟨by omega, by omega⟩, hsi⟩ hA
              · cases hx : sameB va t i
                · rfl
                · exact absurd hx hsi
            · left
              simp [hti]
          · by_cases hit : i = t
            · right
              cases hd : (List.range' (t + 1) (va.size - (t + 1))).any
                  (fun x => sameB va t x)
              · rfl
              · exact absurd ⟨hit, hdupb.mp hd⟩ hB
            · left
              simp [hit]
        · rintro ⟨hv, hA, hB⟩
          refine ⟨hv, ?_, ?_⟩
          · rintro ⟨hmem, hsi⟩
            rcases List.mem_range'_1.mp hmem with ⟨hge, _⟩
            rcases hA with hdec | hsf
            · rw [decide_eq_false_iff_not] at hdec
              omega
            · rw [hsf] at hsi
              cases hsi
          · rintro ⟨hit, hd⟩
            rcases hB with hbeq | hdf
            · rw [hit] at hbeq
              simp at hbeq
            · rw [hdf] at hdupb
              exact absurd (hdupb.mpr hd) (fun hx => by cases hx)
      rw [List.filter_congr hpoint]
      have hsplit := length_filter_and_split (List.range va.size)
        (fun i => aget s.1 i)
        (fun i => !((decide (t < i) && sameB va t i) ||
          ((i == t) && (List.range' (t + 1) (va.size - (t + 1))).any
            (fun x => sameB va t x))))
      have hremove : ∀ i ∈ List.range va.size,
          (aget s.1 i && !(!((decide (t < i) && sameB va t i) ||
            ((i == t) && (List.range' (t + 1) (va.size - (t + 1))).any
              (fun x => sameB va t x))))) =
          ((decide (t < i) && sameB va t i) ||
            ((i == t) && (List.range' (t + 1) (va.size - (t + 1))).any
              (fun x => sameB va t x))) := by
        intro i hir
        have hi : i < va.size := List.mem_range.mp hir
        rw [Bool.not_not]
        cases hab : ((decide (t < i) && sameB va t i) ||
            ((i == t) && (List.range' (t + 1) (va.size - (t + 1))).any
              (fun x => sameB va t x)))
        · rw [Bool.and_false]
        · rw [Bool.and_true]
          rw [Bool.or_eq_true] at hab
          rcases hab with hA | hB
          · rw [Bool.and_eq_true] at hA
            obtain ⟨hdec, hsi⟩ := hA
            exact hclassmark i (decide_eq_true_eq.mp hdec) hi hsi
          · rw [Bool.and_eq_true] at hB
            obtain ⟨hbeq, _⟩ := hB
            have : i = t := by simpa using hbeq
            rw [this]
            exact hg
      have hdisj : ∀ i ∈ List.range va.size,
          (decide (t < i) && sameB va t i) = true →
          ((i == t) && (List.range' (t + 1) (va.size - (t + 1))).any
            (fun x => sameB va t x)) = false := by
        intro i _ hA
        rw [Bool.and_eq_true] at hA
        obtain ⟨hdec, _⟩ := hA
        have hti := decide_eq_true_eq.mp hdec
        have : (i == t) = false := by
          rw [beq_eq_false_iff_ne]
          omega
        rw [this, Bool.false_and]
      have hor := length_filter_or_disjoint (List.range va.size)
        (fun i => decide (t < i) && sameB va t i)
        (fun i => (i == t) && (List.range' (t + 1) (va.size - (t + 1))).any
          (fun x => sameB va t x)) hdisj
      have hlenA := filter_range_above va.size t ht (fun i => sameB va t i)
      rw [List.filter_congr hremove, hor, hlenA] at hsplit
      rw [← hcnt] at hsplit
      by_cases hdp : ∃ x ∈ List.range' (t + 1) (va.size - (t + 1)), sameB va t x = true
      · rw [if_pos ⟨hg, hdp⟩]
        have hdb : (List.range' (t + 1) (va.size - (t + 1))).any
            (fun x => sameB va t x) = true := hdupb.mpr hdp
        have hlenB : ((List.range va.size).filter
            (fun i => (i == t) && (List.range' (t + 1) (va.size - (t + 1))).any
              (fun x => sameB va t x))).length = 1 := by
          have hb : ∀ x ∈ List.range va.size,
              ((x == t) && (List.range' (t + 1) (va.size - (t + 1))).any
                (fun x => sameB va t x)) = (x == t) := by
            intro x _
            rw [hdb, Bool.and_true]
          rw [List.filter_congr hb]
          exact length_filter_beq_range ht
        rw [hlenB] at hsplit
        omega
      · rw [if_neg (fun hc => hdp hc.2)]
        have hdb : (List.range' (t + 1) (va.size - (t + 1))).any
            (fun x => sameB va t x) = false := by
          cases hx : (List.range' (t + 1) (va.size - (t + 1))).any
              (fun x => sameB va t x)
          · rfl
          · exact absurd (hdupb.mp hx) hdp
        have hlenB : ((List.range va.size).filter
            (fun i => (i == t) && (List.range' (t + 1) (va.size - (t + 1))).any
              (fun x => sameB va t x))).length = 0 := by
          have hb : ∀ x ∈ List.range va.size,
              ((x == t) && (List.range' (t + 1) (va.size - (t + 1))).any
                (fun x => sameB va t x)) = false := by
            intro x _
            rw [hdb, Bool.and_false]
          rw [List.filter_congr hb]
          simp
        rw [hlenB] at hsplit
        omega
  · -- atom t already unmarked: nothing happens, and no class starts at t
    have hgf : aget s.1 t = false := by
      cases hx : aget s.1 t
      · rfl
      · exact absurd hx hg
    have hbody : markBody va s t = s := by simp [markBody, hgf]
    rw [hbody]
    have hnc : ¬(csame va t = 1 ∨ t ≤ firstSame va t) := by
      intro hc
      have := (hmark t ht).mpr hc
      rw [hgf] at this
      cases this
    push_neg at hnc
    obtain ⟨hcs, hfl⟩ := hnc
    refine ⟨hs1, hs2, hmir, ?_, hcnt⟩
    intro i hi
    rw [hmark i hi]
    have hne : firstSame va i ≠ t := by
      intro he
      have hsit := firstSame_same va i
      rw [he] at hsit
      have : firstSame va t = firstSame va i :=
        firstSame_congr va (by rw [sameB_symm]; exact hsit)
      rw [he] at this
      omega
    constructor
    · rintro (hc | hle)
      · exact Or.inl hc
      · exact Or.inr (by omega)
    · rintro (hc | hle)
      · exact Or.inl hc
      · exact Or.inr (by omega)

end Diff

namespace Diff

theorem muInv_init (va : Array Atom) :
    muInv va 0 (Array.mkArray va.size true, Array.mkArray va.size true, va.size) := by
  refine ⟨Array.size_mkArray .., Array.size_mkArray .., fun i => rfl, ?_, ?_⟩
  · intro i hi
    rw [aget_mkArray va.size i hi]
    constructor
    · intro _
      exact Or.inr (Nat.zero_le _)
    · intro _
      rfl
  · have hb : ∀ i ∈ List.range va.size,
        aget (Array.mkArray va.size true) i = (fun _ : Nat => true) i := by
      intro i hi
      exact aget_mkArray _ _ (List.mem_range.mp hi)
    rw [List.filter_congr hb, List.filter_true, List.length_range]

theorem muInv_fold (va : Array Atom) :
    ∀ k t s, t + k = va.size → muInv va t s →
      muInv va va.size ((List.range' t k).foldl (markBody va) s) := by
  intro k
  induction k with
  | zero =>
      intro t s hts hinv
      have ht : t = va.size := by omega
      subst ht
      simpa using hinv
  | succ k ih =>
      intro t s hts hinv
      rw [List.range'_succ, List.foldl_cons]
      exact ih (t + 1) _ (by omega) (muInv_step va t (by omega) s hinv)

/-- Characterisation of diff_atoms_mark_unique: unique_here holds exactly on
atoms whose content occurs once, unique_in_both mirrors it, and the count is
the number of such atoms. -/
theorem markUnique_char (va : Array Atom) :
    (markUnique va).1.size = va.size ∧ (markUnique va).2.1.size = va.size ∧
    (∀ i, aget (markUnique va).2.1 i = aget (markUnique va).1 i) ∧
    (∀ i < va.size, (aget (markUnique va).1 i = true ↔ csame va i = 1)) ∧
    (markUnique va).2.2 =
      ((List.range va.size).filter (fun i => decide (csame va i = 1))).length := by
  have h := muInv_fold va va.size 0 _ (by omega) (muInv_init va)
  rw [← List.range_eq_range'] at h
  rw [markUnique_eq_foldl]
  obtain ⟨h1, h2, hmir, hmark, hcnt⟩ := h
  have hiff : ∀ i < va.size,
      (aget ((List.range va.size).foldl (markBody va)
        (Array.mkArray va.size true, Array.mkArray va.size true, va.size)).1 i = true ↔
        csame va i = 1) := by
    intro i hi
    rw [hmark i hi]
    constructor
    · rintro (hc | hle)
      · exact hc
      · have := firstSame_le va i
        omega
    · intro hc
      exact Or.inl hc
  refine ⟨h1, h2, hmir, hiff, ?_⟩
  rw [hcnt]
  congr 1
  apply List.filter_congr
  intro i hir
  have hi := List.mem_range.mp hir
  rw [Bool.eq_iff_iff, decide_eq_true_eq]
  exact hiff i hi

end Diff

namespace Diff

/-- When every right-side match of left atom i has lost its unique_here mark,
the cross-match scan either keeps its incoming found value (no match) or stops
at 2 (first match); it never ends at found = 1. -/
theorem cmScan_all_dup (vl vr : Array Atom) (uhR : Array Bool) (i : Nat) :
    ∀ (js : List Nat) (st : Nat × Array (Option Nat) × Array (Option Nat)),
      (∀ j ∈ js, diff_atom_same (atomA vl i) (atomA vr j) = true →
        aget uhR j = false) →
      (cmScan vl vr uhR i js st).1 = st.1 ∨ (cmScan vl vr uhR i js st).1 = 2 := by
  intro js
  induction js with
  | nil =>
      intro st _
      left
      rfl
  | cons j rest ih =>
      intro st hm
      obtain ⟨found, posL, posR⟩ := st
      have hrest : ∀ x ∈ rest, diff_atom_same (atomA vl i) (atomA vr x) = true →
          aget uhR x = false := fun x hx => hm x (List.mem_cons_of_mem j hx)
      cases hs : diff_atom_same (atomA vl i) (atomA vr j)
      · have : cmScan vl vr uhR i (j :: rest) (found, posL, posR) =
            cmScan vl vr uhR i rest (found, posL, posR) := by
          simp [cmScan, hs]
        rw [this]
        exact ih (found, posL, posR) hrest
      · have hu : aget uhR j = false := hm j (List.mem_cons_self j rest) hs
        have : cmScan vl vr uhR i (j :: rest) (found, posL, posR) = (2, posL, posR) := by
          simp [cmScan, hs, hu]
        rw [this]
        right
        rfl

/-- The sweep body of diff_atoms_mark_unique_in_both over the left atoms,
named for reasoning about the fold. -/
def sweepBody (vl vr : Array Atom) (uhL uhR : Array Bool)
    (s : Array Bool × Array (Option Nat) × Array (Option Nat) × Nat) (i : Nat) :
    Array Bool × Array (Option Nat) × Array (Option Nat) × Nat :=
  if aget uhL i = false then s
  else
    let scanned := cmScan vl vr uhR i (List.range vr.size) (0, s.2.1, s.2.2.1)
    if scanned.1 = 0 ∨ 1 < scanned.1 then
      (aset s.1 i false, scanned.2.1, scanned.2.2, s.2.2.2 - 1)
    else (s.1, scanned.2.1, scanned.2.2, s.2.2.2)

/-- When no surviving left unique finds a lone partner, every marked left atom
takes the decrement branch of the cross-match sweep, so the final count is the
starting count minus the number of marked left atoms. -/
theorem sweep_count_all_dup (vl vr : Array Atom) (uhL uhR : Array Bool)
    (H : ∀ i j, aget uhL i = true → j < vr.size →
      diff_atom_same (atomA vl i) (atomA vr j) = true → aget uhR j = false) :
    ∀ (js : List Nat) (s : Array Bool × Array (Option Nat) × Array (Option Nat) × Nat),
      (js.foldl (sweepBody vl vr uhL uhR) s).2.2.2 =
      s.2.2.2 - (js.filter (fun i => aget uhL i)).length := by
  intro js
  induction js with
  | nil =>
      intro s
      simp
  | cons i rest ih =>
      intro s
      rw [List.foldl_cons]
      by_cases hu : aget uhL i = true
      · have hmatch : ∀ j ∈ List.range vr.size,
            diff_atom_same (atomA vl i) (atomA vr j) = true → aget uhR j = false :=
          fun j hj => H i j hu (List.mem_range.mp hj)
        have hfound := cmScan_all_dup vl vr uhR i (List.range vr.size)
          (0, s.2.1, s.2.2.1) hmatch
        have hcond : (cmScan vl vr uhR i (List.range vr.size) (0, s.2.1, s.2.2.1)).1 = 0 ∨
            1 < (cmScan vl vr uhR i (List.range vr.size) (0, s.2.1, s.2.2.1)).1 := by
          rcases hfound with h0 | h2
          · exact Or.inl h0
          · rw [h2]
            exact Or.inr (by omega)
        have hbody : sweepBody vl vr uhL uhR s i =
            (aset s.1 i false,
              (cmScan vl vr uhR i (List.range vr.size) (0, s.2.1, s.2.2.1)).2.1,
              (cmScan vl vr uhR i (List.range vr.size) (0, s.2.1, s.2.2.1)).2.2,
              s.2.2.2 - 1) := by
          unfold sweepBody
          rw [if_neg (by rw [hu]; intro hx; cases hx)]
          simp only
          rw [if_pos hcond]
        rw [hbody, ih _, List.filter_cons_of_pos hu]
        simp only [List.length_cons]
        have hee : (List.filter (fun i => aget uhL i) rest).length =
            (List.filter (aget uhL) rest).length := rfl
        omega
      · have hu2 : aget uhL i = false := by
          cases hx : aget uhL i
          · rfl
          · exact absurd hx hu
        have hbody : sweepBody vl vr uhL uhR s i = s := by
          unfold sweepBody
          rw [if_pos hu2]
        rw [hbody, ih s, List.filter_cons_of_neg (by rw [hu2]; intro hx; cases hx)]

/-- Spec-side test from the claim: is there an atom occurring exactly once on
each side with equal content? -/
def hasCommonUnique (vl vr : Array Atom) : Bool :=
  (List.range vl.size).any (fun i => (List.range vr.size).any (fun j =>
    decide (csame vl i = 1) && decide (csame vr j = 1) &&
      diff_atom_same (atomA vl i) (atomA vr j)))

/-- Without a common-unique pair, the count out of diff_atoms_mark_unique_in_both
is zero. -/
theorem markUniqueInBoth_count_zero (vl vr : Array Atom)
    (h : hasCommonUnique vl vr = false) :
    (markUniqueInBoth vl vr).2.2.2.2 = 0 := by
  obtain ⟨hl1, _, hlmir, hlmark, hlcnt⟩ := markUnique_char vl
  obtain ⟨hr1, _, _, hrmark, _⟩ := markUnique_char vr
  have hno : ∀ i j, i < vl.size → j < vr.size → csame vl i = 1 → csame vr j = 1 →
      diff_atom_same (atomA vl i) (atomA vr j) = false := by
    intro i j hi hj hci hcj
    cases hs : diff_atom_same (atomA vl i) (atomA vr j)
    · rfl
    · exfalso
      have : hasCommonUnique vl vr = true := by
        unfold hasCommonUnique
        rw [List.any_eq_true]
        refine ⟨i, List.mem_range.mpr hi, ?_⟩
        rw [List.any_eq_true]
        refine ⟨j, List.mem_range.mpr hj, ?_⟩
        rw [decide_eq_true hci, decide_eq_true hcj, hs]
        rfl
      rw [h] at this
      cases this
  have H : ∀ i j, aget (markUnique vl).1 i = true → j < vr.size →
      diff_atom_same (atomA vl i) (atomA vr j) = true →
      aget (markUnique vr).1 j = false := by
    intro i j hui hj hs
    have hi : i < vl.size := by
      by_contra hge
      rw [aget_oob (markUnique vl).1 (by omega : (markUnique vl).1.size ≤ i)] at hui
      · cases hui
    have hci : csame vl i = 1 := (hlmark i hi).mp hui
    cases hur : aget (markUnique vr).1 j
    · rfl
    · exfalso
      have hcj : csame vr j = 1 := (hrmark j hj).mp hur
      have := hno i j hi hj hci hcj
      rw [hs] at this
      cases this
  show ((List.range vl.size).foldl
      (sweepBody vl vr (markUnique vl).1 (markUnique vr).1)
      ((markUnique vl).2.1, Array.mkArray vl.size (none : Option Nat),
        Array.mkArray vr.size (none : Option Nat), (markUnique vl).2.2)).2.2.2 = 0
  rw [sweep_count_all_dup vl vr (markUnique vl).1 (markUnique vr).1 H]
  dsimp only
  have hcong : (List.range vl.size).filter (fun i => aget (markUnique vl).1 i) =
      (List.range vl.size).filter (fun i => decide (csame vl i = 1)) := by
    apply List.filter_congr
    intro i hir
    have hi := List.mem_range.mp hir
    rw [Bool.eq_iff_iff, decide_eq_true_eq]
    exact hlmark i hi
  rw [hcong, ← hlcnt]
  omega

end Diff

namespace Diff

/-- C8: for every state whose two sides share no common-unique atom (no atom
occurring exactly once on each side with the same content), diff_algo_patience
returns UseFallback and leaves the diff state untouched, emitting no chunk. -/
theorem C8_patience_no_common_unique (l r : View) (st : DState)
    (h : hasCommonUnique l.atoms.toArray r.atoms.toArray = false) :
    diff_algo_patience l r st = (Rc.useFallback, st) := by
  have hz := markUniqueInBoth_count_zero l.atoms.toArray r.atoms.toArray h
  simp [diff_algo_patience, hz]

/-- Witness for C8 at a concrete input: two identical "a" lines against one
"b" line have no common-unique atom, and patience falls back. -/
theorem C8_patience_no_common_unique_witness :
    hasCommonUnique (View.mk 0 [Atom.mk 0 [97] 97, Atom.mk 1 [97] 97]).atoms.toArray
        (View.mk 0 [Atom.mk 0 [98] 98]).atoms.toArray = false ∧
    diff_algo_patience (View.mk 0 [Atom.mk 0 [97] 97, Atom.mk 1 [97] 97])
        (View.mk 0 [Atom.mk 0 [98] 98]) (DState.mk [] [] []) =
      (Rc.useFallback, DState.mk [] [] []) :=
  ⟨by decide, C8_patience_no_common_unique _ _ _ (by decide)⟩

end Diff

namespace Diff

/-- When every possible inner invocation succeeds, draining a temp chunk list
succeeds. -/
theorem drain_some (tbl : ConfTable) (lroot rroot : List Atom) (fuel : Nat)
    (innerIdx : Option Nat) (depth : Nat)
    (h : ∀ lv rv stI, (runAlgo tbl lroot rroot fuel innerIdx depth lv rv stI).isSome
      = true) :
    ∀ (cs : List Chunk) (stA : DState),
      ((cs.foldl (fun acc c =>
        match acc with
        | none => none
        | some stA =>
            if c.solved then
              some { stA with chunks := stA.chunks ++ [c] }
            else
              let lv := subView lroot (c.lStart.getD 0).toNat c.lCount
              let rv := subView rroot (c.rStart.getD 0).toNat c.rCount
              match runAlgo tbl lroot rroot fuel innerIdx depth lv rv
                  ⟨stA.chunks, [], stA.junks⟩ with
              | none => none
              | some stB => some ⟨stB.chunks, stA.temp, stB.junks⟩)
        (some stA))).isSome = true := by
  intro cs
  induction cs with
  | nil =>
      intro stA
      rfl
  | cons c cs ih =>
      intro stA
      rw [List.foldl_cons]
      by_cases hs : c.solved = true
      · have hstep : (match (some stA : Option DState) with
            | none => none
            | some stA =>
                if c.solved then
                  some { stA with chunks := stA.chunks ++ [c] }
                else
                  let lv := subView lroot (c.lStart.getD 0).toNat c.lCount
                  let rv := subView rroot (c.rStart.getD 0).toNat c.rCount
                  match runAlgo tbl lroot rroot fuel innerIdx depth lv rv
                      ⟨stA.chunks, [], stA.junks⟩ with
                  | none => none
                  | some stB => some ⟨stB.chunks, stA.temp, stB.junks⟩) =
            some { stA with chunks := stA.chunks ++ [c] } := by
          simp only [hs, if_pos]
        rw [hstep]
        exact ih _
      · obtain ⟨stB, hB⟩ := Option.isSome_iff_exists.mp
          (h (subView lroot (c.lStart.getD 0).toNat c.lCount)
            (subView rroot (c.rStart.getD 0).toNat c.rCount)
            ⟨stA.chunks, [], stA.junks⟩)
        have hstep : (match (some stA : Option DState) with
            | none => none
            | some stA =>
                if c.solved then
                  some { stA with chunks := stA.chunks ++ [c] }
                else
                  let lv := subView lroot (c.lStart.getD 0).toNat c.lCount
                  let rv := subView rroot (c.rStart.getD 0).toNat c.rCount
                  match runAlgo tbl lroot rroot fuel innerIdx depth lv rv
                      ⟨stA.chunks, [], stA.junks⟩ with
                  | none => none
                  | some stB => some ⟨stB.chunks, stA.temp, stB.junks⟩) =
            some ⟨stB.chunks, stA.temp, stB.junks⟩ := by
          have hs' : c.solved = false := by
            cases hx : c.solved
            · rfl
            · exact absurd hx hs
          simp only [hs', if_neg, Bool.false_eq_true, if_false]
          rw [hB]
        rw [hstep]
        exact ih _

end Diff

namespace Diff

/-- Fuel needed by each configuration slot of the default table: the fallback
chain root -> patience -> divide -> none loses one fuel per hop, and each
inner recursion level costs at most four. -/
def fuelNeed : Option Nat → Nat
  | some 0 => 4
  | some 1 => 3
  | some 2 => 2
  | _ => 1

/-- With the default table the fuelled framework interpreter always succeeds
when given fuel 4*depth + 4: the fallback chain is acyclic and every inner
recursion decrements the depth, so no run exhausts this fuel. -/
theorem runAlgo_default_isSome (lroot rroot : List Atom) :
    ∀ fuel depth idx l r st, 4 * depth + fuelNeed idx ≤ fuel →
      (runAlgo defaultTable lroot rroot fuel idx depth l r st).isSome = true := by
  intro fuel
  induction fuel using Nat.strong_induction_on with
  | _ fuel ih =>
    intro depth idx l r st hle
    have h1 : 1 ≤ fuelNeed idx := by
      unfold fuelNeed
      split <;> omega
    obtain ⟨f, rfl⟩ : ∃ f, fuel = f + 1 := ⟨fuel - 1, by omega⟩
    match idx with
    | none => simp [runAlgo]
    | some (k + 3) => simp [runAlgo, defaultTable, List.get?]
    | some 0 =>
        match depth with
        | 0 => simp [runAlgo, defaultTable, List.get?]
        | d + 1 =>
            have hfn : fuelNeed (some 0) = 4 := rfl
            rw [hfn] at hle
            simp only [runAlgo]
            have hbind : ((some 0 : Option Nat).bind (fun i => defaultTable.get? i)) =
                some ⟨some ImplKind.myersFull, 1024 * 1024 * sizeofInt, none, some 1⟩ := rfl
            rw [hbind]
            dsimp only
            rw [if_neg (Nat.succ_ne_zero d)]
            rcases hri : runImpl ImplKind.myersFull (1024 * 1024 * sizeofInt) l r
              { chunks := st.chunks, temp := [], junks := st.junks } with ⟨rc, st2⟩
            cases rc
            · -- ok: drain the temp chunks with the inner algorithm (none)
              dsimp only
              simp only [Nat.add_sub_cancel]
              have hdrain := drain_some defaultTable lroot rroot f none d
                (fun lv rv stI => ih f (by omega) d none lv rv stI
                  (by rw [show fuelNeed none = 1 from rfl]; omega)) st2.temp st2
              obtain ⟨stD, hD⟩ := Option.isSome_iff_exists.mp hdrain
              rw [hD]
              rfl
            · -- useFallback: go to patience with one less fuel
              dsimp only
              exact ih f (by omega) (d + 1) (some 1) l r st2
                (by rw [show fuelNeed (some 1) = 3 from rfl]; omega)
    | some 1 =>
        match depth with
        | 0 => simp [runAlgo, defaultTable, List.get?]
        | d + 1 =>
            have hfn : fuelNeed (some 1) = 3 := rfl
            rw [hfn] at hle
            simp only [runAlgo]
            have hbind : ((some 1 : Option Nat).bind (fun i => defaultTable.get? i)) =
                some ⟨some ImplKind.patienceAlgo, 0, some 1, some 2⟩ := rfl
            rw [hbind]
            dsimp only
            rw [if_neg (Nat.succ_ne_zero d)]
            rcases hri : runImpl ImplKind.patienceAlgo 0 l r
              { chunks := st.chunks, temp := [], junks := st.junks } with ⟨rc, st2⟩
            cases rc
            · dsimp only
              simp only [Nat.add_sub_cancel]
              have hdrain := drain_some defaultTable lroot rroot f (some 1) d
                (fun lv rv stI => ih f (by omega) d (some 1) lv rv stI
                  (by rw [show fuelNeed (some 1) = 3 from rfl]; omega)) st2.temp st2
              obtain ⟨stD, hD⟩ := Option.isSome_iff_exists.mp hdrain
              rw [hD]
              rfl
            · dsimp only
              exact ih f (by omega) (d + 1) (some 2) l r st2
                (by rw [show fuelNeed (some 2) = 2 from rfl]; omega)
    | some 2 =>
        match depth with
        | 0 => simp [runAlgo, defaultTable, List.get?]
        | d + 1 =>
            have hfn : fuelNeed (some 2) = 2 := rfl
            rw [hfn] at hle
            simp only [runAlgo]
            have hbind : ((some 2 : Option Nat).bind (fun i => defaultTable.get? i)) =
                some ⟨some ImplKind.myersDiv, 0, some 0, none⟩ := rfl
            rw [hbind]
            dsimp only
            rw [if_neg (Nat.succ_ne_zero d)]
            rcases hri : runImpl ImplKind.myersDiv 0 l r
              { chunks := st.chunks, temp := [], junks := st.junks } with ⟨rc, st2⟩
            cases rc
            · dsimp only
              simp only [Nat.add_sub_cancel]
              have hdrain := drain_some defaultTable lroot rroot f (some 0) d
                (fun lv rv stI => ih f (by omega) d (some 0) lv rv stI
                  (by rw [show fuelNeed (some 0) = 4 from rfl]; omega)) st2.temp st2
              obtain ⟨stD, hD⟩ := Option.isSome_iff_exists.mp hdrain
              rw [hD]
              rfl
            · dsimp only
              exact ih f (by omega) (d + 1) none l r st2
                (by rw [show fuelNeed (none : Option Nat) = 1 from rfl]; omega)
end Diff

namespace Diff

/-- diff_main with the default configuration always terminates with a result. -/
theorem diffMain_isSome (junks : List (Int × Int)) (ldata rdata : List Nat) :
    (diffMain junks ldata rdata).isSome = true := by
  unfold diffMain
  exact runAlgo_default_isSome (atomize ldata) (atomize rdata) diffMainFuel 1024
    (some 0) ⟨0, atomize ldata⟩ ⟨0, atomize rdata⟩ ⟨[], [], junks⟩
    (by rw [show fuelNeed (some 0) = 4 from rfl, show diffMainFuel = 4 * 1025 from rfl])

/-- With the recursion depth exhausted the framework runs algorithm "none"
on the current views instead of recursing, whatever the configuration says,
and reports no error. -/
theorem runAlgo_depth_zero (tbl : ConfTable) (lroot rroot : List Atom) (fuel : Nat)
    (idx : Option Nat) (l r : View) (st : DState) :
    runAlgo tbl lroot rroot (fuel + 1) idx 0 l r st =
      some (diff_algo_none l r ⟨st.chunks, [], st.junks⟩) := by
  simp only [runAlgo]
  rcases hc : idx.bind (fun i => tbl.get? i) with _ | conf
  · rfl
  · rcases hi : conf.impl with _ | ik
    · simp [hi]
    · simp [hi]

/-- A configuration whose patience slot names itself as its own fallback:
allowed by the pointer-linked diff_algo_config structs of the C source. -/
def cyclicTable : ConfTable := [⟨some ImplKind.patienceAlgo, 0, none, some 0⟩]

end Diff

namespace Diff

/-- With a cyclic configuration (patience naming itself as fallback) on an
input patience always rejects, the framework recurses into the fallback
forever at undiminished depth: the fuelled interpreter returns none (still
recursing) for every fuel bound. -/
theorem runAlgo_cyclic_none :
    ∀ fuel st, runAlgo cyclicTable
      [Atom.mk 0 [97] 97, Atom.mk 1 [97] 97] [Atom.mk 0 [98] 98]
      fuel (some 0) 1024
      (View.mk 0 [Atom.mk 0 [97] 97, Atom.mk 1 [97] 97])
      (View.mk 0 [Atom.mk 0 [98] 98]) st = none := by
  intro fuel
  induction fuel with
  | zero =>
      intro st
      rfl
  | succ f ihf =>
      intro st
      simp only [runAlgo]
      have hbind : ((some 0 : Option Nat).bind (fun i => cyclicTable.get? i)) =
          some ⟨some ImplKind.patienceAlgo, 0, none, some 0⟩ := rfl
      rw [hbind]
      dsimp only
      rw [if_neg (by omega : ¬ (1024 : Nat) = 0)]
      have hz := markUniqueInBoth_count_zero
        (View.mk 0 [Atom.mk 0 [97] 97, Atom.mk 1 [97] 97]).atoms.toArray
        (View.mk 0 [Atom.mk 0 [98] 98]).atoms.toArray (by decide)
      have hpat : runImpl ImplKind.patienceAlgo 0
          (View.mk 0 [Atom.mk 0 [97] 97, Atom.mk 1 [97] 97])
          (View.mk 0 [Atom.mk 0 [98] 98])
          { chunks := st.chunks, temp := [], junks := st.junks } =
          (Rc.useFallback, { chunks := st.chunks, temp := [], junks := st.junks }) := by
        simp only [runImpl]
        simp [diff_algo_patience, hz]
      rw [hpat]
      exact ihf _

/-- C7 (amended): under the default configuration diff_main always terminates
with a result (first conjunct; the interpreter's fuel is never exhausted
because the default fallback chain is acyclic and inner recursion decrements
the depth, defaulting to 1024).  When the remaining recursion depth is 0 the
framework runs algorithm "none" on the current views instead of recursing,
whatever the configuration says, without reporting an error (second
conjunct).  Termination for arbitrary configurations, however, is false: see
the cyclic counterexample. -/
theorem C7_termination_amended :
    (∀ junks ldata rdata, (diffMain junks ldata rdata).isSome = true) ∧
    (∀ tbl lroot rroot fuel idx l r st,
      runAlgo tbl lroot rroot (fuel + 1) idx 0 l r st =
        some (diff_algo_none l r ⟨st.chunks, [], st.junks⟩)) :=
  ⟨diffMain_isSome, runAlgo_depth_zero⟩

end Diff

namespace Diff

/-- C7 counterexample: a cyclic configuration (patience naming itself as its
own fallback, as the pointer-linked diff_algo_config structs allow) does not
terminate on two "a" lines against a "b" line: even given the fuel bound that
is ample for every default-configuration run, the interpreter is still
recursing, because the fallback recursion of diff_run_algo never decrements
recursion_depth_left.  This refutes termination "for every algorithm
configuration (including cyclic ones)". -/
theorem C7_termination_counterexample :
    runAlgo cyclicTable
      [Atom.mk 0 [97] 97, Atom.mk 1 [97] 97] [Atom.mk 0 [98] 98]
      diffMainFuel (some 0) 1024
      (View.mk 0 [Atom.mk 0 [97] 97, Atom.mk 1 [97] 97])
      (View.mk 0 [Atom.mk 0 [98] 98]) (DState.mk [] [] []) = none :=
  runAlgo_cyclic_none diffMainFuel (DState.mk [] [] [])

end Diff

namespace Diff

/-- Every chunk of the final result list is solved. -/
def allSolved (cs : List Chunk) : Prop := ∀ c ∈ cs, c.solved = true

theorem addChunk_allSolved (st : DState) (s : Bool) (ls : Option Int) (lc : Nat)
    (rs : Option Int) (rcn : Nat) (h : allSolved st.chunks) :
    allSolved (addChunk st s ls lc rs rcn).chunks := by
  unfold addChunk
  split
  · rename_i hcond
    rw [Bool.and_eq_true] at hcond
    intro c hc
    rcases List.mem_append.mp hc with h1 | h2
    · exact h c h1
    · rw [List.mem_singleton] at h2
      subst h2
      exact hcond.1
  · exact h

theorem addChunk_temp (st : DState) (s : Bool) (ls : Option Int) (lc : Nat)
    (rs : Option Int) (rcn : Nat) :
    (addChunk st s ls lc rs rcn).temp = st.temp ∨
    (addChunk st s ls lc rs rcn).temp = st.temp ++ [Chunk.mk s ls lc rs rcn] := by
  unfold addChunk
  split
  · exact Or.inl rfl
  · exact Or.inr rfl

theorem none_allSolved (l r : View) (st : DState) (h : allSolved st.chunks) :
    allSolved (diff_algo_none l r st).chunks := by
  simp only [diff_algo_none]
  split
  · split
    · split
      · exact addChunk_allSolved _ _ _ _ _ _
          (addChunk_allSolved _ _ _ _ _ _ (addChunk_allSolved _ _ _ _ _ _ h))
      · exact addChunk_allSolved _ _ _ _ _ _ (addChunk_allSolved _ _ _ _ _ _ h)
    · split
      · exact addChunk_allSolved _ _ _ _ _ _ (addChunk_allSolved _ _ _ _ _ _ h)
      · exact addChunk_allSolved _ _ _ _ _ _ h
  · split
    · split
      · exact addChunk_allSolved _ _ _ _ _ _ (addChunk_allSolved _ _ _ _ _ _ h)
      · exact addChunk_allSolved _ _ _ _ _ _ h
    · split
      · exact addChunk_allSolved _ _ _ _ _ _ h
      · exact h

theorem myersEmitSteps_allSolved (l r : View) :
    ∀ (steps : List (Int × Int)) (st : DState) (x y : Int),
      allSolved st.chunks →
      allSolved (myersEmitSteps l r st x y steps).2.chunks := by
  intro steps
  induction steps with
  | nil =>
      intro st x y h
      exact h
  | cons p rest ih =>
      intro st x y h
      obtain ⟨nx, ny⟩ := p
      simp only [myersEmitSteps]
      split
      · split
        · exact ih _ _ _ (addChunk_allSolved _ _ _ _ _ _
            (addChunk_allSolved _ _ _ _ _ _ h))
        · split
          · exact ih _ _ _ (addChunk_allSolved _ _ _ _ _ _
              (addChunk_allSolved _ _ _ _ _ _ h))
          · split
            · exact h
            · exact ih _ _ _ (addChunk_allSolved _ _ _ _ _ _ h)
      · split
        · exact ih _ _ _ (addChunk_allSolved _ _ _ _ _ _ h)
        · split
          · exact ih _ _ _ (addChunk_allSolved _ _ _ _ _ _ h)
          · exact ih _ _ _ h

theorem myers_allSolved (p : Nat) (l r : View) (st : DState) (h : allSolved st.chunks) :
    allSolved (diff_algo_myers p l r st).2.chunks := by
  simp only [diff_algo_myers]
  split
  · exact h
  · split
    · exact h
    · exact myersEmitSteps_allSolved l r _ st 0 0 h

theorem dvSection_allSolved (st : DState) (lAt : Int) (lLen : Nat) (rAt : Int)
    (rLen : Nat) (h : allSolved st.chunks) :
    allSolved (dvSection st lAt lLen rAt rLen).chunks := by
  simp only [dvSection]
  split
  · exact addChunk_allSolved _ _ _ _ _ _ h
  · split
    · exact addChunk_allSolved _ _ _ _ _ _ h
    · split
      · exact addChunk_allSolved _ _ _ _ _ _ h
      · exact h

theorem divide_allSolved (jx jy : Int) (l r : View) (st : DState)
    (h : allSolved st.chunks) :
    allSolved (diff_algo_myers_divide jx jy l r st).2.chunks := by
  simp only [diff_algo_myers_divide]
  split
  · exact h
  · exact dvSection_allSolved _ _ _ _ _
      (addChunk_allSolved _ _ _ _ _ _ (dvSection_allSolved _ _ _ _ _ h))

theorem patGap_allSolved (l r : View) (a b c d : Nat) (st : DState)
    (h : allSolved st.chunks) : allSolved (patGap l r a b c d st).chunks := by
  simp only [patGap]
  split
  · exact addChunk_allSolved _ _ _ _ _ _ h
  · split
    · exact addChunk_allSolved _ _ _ _ _ _ h
    · split
      · exact addChunk_allSolved _ _ _ _ _ _ h
      · exact h

theorem patEmit_allSolved (l r : View) (posL : Array (Option Nat))
    (idL idR : Array (Nat × Nat)) :
    ∀ (lcs : List Nat) (lp rp : Nat) (st : DState),
      allSolved st.chunks →
      allSolved (patEmit l r posL idL idR lcs lp rp st).chunks := by
  intro lcs
  induction lcs with
  | nil =>
      intro lp rp st h
      exact patGap_allSolved _ _ _ _ _ _ _ h
  | cons a rest ih =>
      intro lp rp st h
      exact ih _ _ _ (addChunk_allSolved _ _ _ _ _ _ (patGap_allSolved _ _ _ _ _ _ _ h))

theorem patience_allSolved (l r : View) (st : DState) (h : allSolved st.chunks) :
    allSolved (diff_algo_patience l r st).2.chunks := by
  simp only [diff_algo_patience]
  split
  · exact h
  · exact patEmit_allSolved _ _ _ _ _ _ _ _ _ h

theorem runImpl_allSolved (ik : ImplKind) (p : Nat) (l r : View) (st : DState)
    (h : allSolved st.chunks) : allSolved (runImpl ik p l r st).2.chunks := by
  cases ik
  · exact myers_allSolved p l r st h
  · exact divide_allSolved _ _ l r _ h
  · exact patience_allSolved l r st h

end Diff

namespace Diff

/-- The drain step of diff_run_algo, named for reasoning about the fold:
solved temp chunks are copied to the result, unsolved ones are recursed into
with the inner config at one less depth. -/
def drainBody (tbl : ConfTable) (lroot rroot : List Atom) (fuel : Nat)
    (innerIdx : Option Nat) (depth : Nat) (acc : Option DState) (c : Chunk) :
    Option DState :=
  match acc with
  | none => none
  | some stA =>
      if c.solved then
        some { stA with chunks := stA.chunks ++ [c] }
      else
        let lv := subView lroot (c.lStart.getD 0).toNat c.lCount
        let rv := subView rroot (c.rStart.getD 0).toNat c.rCount
        match runAlgo tbl lroot rroot fuel innerIdx depth lv rv
            ⟨stA.chunks, [], stA.junks⟩ with
        | none => none
        | some stB => some ⟨stB.chunks, stA.temp, stB.junks⟩

/-- One-step unfolding of the fuelled diff_run_algo. -/
theorem runAlgo_succ (tbl : ConfTable) (lroot rroot : List Atom) (f : Nat)
    (idx : Option Nat) (depth : Nat) (l r : View) (st : DState) :
    runAlgo tbl lroot rroot (f + 1) idx depth l r st =
      match idx.bind (fun i => tbl.get? i) with
      | none => some (diff_algo_none l r ⟨st.chunks, [], st.junks⟩)
      | some conf =>
          match conf.impl with
          | none => some (diff_algo_none l r ⟨st.chunks, [], st.junks⟩)
          | some ik =>
              if depth = 0 then some (diff_algo_none l r ⟨st.chunks, [], st.junks⟩)
              else
                match runImpl ik conf.permittedStateSize l r ⟨st.chunks, [], st.junks⟩ with
                | (.useFallback, st') =>
                    runAlgo tbl lroot rroot f conf.fallbackAlgo depth l r st'
                | (.ok, st') =>
                    match st'.temp.foldl
                        (drainBody tbl lroot rroot f conf.innerAlgo (depth - 1))
                        (some st') with
                    | none => none
                    | some st'' => some { st'' with temp := [] } := rfl

theorem drainBody_fold_none (tbl : ConfTable) (lroot rroot : List Atom) (fuel : Nat)
    (innerIdx : Option Nat) (depth : Nat) (cs : List Chunk) :
    cs.foldl (drainBody tbl lroot rroot fuel innerIdx depth) none = none := by
  induction cs with
  | nil => rfl
  | cons c cs ih =>
      rw [List.foldl_cons]
      exact ih

/-- Draining preserves solvedness of the result chunks: solved temp chunks are
copied as-is and inner runs are assumed to preserve solvedness. -/
theorem drain_allSolved (tbl : ConfTable) (lroot rroot : List Atom) (fuel : Nat)
    (innerIdx : Option Nat) (depth : Nat)
    (hin : ∀ lv rv stI, allSolved stI.chunks →
      ∀ stB, runAlgo tbl lroot rroot fuel innerIdx depth lv rv stI = some stB →
        allSolved stB.chunks) :
    ∀ (cs : List Chunk) (stA : DState), allSolved stA.chunks →
      ∀ stD, cs.foldl (drainBody tbl lroot rroot fuel innerIdx depth) (some stA) =
        some stD → allSolved stD.chunks := by
  intro cs
  induction cs with
  | nil =>
      intro stA hA stD hD
      rw [List.foldl_nil] at hD
      cases hD
      exact hA
  | cons c cs ih =>
      intro stA hA stD hD
      rw [List.foldl_cons] at hD
      by_cases hs : c.solved = true
      · rw [show drainBody tbl lroot rroot fuel innerIdx depth (some stA) c =
            some { stA with chunks := stA.chunks ++ [c] } from by
              simp [drainBody, hs]] at hD
        refine ih _ ?_ stD hD
        intro c2 hc2
        rcases List.mem_append.mp hc2 with h1 | h2
        · exact hA c2 h1
        · rw [List.mem_singleton] at h2
          subst h2
          exact hs
      · have hs' : c.solved = false := by
          cases hx : c.solved
          · rfl
          · exact absurd hx hs
        rcases hrun : runAlgo tbl lroot rroot fuel innerIdx depth
            (subView lroot (c.lStart.getD 0).toNat c.lCount)
            (subView rroot (c.rStart.getD 0).toNat c.rCount)
            ⟨stA.chunks, [], stA.junks⟩ with _ | stB
        · rw [show drainBody tbl lroot rroot fuel innerIdx depth (some stA) c =
              none from by simp [drainBody, hs', hrun]] at hD
          rw [drainBody_fold_none] at hD
          cases hD
        · rw [show drainBody tbl lroot rroot fuel innerIdx depth (some stA) c =
              some ⟨stB.chunks, stA.temp, stB.junks⟩ from by
                simp [drainBody, hs', hrun]] at hD
          exact ih ⟨stB.chunks, stA.temp, stB.junks⟩
            (hin (subView lroot (c.lStart.getD 0).toNat c.lCount)
              (subView rroot (c.rStart.getD 0).toNat c.rCount)
              ⟨stA.chunks, [], stA.junks⟩ hA stB hrun) stD hD

/-- For every configuration table the framework only ever puts solved chunks
into the result list. -/
theorem runAlgo_allSolved (tbl : ConfTable) (lroot rroot : List Atom) :
    ∀ fuel idx depth l r st, allSolved st.chunks →
      ∀ st', runAlgo tbl lroot rroot fuel idx depth l r st = some st' →
        allSolved st'.chunks := by
  intro fuel
  induction fuel using Nat.strong_induction_on with
  | _ fuel ih =>
    intro idx depth l r st hst st' hrun
    match fuel, hrun with
    | f + 1, hrun =>
      rw [runAlgo_succ] at hrun
      rcases hc : idx.bind (fun i => tbl.get? i) with _ | conf
      · rw [hc] at hrun
        dsimp only at hrun
        cases hrun
        exact none_allSolved _ _ _ hst
      · rw [hc] at hrun
        dsimp only at hrun
        rcases hi : conf.impl with _ | ik
        · rw [hi] at hrun
          dsimp only at hrun
          cases hrun
          exact none_allSolved _ _ _ hst
        · rw [hi] at hrun
          dsimp only at hrun
          by_cases hd : depth = 0
          · rw [if_pos hd] at hrun
            cases hrun
            exact none_allSolved _ _ _ hst
          · rw [if_neg hd] at hrun
            rcases hri : runImpl ik conf.permittedStateSize l r
                ⟨st.chunks, [], st.junks⟩ with ⟨rc, st2⟩
            rw [hri] at hrun
            have hst2 : allSolved st2.chunks := by
              have h2 := runImpl_allSolved ik conf.permittedStateSize l r
                ⟨st.chunks, [], st.junks⟩ hst
              rw [hri] at h2
              exact h2
            cases rc
            · dsimp only at hrun
              rcases hdr : st2.temp.foldl
                  (drainBody tbl lroot rroot f conf.innerAlgo (depth - 1))
                  (some st2) with _ | stD
              · rw [hdr] at hrun
                cases hrun
              · rw [hdr] at hrun
                cases hrun
                exact drain_allSolved tbl lroot rroot f conf.innerAlgo (depth - 1)
                  (fun lv rv stI hI stB hB =>
                    ih f (by omega) conf.innerAlgo (depth - 1) lv rv stI hI stB hB)
                  st2.temp st2 hst2 stD hdr
            · dsimp only at hrun
              exact ih f (by omega) conf.fallbackAlgo depth l r st2 hst2 st' hrun

/-- diff_main never leaves an unsolved chunk in the final result. -/
theorem diffMain_allSolved (junks : List (Int × Int)) (ldata rdata : List Nat)
    (st : DState) (h : diffMain junks ldata rdata = some st) :
    allSolved st.chunks := by
  unfold diffMain at h
  exact runAlgo_allSolved defaultTable (atomize ldata) (atomize rdata) diffMainFuel
    (some 0) 1024 ⟨0, atomize ldata⟩ ⟨0, atomize rdata⟩ ⟨[], [], junks⟩
    (fun c hc => absurd hc (List.not_mem_nil c)) st h

end Diff

namespace Diff

/-- On pairwise-equal views the k = 0 snake slides all the way to the end. -/
theorem slideDown_equal (l r : View) (N : Nat) (hlen : l.atoms.length = N)
    (hrlen : r.atoms.length = N)
    (heq : ∀ i < N, diff_atom_same (atomAtN l i) (atomAtN r i) = true) :
    ∀ (fuel j : Nat), j ≤ N → N ≤ j + fuel →
      slideDown l r 0 fuel (j : Int) = (N : Int) := by
  intro fuel
  induction fuel with
  | zero =>
      intro j hj hN
      have : j = N := by omega
      rw [this]
      rfl
  | succ f ih =>
      intro j hj hN
      by_cases hlt : j < N
      · have hcond : ((j : Int) < (l.atoms.length : Int) ∧
            (j : Int) - 0 < (r.atoms.length : Int) ∧
            sameAtXY l r (j : Int) ((j : Int) - 0) = true) := by
          refine ⟨by rw [hlen]; exact_mod_cast hlt, by rw [hrlen]; push_cast; omega, ?_⟩
          rw [show (j : Int) - 0 = (j : Int) by ring]
          unfold sameAtXY
          rw [if_pos ⟨by positivity, by rw [hlen]; exact_mod_cast hlt,
            by positivity, by rw [hrlen]; exact_mod_cast hlt⟩]
          rw [Int.toNat_ofNat]
          exact heq j hlt
        unfold slideDown
        rw [if_pos hcond]
        rw [show (j : Int) + 1 = ((j + 1 : Nat) : Int) by push_cast; ring]
        exact ih (j + 1) (by omega) (by omega)
      · have hje : j = N := by omega
        subst hje
        unfold slideDown
        rw [if_neg ?_]
        rintro ⟨hx, _, _⟩
        rw [hlen] at hx
        omega

end Diff

namespace Diff

theorem kdGet_kdSet (buf : Array Int) (i : Int) (v : Int)
    (h0 : 0 ≤ i) (h : i.toNat < buf.size) : kdGet (kdSet buf i v) i = v := by
  have hset : kdSet buf i v = buf.set ⟨i.toNat, h⟩ v := by
    unfold kdSet
    rw [dif_pos ⟨h0, h⟩]
  rw [hset]
  unfold kdGet
  have hsz : (buf.set ⟨i.toNat, h⟩ v).size = buf.size := Array.size_set ..
  rw [dif_pos ⟨h0, by rw [hsz]; exact h⟩]
  exact Array.get_set_eq ..

/-- On pairwise-equal non-empty views that pass the state-size check, the full
Myers algorithm finds the terminal at d = 0 and emits the single equal chunk
covering both views. -/
theorem myers_equal (p : Nat) (l r : View) (st : DState)
    (hrlen : r.atoms.length = l.atoms.length)
    (heq : ∀ i < l.atoms.length, diff_atom_same (atomAtN l i) (atomAtN r i) = true)
    (hrej : myersRejects l.atoms.length r.atoms.length p = false)
    (hpos : 0 < l.atoms.length) (hN32 : l.atoms.length < 2 ^ 32) :
    diff_algo_myers p l r st =
      (.ok, addChunk st true (some (l.off : Int)) l.atoms.length
        (some (r.off : Int)) r.atoms.length) := by
  unfold diff_algo_myers
  rw [if_neg (by rw [hrej]; intro hx; cases hx)]
  rw [hrlen]
  dsimp only
  set N := l.atoms.length with hNdef
  set maxv := N + N with hmaxv
  set kdLen := 2 * maxv + 1 with hkdLen
  set buf0 := Array.mkArray (kdLen * kdLen) (-1 : Int) with hbuf0
  have hbufsz : buf0.size = kdLen * kdLen := Array.size_mkArray ..
  have hks : kSeq 0 = [(0 : Int)] := by decide
  have hslide : slideDown l r 0 (l.atoms.length + 1) ((0 : Nat) : Int) = (N : Int) :=
    slideDown_equal l r N rfl hrlen (fun i hi => heq i hi) (l.atoms.length + 1) 0
      (by omega) (by omega)
  have hidx : kdIdx kdLen maxv 0 0 = (maxv : Int) := by
    unfold kdIdx
    push_cast
    ring
  have hidx_bound : ((maxv : Int)).toNat < buf0.size := by
    rw [Int.toNat_ofNat, hbufsz]
    nlinarith [hkdLen]
  have hcol : myersFwdCol l r kdLen maxv 0 buf0 [(0 : Int)] =
      (kdSet buf0 (kdIdx kdLen maxv 0 0) (N : Int), some 0) := by
    unfold myersFwdCol
    dsimp only
    rw [if_neg ?hrange]
    case hrange =>
      rintro (h1 | h2)
      · omega
      · omega
    rw [if_pos rfl]
    rw [show ((0 : Nat) : Int) = (0 : Int) from rfl] at hslide
    rw [hslide]
    rw [if_pos ⟨rfl, by rw [hrlen]; push_cast; ring⟩]
  have hfwd : myersFwdLoop l r kdLen maxv buf0 0 (maxv + 1) =
      (kdSet buf0 (kdIdx kdLen maxv 0 0) (N : Int), some (0, 0)) := by
    have hfuel : maxv + 1 = maxv + 1 := rfl
    unfold myersFwdLoop
    rw [hks, hcol]
  rw [hfwd]
  dsimp only
  have hget : kdGet (kdSet buf0 (kdIdx kdLen maxv 0 0) (N : Int))
      (kdIdx kdLen maxv 0 0) = (N : Int) := by
    rw [hidx]
    exact kdGet_kdSet buf0 (maxv : Int) (N : Int) (by positivity) hidx_bound
  have hback : myersBacktrace (kdSet buf0 (kdIdx kdLen maxv 0 0) (N : Int))
      kdLen maxv 0 0 = [((N : Int), (N : Int) - 0)] := by
    unfold myersBacktrace
    rw [hget]
  rw [hback]
  have huint : uint32 ((N : Int) - 0) = N := by
    unfold uint32
    rw [show ((N : Int) - 0) = (N : Int) from by ring]
    rw [Int.emod_eq_of_lt (by positivity)
      (by exact_mod_cast (by omega : N < 2 ^ 32))]
    exact Int.toNat_ofNat N
  have huint2 : uint32 ((N : Int) - 0 - 0) = N := by
    rw [show ((N : Int) - 0 - 0) = ((N : Int) - 0) from by ring]
    exact huint
  unfold myersEmitSteps
  dsimp only
  rw [if_pos ⟨by omega, by omega⟩]
  rw [if_neg (by omega)]
  rw [if_neg (by omega)]
  rw [if_neg (by omega)]
  rw [huint, huint2]
  rw [show ((l.off : Int) + 0) = (l.off : Int) from by ring]
  rw [show ((r.off : Int) + 0) = (r.off : Int) from by ring]
  rfl

end Diff

namespace Diff

theorem cmScan_no_match (vl vr : Array Atom) (uhR : Array Bool) (i : Nat) :
    ∀ (js : List Nat) (st : Nat × Array (Option Nat) × Array (Option Nat)),
      (∀ j ∈ js, diff_atom_same (atomA vl i) (atomA vr j) = false) →
      cmScan vl vr uhR i js st = st := by
  intro js
  induction js with
  | nil =>
      intro st _
      rfl
  | cons j rest ih =>
      intro st hm
      obtain ⟨found, posL, posR⟩ := st
      have hj := hm j (List.mem_cons_self j rest)
      have hstep : cmScan vl vr uhR i (j :: rest) (found, posL, posR) =
          cmScan vl vr uhR i rest (found, posL, posR) := by
        simp [cmScan, hj]
      rw [hstep]
      exact ih _ (fun x hx => hm x (List.mem_cons_of_mem j hx))

/-- When the scanned indices contain exactly one match, which is unique on the
right, the scan ends with found = 1 and the mutual positions recorded. -/
theorem cmScan_one (vl vr : Array Atom) (uhR : Array Bool) (i j0 : Nat)
    (A B : List Nat)
    (hA : ∀ j ∈ A, diff_atom_same (atomA vl i) (atomA vr j) = false)
    (hB : ∀ j ∈ B, diff_atom_same (atomA vl i) (atomA vr j) = false)
    (hj0 : diff_atom_same (atomA vl i) (atomA vr j0) = true)
    (hu : aget uhR j0 = true) :
    ∀ (pL pR : Array (Option Nat)),
      cmScan vl vr uhR i (A ++ j0 :: B) (0, pL, pR) =
        (1, aset pL i (some j0), aset pR j0 (some i)) := by
  induction A with
  | nil =>
      intro pL pR
      rw [List.nil_append]
      have hstep : cmScan vl vr uhR i (j0 :: B) (0, pL, pR) =
          cmScan vl vr uhR i B (1, aset pL i (some j0), aset pR j0 (some i)) := by
        simp [cmScan, hj0, hu]
      rw [hstep]
      exact cmScan_no_match vl vr uhR i B _ hB
  | cons a A ih =>
      intro pL pR
      rw [List.cons_append]
      have ha := hA a (List.mem_cons_self a A)
      have hstep : cmScan vl vr uhR i (a :: (A ++ j0 :: B)) (0, pL, pR) =
          cmScan vl vr uhR i (A ++ j0 :: B) (0, pL, pR) := by
        simp [cmScan, ha]
      rw [hstep]
      exact ih (fun x hx => hA x (List.mem_cons_of_mem a hx)) pL pR

/-- Splitting of the scan range at the sole matching index. -/
theorem range_split_at (n i : Nat) (h : i < n) :
    List.range n = List.range i ++ i :: List.range' (i + 1) (n - (i + 1)) := by
  rw [List.range_eq_range', List.range_eq_range']
  have h3 := List.range'_append 0 i (n - i) 1
  simp only [Nat.zero_add, Nat.one_mul] at h3
  rw [show n - i + i = n from by omega] at h3
  rw [← h3]
  congr 1
  have : n - i = (n - (i + 1)) + 1 := by omega
  rw [this, List.range'_succ]

end Diff

namespace Diff

/-- Scanning an identical right side for a left-unique atom finds exactly the
atom itself. -/
theorem cmScan_ident (va : Array Atom) (uhR : Array Bool) (i : Nat)
    (hi : i < va.size) (huniq : csame va i = 1) (hu : aget uhR i = true)
    (pL pR : Array (Option Nat)) :
    cmScan va va uhR i (List.range va.size) (0, pL, pR) =
      (1, aset pL i (some i), aset pR i (some i)) := by
  have hall := (csame_eq_one_iff va hi).mp huniq
  rw [range_split_at va.size i hi]
  apply cmScan_one
  · intro j hj
    have hjlt : j < i := List.mem_range.mp hj
    cases hx : diff_atom_same (atomA va i) (atomA va j)
    · rfl
    · have := hall j (by omega) hx
      omega
  · intro j hj
    rcases List.mem_range'_1.mp hj with ⟨hge, hlt⟩
    cases hx : diff_atom_same (atomA va i) (atomA va j)
    · rfl
    · have := hall j (by omega) hx
      omega
  · exact sameB_refl va i
  · exact hu

/-- The recording fold that the identity sweep performs on pos_in_other. -/
def posFold (uhL : Array Bool) (js : List Nat) (pL : Array (Option Nat)) :
    Array (Option Nat) :=
  js.foldl (fun pL i => if aget uhL i then aset pL i (some i) else pL) pL

/-- On an identical pair of sides every marked left atom scans to found = 1,
so the sweep leaves the marks and the count untouched and only records the
identity pairing. -/
theorem sweep_ident (va : Array Atom) (uhL : Array Bool)
    (hchar : ∀ i, aget uhL i = true → i < va.size ∧ csame va i = 1) :
    ∀ (js : List Nat) (s : Array Bool × Array (Option Nat) × Array (Option Nat) × Nat),
      (js.foldl (sweepBody va va uhL uhL) s).1 = s.1 ∧
      (js.foldl (sweepBody va va uhL uhL) s).2.2.2 = s.2.2.2 ∧
      (js.foldl (sweepBody va va uhL uhL) s).2.1 = posFold uhL js s.2.1 := by
  intro js
  induction js with
  | nil =>
      intro s
      exact ⟨rfl, rfl, rfl⟩
  | cons i js ih =>
      intro s
      rw [List.foldl_cons]
      unfold posFold
      rw [List.foldl_cons]
      by_cases hu : aget uhL i = true
      · obtain ⟨hin, hcs⟩ := hchar i hu
        have hstep : sweepBody va va uhL uhL s i =
            (s.1, aset s.2.1 i (some i), aset s.2.2.1 i (some i), s.2.2.2) := by
          unfold sweepBody
          rw [if_neg (by rw [hu]; intro hx; cases hx)]
          dsimp only
          rw [cmScan_ident va uhL i hin hcs hu s.2.1 s.2.2.1]
          rw [if_neg (by rintro (h1 | h2) <;> omega)]
        rw [hstep, if_pos hu]
        obtain ⟨g1, g2, g3⟩ := ih (s.1, aset s.2.1 i (some i), aset s.2.2.1 i (some i),
          s.2.2.2)
        exact ⟨g1, g2, g3⟩
      · have hu2 : aget uhL i = false := by
          cases hx : aget uhL i
          · rfl
          · exact absurd hx hu
        have hstep : sweepBody va va uhL uhL s i = s := by
          unfold sweepBody
          rw [if_pos hu2]
        rw [hstep, if_neg (by rw [hu2]; intro hx; cases hx)]
        exact ih s

theorem posFold_size (uhL : Array Bool) (js : List Nat) (pL : Array (Option Nat)) :
    (posFold uhL js pL).size = pL.size := by
  induction js generalizing pL with
  | nil => rfl
  | cons i js ih =>
      unfold posFold
      rw [List.foldl_cons]
      split
      · rw [show (js.foldl (fun pL i => if aget uhL i then aset pL i (some i) else pL)
            (aset pL i (some i))) = posFold uhL js (aset pL i (some i)) from rfl]
        rw [ih, aset_size]
      · exact ih pL

theorem posFold_not_mem (uhL : Array Bool) (js : List Nat) (pL : Array (Option Nat))
    (x : Nat) (hx : x ∉ js) : pget (posFold uhL js pL) x = pget pL x := by
  induction js generalizing pL with
  | nil => rfl
  | cons i js ih =>
      have hxi : x ≠ i := fun he => hx (he ▸ List.mem_cons_self i js)
      have hxjs : x ∉ js := fun hm => hx (List.mem_cons_of_mem i hm)
      unfold posFold
      rw [List.foldl_cons]
      split
      · rw [show (js.foldl (fun pL i => if aget uhL i then aset pL i (some i) else pL)
            (aset pL i (some i))) = posFold uhL js (aset pL i (some i)) from rfl]
        rw [ih _ hxjs]
        exact getD_aset_ne pL hxi (some i) none
      · exact ih pL hxjs

theorem posFold_mem (uhL : Array Bool) (js : List Nat) (pL : Array (Option Nat))
    (x : Nat) (hnd : js.Nodup) (hx : x ∈ js) (hu : aget uhL x = true)
    (hlt : x < pL.size) : pget (posFold uhL js pL) x = some x := by
  induction js generalizing pL with
  | nil => cases hx
  | cons i js ih =>
      rw [List.nodup_cons] at hnd
      unfold posFold
      rw [List.foldl_cons]
      rcases List.mem_cons.mp hx with he | hmem
      · subst he
        rw [if_pos hu]
        rw [show (js.foldl (fun pL i => if aget uhL i then aset pL i (some i) else pL)
            (aset pL x (some x))) = posFold uhL js (aset pL x (some x)) from rfl]
        rw [posFold_not_mem uhL js _ x hnd.1]
        exact getD_aset_eq pL hlt (some x) none
      · have hxi : x ≠ i := fun he => hnd.1 (he ▸ hmem)
        split
        · rw [show (js.foldl (fun pL i => if aget uhL i then aset pL i (some i) else pL)
              (aset pL i (some i))) = posFold uhL js (aset pL i (some i)) from rfl]
          rw [ih _ hnd.2 hmem (by rw [aset_size]; exact hlt)]
        · exact ih _ hnd.2 hmem hlt

end Diff

namespace Diff

/-- On identical sides an anchor swallows upwards all the way to the previous
range (here the start of the file). -/
theorem swUp_ident (va : Array Atom) : ∀ j : Nat, swUp va va 0 0 j j = (0, 0) := by
  intro j
  induction j with
  | zero => rfl
  | succ j ih =>
      have hstep : swUp va va 0 0 (j + 1) (j + 1) = swUp va va 0 0 j (j + 1 - 1) := by
        simp only [swUp]
        rw [if_pos ⟨by omega, by omega, by
          rw [Nat.add_sub_cancel]; exact diff_atom_same_refl _⟩]
      rw [hstep, Nat.add_sub_cancel]
      exact ih

/-- On identical sides the downward swallow from (j, j) runs to the end of the
file, clearing every unique_in_both mark from j on and stepping the outer
index to the file length. -/
theorem swDown_ident (va : Array Atom) (n : Nat) (hn : va.size = n) :
    ∀ (fuel j nxt : Nat) (uibL uibR : Array Bool) (cnt : Nat),
      j ≤ n → n - j < fuel → uibL.size = n →
      ∃ ub ur c, swDown va va fuel j j nxt uibL uibR cnt =
        (n, n, ub, ur, c, nxt + (n - j)) ∧
        (∀ x, aget ub x =
          (aget uibL x && !(decide (j ≤ x) && decide (x < n)))) := by
  intro fuel
  induction fuel with
  | zero =>
      intro j nxt uibL uibR cnt hj hf hsz
      omega
  | succ f ih =>
      intro j nxt uibL uibR cnt hj hf hsz
      by_cases hjn : j < n
      · have hcond : j < va.size ∧ j < va.size ∧
            diff_atom_same (atomA va j) (atomA va j) = true :=
          ⟨by omega, by omega, diff_atom_same_refl _⟩
        by_cases hu : aget uibL j = true
        · have hstep : swDown va va (f + 1) j j nxt uibL uibR cnt =
              swDown va va f (j + 1) (j + 1) (nxt + 1)
                (aset uibL j false) (aset uibR j false) (cnt - 1) := by
            simp only [swDown]
            rw [if_pos hcond, if_pos hu]
          rw [hstep]
          obtain ⟨ub, ur, c, hres, hpt⟩ := ih (j + 1) (nxt + 1)
            (aset uibL j false) (aset uibR j false) (cnt - 1)
            (by omega) (by omega) (by rw [aset_size]; exact hsz)
          refine ⟨ub, ur, c, ?_, ?_⟩
          · rw [hres, show nxt + 1 + (n - (j + 1)) = nxt + (n - j) from by omega]
          · intro x
            rw [hpt x]
            by_cases hxj : x = j
            · subst hxj
              rw [aget_aset_eq uibL (by omega) false, hu]
              simp
              omega
            · rw [aget_aset_ne uibL hxj false]
              congr 1
              rw [Bool.eq_iff_iff]
              simp only [Bool.not_eq_true', Bool.and_eq_false_iff,
                decide_eq_false_iff_not, not_lt, decide_eq_true_eq]
              constructor
              · rintro (h1 | h2)
                · left
                  omega
                · right
                  exact h2
              · rintro (h1 | h2)
                · left
                  omega
                · right
                  exact h2
        · have hu2 : aget uibL j = false := by
            cases hx : aget uibL j
            · rfl
            · exact absurd hx hu
          have hstep : swDown va va (f + 1) j j nxt uibL uibR cnt =
              swDown va va f (j + 1) (j + 1) (nxt + 1) uibL uibR cnt := by
            simp only [swDown]
            rw [if_pos hcond, if_neg (by rw [hu2]; intro hx; cases hx)]
          rw [hstep]
          obtain ⟨ub, ur, c, hres, hpt⟩ := ih (j + 1) (nxt + 1) uibL uibR cnt
            (by omega) (by omega) hsz
          refine ⟨ub, ur, c, ?_, ?_⟩
          · rw [hres, show nxt + 1 + (n - (j + 1)) = nxt + (n - j) from by omega]
          · intro x
            rw [hpt x]
            by_cases hxj : x = j
            · subst hxj
              rw [hu2]
              simp
            · congr 1
              rw [Bool.eq_iff_iff]
              simp only [Bool.not_eq_true', Bool.and_eq_false_iff,
                decide_eq_false_iff_not, not_lt, decide_eq_true_eq]
              constructor
              · rintro (h1 | h2)
                · left
                  omega
                · right
                  exact h2
              · rintro (h1 | h2)
                · left
                  omega
                · right
                  exact h2
      · have hje : j = n := by omega
        subst hje
        have hstep : swDown va va (f + 1) j j nxt uibL uibR cnt =
            (j, j, uibL, uibR, cnt, nxt) := by
          simp only [swDown]
          rw [if_neg ?_]
          rintro ⟨h1, _, _⟩
          omega
        rw [hstep]
        refine ⟨uibL, uibR, cnt, by rw [show j - j = 0 from by omega]; rfl, ?_⟩
        intro x
        by_cases hx : j ≤ x ∧ x < j
        · omega
        · have : (decide (j ≤ x) && decide (x < j)) = false := by
            rw [Bool.and_eq_false_iff]
            by_cases h1 : j ≤ x
            · right
              rw [decide_eq_false_iff_not]
              omega
            · left
              rw [decide_eq_false_iff_not]
              omega
          rw [this]
          simp

end Diff

namespace Diff

theorem swallowLoop_end (vl vr : Array Atom) (posL : Array (Option Nat)) :
    ∀ (fuel t lMin rMin : Nat) (s : SwallowSt), vl.size ≤ t →
      swallowLoop vl vr posL fuel t lMin rMin s = s := by
  intro fuel t lMin rMin s ht
  cases fuel with
  | zero => rfl
  | succ f =>
      simp only [swallowLoop]
      rw [if_pos ht]

theorem swallowLoop_skip (vl vr : Array Atom) (posL : Array (Option Nat)) :
    ∀ (k fuel t lMin rMin : Nat) (s : SwallowSt),
      (∀ x, t ≤ x → x < t + k → aget s.uibL x = false) →
      swallowLoop vl vr posL (fuel + k) t lMin rMin s =
        swallowLoop vl vr posL fuel (t + k) lMin rMin s := by
  intro k
  induction k with
  | zero =>
      intro fuel t lMin rMin s _
      rfl
  | succ k ih =>
      intro fuel t lMin rMin s hsk
      by_cases ht : vl.size ≤ t
      · rw [swallowLoop_end vl vr posL _ t _ _ s ht,
          swallowLoop_end vl vr posL fuel (t + (k + 1)) _ _ s (by omega)]
      · have hstep : swallowLoop vl vr posL (fuel + k + 1) t lMin rMin s =
            swallowLoop vl vr posL (fuel + k) (t + 1) lMin rMin s := by
          simp only [swallowLoop]
          rw [if_neg ht, if_pos (hsk t (by omega) (by omega))]
        rw [show fuel + (k + 1) = fuel + k + 1 from by omega, hstep]
        rw [ih fuel (t + 1) lMin rMin s (fun x hx1 hx2 => hsk x (by omega) (by omega))]
        rw [show t + 1 + k = t + (k + 1) from by omega]

/-- At the first surviving anchor on identical sides with no previous range,
the anchor swallows the whole file: the identical ranges become (0, n), every
later mark is cleared, and the outer loop ends. -/
theorem swallowLoop_anchor (va : Array Atom) (posL : Array (Option Nat)) (n : Nat)
    (hn : va.size = n) (u0 : Nat) (hu0 : u0 < n)
    (f : Nat) (s : SwallowSt)
    (hm : aget s.uibL u0 = true)
    (hp : pget posL u0 = some u0)
    (hsz : s.uibL.size = n) :
    ∃ ub ur c, swallowLoop va va posL (f + 1) u0 0 0 s =
      ⟨ub, ur, aset s.idL u0 (0, n), aset s.idR u0 (0, n), c⟩ ∧
      (∀ x, aget ub x =
        (aget s.uibL x && !(decide (u0 + 1 ≤ x) && decide (x < n)))) := by
  obtain ⟨ub, ur, c, hdn, hpt⟩ := swDown_ident va n hn (va.size + 1) (u0 + 1) (u0 + 1)
    s.uibL s.uibR s.cnt (by omega) (by omega) hsz
  refine ⟨ub, ur, c, ?_, hpt⟩
  have hstep : swallowLoop va va posL (f + 1) u0 0 0 s =
      swallowLoop va va posL f (u0 + 1 + (n - (u0 + 1))) n n
        ⟨ub, ur, aset s.idL u0 (0, n), aset s.idR u0 (0, n), c⟩ := by
    simp only [swallowLoop]
    rw [if_neg (by omega), if_neg (by rw [hm]; intro hx; cases hx)]
    rw [show pget posL u0 = some u0 from hp]
    dsimp only [Option.getD]
    rw [swUp_ident va u0, hdn]
  rw [hstep]
  rw [show u0 + 1 + (n - (u0 + 1)) = n from by omega]
  exact swallowLoop_end va va posL f n n n _ (by omega)

end Diff

namespace Diff

theorem filter_range_eq_singleton (n t : Nat) (ht : t < n) (P : Nat → Bool)
    (h : ∀ x < n, P x = (x == t)) : (List.range n).filter P = [t] := by
  have hcong : (List.range n).filter P = (List.range n).filter (fun x => x == t) :=
    List.filter_congr (fun x hx => h x (List.mem_range.mp hx))
  rw [hcong]
  obtain ⟨a, ha⟩ := List.length_eq_one.mp (length_filter_beq_range ht)
  have hmem : t ∈ (List.range n).filter (fun x => x == t) :=
    List.mem_filter.mpr ⟨List.mem_range.mpr ht, by simp⟩
  rw [ha] at hmem ⊢
  rw [List.mem_singleton] at hmem
  rw [← hmem]

theorem usub_self (a : Nat) : usub a a = 0 := by
  unfold usub uint32
  rw [sub_self]
  rfl

theorem chainBack_none (ps : Array (Option Nat)) :
    ∀ (fuel cur : Nat), pget ps cur = none → chainBack ps fuel cur = [cur] := by
  intro fuel cur h
  cases fuel with
  | zero => rfl
  | succ f =>
      simp only [chainBack]
      rw [h]

theorem placeUniques_single (posL : Array (Option Nat)) (m n u0 : Nat)
    (hp : pget posL u0 = some u0) (hu0 : u0 < n) :
    placeUniques posL m [u0]
      (Array.mkArray n 0, 0, Array.mkArray n (none : Option Nat)) =
      (aset (Array.mkArray n 0) 0 u0, 1,
        aset (Array.mkArray n (none : Option Nat)) u0 none) := by
  simp only [placeUniques, hp, Option.getD]
  simp

theorem patGap_zero (v : View) (p q : Nat) (st : DState) :
    patGap v v p p q q st = st := by
  unfold patGap
  rw [usub_self, usub_self]
  rw [if_neg (by rintro ⟨h1, _⟩; exact h1 rfl)]
  rw [if_neg (by rintro ⟨h1, _⟩; exact h1 rfl)]
  rw [if_neg (by rintro ⟨_, h2⟩; exact h2 rfl)]

theorem patEmit_single (v : View) (posL : Array (Option Nat))
    (idL idR : Array (Nat × Nat)) (u0 n : Nat) (hn : v.atoms.length = n)
    (hp : pget posL u0 = some u0)
    (hL : idL.getD u0 (0, 0) = (0, n)) (hR : idR.getD u0 (0, 0) = (0, n))
    (st : DState) :
    patEmit v v posL idL idR [u0] 0 0 st =
      addChunk st true (some ((v.off : Int) + (0 : Nat))) (n - 0)
        (some ((v.off : Int) + (0 : Nat))) (n - 0) := by
  simp only [patEmit, hp, Option.getD, hL, hR]
  rw [patGap_zero]
  rw [show patGap v v n v.atoms.length n v.atoms.length
      (addChunk st true (some ((v.off : Int) + (0 : Nat))) (n - 0)
        (some ((v.off : Int) + (0 : Nat))) (n - 0)) =
      addChunk st true (some ((v.off : Int) + (0 : Nat))) (n - 0)
        (some ((v.off : Int) + (0 : Nat))) (n - 0) from by
    rw [hn]
    exact patGap_zero v n n _]

end Diff

namespace Diff

/-- diff_algo_patience on two identical views with at least one unique line:
the single surviving anchor swallows the whole file and one equal chunk
covering everything is emitted. -/
theorem patience_equal (v : View) (st : DState) (hpos : 0 < v.atoms.length)
    (hex : ∃ i, i < v.atoms.toArray.size ∧ csame v.atoms.toArray i = 1) :
    diff_algo_patience v v st =
      (.ok, addChunk st true (some (v.off : Int)) v.atoms.length
        (some (v.off : Int)) v.atoms.length) := by
  obtain ⟨h1, h2, hmir, hmark, hcnt⟩ := markUnique_char v.atoms.toArray
  have hsz : v.atoms.toArray.size = v.atoms.length := rfl
  have haux : ∀ i, aget (markUnique v.atoms.toArray).1 i = true ↔
      (i < v.atoms.toArray.size ∧ csame v.atoms.toArray i = 1) := by
    intro i
    by_cases hi : i < v.atoms.toArray.size
    · rw [hmark i hi]
      constructor
      · intro h
        exact ⟨hi, h⟩
      · intro h
        exact h.2
    · rw [aget_oob _ (by omega : (markUnique v.atoms.toArray).1.size ≤ i)]
      constructor
      · intro h
        cases h
      · intro h
        exact absurd h.1 hi
  have hchar : ∀ i, aget (markUnique v.atoms.toArray).1 i = true →
      i < v.atoms.toArray.size ∧ csame v.atoms.toArray i = 1 :=
    fun i h => (haux i).mp h
  have hu0lt := (Nat.find_spec hex).1
  have hu0uniq := (Nat.find_spec hex).2
  have hu0min : ∀ x, x < Nat.find hex → ¬(x < v.atoms.toArray.size ∧
      csame v.atoms.toArray x = 1) := fun x hx => Nat.find_min hex hx
  obtain ⟨hsw1, hswc, hswp⟩ := sweep_ident v.atoms.toArray (markUnique v.atoms.toArray).1
    hchar (List.range v.atoms.toArray.size)
    ((markUnique v.atoms.toArray).2.1,
      Array.mkArray v.atoms.toArray.size (none : Option Nat),
      Array.mkArray v.atoms.toArray.size (none : Option Nat),
      (markUnique v.atoms.toArray).2.2)
  have hM1 : (markUniqueInBoth v.atoms.toArray v.atoms.toArray).1 =
      (markUnique v.atoms.toArray).2.1 := by
    show ((List.range v.atoms.toArray.size).foldl
        (sweepBody v.atoms.toArray v.atoms.toArray (markUnique v.atoms.toArray).1
          (markUnique v.atoms.toArray).1)
        ((markUnique v.atoms.toArray).2.1,
          Array.mkArray v.atoms.toArray.size (none : Option Nat),
          Array.mkArray v.atoms.toArray.size (none : Option Nat),
          (markUnique v.atoms.toArray).2.2)).1 = _
    exact hsw1
  have hMcnt : (markUniqueInBoth v.atoms.toArray v.atoms.toArray).2.2.2.2 =
      (markUnique v.atoms.toArray).2.2 := by
    show ((List.range v.atoms.toArray.size).foldl
        (sweepBody v.atoms.toArray v.atoms.toArray (markUnique v.atoms.toArray).1
          (markUnique v.atoms.toArray).1)
        ((markUnique v.atoms.toArray).2.1,
          Array.mkArray v.atoms.toArray.size (none : Option Nat),
          Array.mkArray v.atoms.toArray.size (none : Option Nat),
          (markUnique v.atoms.toArray).2.2)).2.2.2 = _
    exact hswc
  have hMpos : pget (markUniqueInBoth v.atoms.toArray v.atoms.toArray).2.1
      (Nat.find hex) = some (Nat.find hex) := by
    show pget ((List.range v.atoms.toArray.size).foldl
        (sweepBody v.atoms.toArray v.atoms.toArray (markUnique v.atoms.toArray).1
          (markUnique v.atoms.toArray).1)
        ((markUnique v.atoms.toArray).2.1,
          Array.mkArray v.atoms.toArray.size (none : Option Nat),
          Array.mkArray v.atoms.toArray.size (none : Option Nat),
          (markUnique v.atoms.toArray).2.2)).2.1 (Nat.find hex) = _
    rw [hswp]
    exact posFold_mem _ _ _ _ (List.nodup_range _) (List.mem_range.mpr hu0lt)
      ((haux _).mpr ⟨hu0lt, hu0uniq⟩) (by rw [Array.size_mkArray]; exact hu0lt)
  unfold diff_algo_patience
  dsimp only
  rw [hMcnt, hM1]
  have hcz : ¬ ((markUnique v.atoms.toArray).2.2 = 0) := by
    rw [hcnt]
    intro hz
    have hmem : Nat.find hex ∈ (List.range v.atoms.toArray.size).filter
        (fun i => decide (csame v.atoms.toArray i = 1)) :=
      List.mem_filter.mpr ⟨List.mem_range.mpr hu0lt, decide_eq_true hu0uniq⟩
    have := List.length_pos.mpr (List.ne_nil_of_mem hmem)
    omega
  simp only [if_neg hcz]
  have hm_u0 : aget (markUnique v.atoms.toArray).2.1 (Nat.find hex) = true := by
    rw [hmir]
    exact (haux _).mpr ⟨hu0lt, hu0uniq⟩
  have hmu_s0 : ∀ x, 0 ≤ x → x < 0 + Nat.find hex →
      aget (markUnique v.atoms.toArray).2.1 x = false := by
    intro x _ hx
    rw [hmir]
    cases hval : aget (markUnique v.atoms.toArray).1 x
    · rfl
    · exact absurd ((haux x).mp hval) (hu0min x (by omega))
  obtain ⟨ub, ur, c, hanch, hubpt⟩ := swallowLoop_anchor v.atoms.toArray
    (markUniqueInBoth v.atoms.toArray v.atoms.toArray).2.1 v.atoms.toArray.size rfl
    (Nat.find hex) hu0lt (v.atoms.toArray.size - Nat.find hex)
    ⟨(markUnique v.atoms.toArray).2.1,
      (markUniqueInBoth v.atoms.toArray v.atoms.toArray).2.2.1,
      Array.mkArray v.atoms.toArray.size (0, 0),
      Array.mkArray v.atoms.toArray.size (0, 0),
      (markUnique v.atoms.toArray).2.2⟩ hm_u0 hMpos h2
  have hsw : swallowLoop v.atoms.toArray v.atoms.toArray
      (markUniqueInBoth v.atoms.toArray v.atoms.toArray).2.1
      (v.atoms.toArray.size + 1) 0 0 0
      ⟨(markUnique v.atoms.toArray).2.1,
        (markUniqueInBoth v.atoms.toArray v.atoms.toArray).2.2.1,
        Array.mkArray v.atoms.toArray.size (0, 0),
        Array.mkArray v.atoms.toArray.size (0, 0),
        (markUnique v.atoms.toArray).2.2⟩ =
      ⟨ub, ur, aset (Array.mkArray v.atoms.toArray.size (0, 0)) (Nat.find hex)
        (0, v.atoms.toArray.size),
        aset (Array.mkArray v.atoms.toArray.size (0, 0)) (Nat.find hex)
        (0, v.atoms.toArray.size), c⟩ := by
    rw [show v.atoms.toArray.size + 1 =
      (v.atoms.toArray.size - Nat.find hex + 1) + Nat.find hex from by omega]
    rw [swallowLoop_skip v.atoms.toArray v.atoms.toArray _ (Nat.find hex) _ 0 0 0 _ hmu_s0]
    rw [show (0 + Nat.find hex) = Nat.find hex from by omega]
    exact hanch
  rw [hsw]
  dsimp only
  have hflt : (List.range v.atoms.toArray.size).filter (fun i => aget ub i) =
      [Nat.find hex] := by
    apply filter_range_eq_singleton _ _ hu0lt
    intro x hx
    rw [hubpt x]
    dsimp only
    by_cases hxu : x = Nat.find hex
    · subst hxu
      rw [hm_u0]
      simp
    · rw [Bool.eq_iff_iff]
      simp only [Bool.and_eq_true, Bool.not_eq_true', Bool.or_eq_false_iff,
        Bool.and_eq_false_iff, beq_iff_eq]
      constructor
      · rintro ⟨hval, hnot⟩
        exfalso
        by_cases hlt : x < Nat.find hex
        · rw [hmu_s0 x (by omega) (by omega)] at hval
          cases hval
        · rcases hnot with h1 | h2
          · rw [decide_eq_false_iff_not] at h1
            omega
          · rw [decide_eq_false_iff_not] at h2
            omega
      · intro hx2
        exact absurd hx2 hxu
  rw [hflt]
  rw [placeUniques_single _ _ _ _ hMpos hu0lt]
  dsimp only
  have hn0 : 0 < v.atoms.toArray.size := by omega
  rw [show (1 : Nat) - 1 = 0 from rfl]
  rw [show (aset (Array.mkArray v.atoms.toArray.size 0) 0 (Nat.find hex)).getD 0 0 =
    Nat.find hex from getD_aset_eq _ (by rw [Array.size_mkArray]; omega) _ _]
  rw [chainBack_none _ _ _ (by
    exact getD_aset_eq _ (by rw [Array.size_mkArray]; exact hu0lt) _ _)]
  rw [patEmit_single v _ _ _ _ v.atoms.toArray.size rfl hMpos
    (getD_aset_eq _ (by rw [Array.size_mkArray]; exact hu0lt) _ _)
    (getD_aset_eq _ (by rw [Array.size_mkArray]; exact hu0lt) _ _) st]
  rw [show ((v.off : Int) + ((0 : Nat) : Int)) = (v.off : Int) from by push_cast; ring]
  rfl

/-- diff_algo_patience on two identical views without any unique line: no
common-unique atoms exist, so patience falls back untouched. -/
theorem patience_nounique (v : View) (st : DState)
    (hnone : ∀ i, i < v.atoms.toArray.size → csame v.atoms.toArray i ≠ 1) :
    diff_algo_patience v v st = (Rc.useFallback, st) := by
  have hfc : hasCommonUnique v.atoms.toArray v.atoms.toArray = false := by
    cases hx : hasCommonUnique v.atoms.toArray v.atoms.toArray
    · rfl
    · exfalso
      unfold hasCommonUnique at hx
      rw [List.any_eq_true] at hx
      obtain ⟨i, hi, hx2⟩ := hx
      rw [List.any_eq_true] at hx2
      obtain ⟨j, hj, hx3⟩ := hx2
      rw [Bool.and_eq_true, Bool.and_eq_true] at hx3
      exact hnone i (List.mem_range.mp hi) (of_decide_eq_true hx3.1.1)
  have hz := markUniqueInBoth_count_zero _ _ hfc
  simp [diff_algo_patience, hz]

end Diff

namespace Diff

theorem kdSet_size (buf : Array Int) (i v : Int) : (kdSet buf i v).size = buf.size := by
  unfold kdSet
  split
  · exact Array.size_set ..
  · rfl

theorem kdGet_kdSet_ne (buf : Array Int) (i q v : Int) (h : i ≠ q) :
    kdGet (kdSet buf i v) q = kdGet buf q := by
  by_cases hi : 0 ≤ i ∧ i.toNat < buf.size
  · have hset : kdSet buf i v = buf.set ⟨i.toNat, hi.2⟩ v := by
      unfold kdSet
      rw [dif_pos hi]
    rw [hset]
    unfold kdGet
    by_cases hq : 0 ≤ q ∧ q.toNat < buf.size
    · rw [dif_pos ⟨hq.1, by rw [Array.size_set]; exact hq.2⟩, dif_pos hq]
      refine Array.get_set_ne buf _ v hq.2 ?_
      show i.toNat ≠ q.toNat
      omega
    · have hq2 : ¬ (0 ≤ q ∧ q.toNat < (buf.set ⟨i.toNat, hi.2⟩ v).size) := by
        rw [Array.size_set]
        exact hq
      rw [dif_neg hq2, dif_neg hq]
  · have hset : kdSet buf i v = buf := by
      unfold kdSet
      rw [dif_neg hi]
    rw [hset]

/-- On pairwise-equal views the backward snake slides all the way to zero. -/
theorem slideUp_equal (v : View) :
    ∀ (fuel j : Nat), j ≤ fuel → j ≤ v.atoms.length →
      slideUp v v 0 0 fuel (j : Int) = 0 := by
  intro fuel
  induction fuel with
  | zero =>
      intro j hj _
      have : j = 0 := by omega
      rw [this]
      rfl
  | succ f ih =>
      intro j hj hN
      cases j with
      | zero =>
          unfold slideUp
          rw [if_neg (by rintro ⟨h1, _⟩; omega)]
          simp
      | succ j =>
          have hcond : ((j + 1 : Nat) : Int) > 0 ∧
              ((j + 1 : Nat) : Int) - 0 + 0 > 0 ∧
              sameAtXY v v (((j + 1 : Nat) : Int) - 1)
                (((j + 1 : Nat) : Int) - 0 + 0 - 1) = true := by
            refine ⟨by push_cast; omega, by push_cast; omega, ?_⟩
            rw [show (((j + 1 : Nat) : Int) - 0 + 0 - 1) = ((j + 1 : Nat) : Int) - 1
              from by ring]
            unfold sameAtXY
            rw [if_pos ⟨by push_cast; omega, by push_cast; omega,
              by push_cast; omega, by push_cast; omega⟩]
            exact diff_atom_same_refl _
          unfold slideUp
          rw [if_pos hcond]
          rw [show (((j + 1 : Nat) : Int) - 1) = ((j : Nat) : Int) from by push_cast; ring]
          exact ih j (by omega) (by omega)

/-- diff_algo_none on two identical views: a single equal chunk covering
everything. -/
theorem equalHeadLen_refl (atoms : List Atom) : equalHeadLen atoms atoms = atoms.length := by
  induction atoms with
  | nil => rfl
  | cons a rest ih =>
      unfold equalHeadLen
      rw [if_pos (diff_atom_same_refl a), ih]
      rfl

theorem none_equal (v : View) (st : DState) (hpos : 0 < v.atoms.length) :
    diff_algo_none v v st =
      addChunk st true (some (v.off : Int)) v.atoms.length
        (some (v.off : Int)) v.atoms.length := by
  unfold diff_algo_none
  rw [equalHeadLen_refl]
  dsimp only
  rw [if_pos hpos, if_neg (lt_irrefl v.atoms.length), if_neg (lt_irrefl v.atoms.length)]

end Diff

namespace Diff

/-- A nonpositive start makes the backward snake slide a no-op. -/
theorem slideUp_nonpos (l r : View) (delta c : Int) (fuel : Nat) (x : Int)
    (hx : x ≤ 0) : slideUp l r delta c fuel x = x := by
  cases fuel with
  | zero => rfl
  | succ f =>
      unfold slideUp
      rw [if_neg (by rintro ⟨h1, _⟩; omega)]

/-- Elements of the diagonal sequence lie between -d and d. -/
theorem kSeq_mem (d : Nat) (k : Int) (hk : k ∈ kSeq d) :
    -(d : Int) ≤ k ∧ k ≤ (d : Int) := by
  unfold kSeq at hk
  obtain ⟨a, ha, hak⟩ := List.mem_map.mp hk
  simp only [bind_pure_comp] at ha
  obtain ⟨b, hb, hba⟩ := List.mem_map.mp ha
  rw [List.mem_range] at hb
  omega

/-- Reading the freshly initialised Myers buffer gives -1 everywhere. -/
theorem kdGet_mkArray (n : Nat) (i : Int) :
    kdGet (Array.mkArray n (-1 : Int)) i = -1 := by
  unfold kdGet
  split
  · exact Array.getElem_mkArray ..
  · rfl

/-- Invariant of the divide search on equal sides after the d = 0 round:
every backward slot on a diagonal the search can still read is nonpositive,
and strictly negative on negative diagonals. -/
def bwdInv (kdLen maxv : Nat) (buf : Array Int) : Prop :=
  ∀ q : Int, -((maxv / 2 : Nat) : Int) ≤ q →
    kdGet buf (dvBwdIdx kdLen maxv q) ≤ 0 ∧
      (q < 0 → kdGet buf (dvBwdIdx kdLen maxv q) ≤ -1)

/-- Writes to the forward half of the buffer leave the invariant intact. -/
theorem bwdInv_kdSet_fwd (kdLen maxv : Nat) (hkd : kdLen = maxv + 1)
    (buf : Array Int) (k v : Int) (hk : k ≤ ((maxv / 2 : Nat) : Int))
    (h : bwdInv kdLen maxv buf) :
    bwdInv kdLen maxv (kdSet buf (dvFwdIdx maxv k) v) := by
  intro q hq
  rw [kdGet_kdSet_ne buf _ _ v (by unfold dvFwdIdx dvBwdIdx; intro he; omega)]
  exact h q hq

/-- Writes of nonpositive values (strictly negative on negative diagonals) to
the backward half of the buffer preserve the invariant. -/
theorem bwdInv_kdSet_bwd (kdLen maxv : Nat) (hkd : kdLen = maxv + 1)
    (buf : Array Int) (c x : Int) (hsz : buf.size = 2 * kdLen)
    (hcl : -((maxv / 2 : Nat) : Int) ≤ c) (hcu : c ≤ ((maxv / 2 : Nat) : Int))
    (hx0 : x ≤ 0) (hxneg : c < 0 → x ≤ -1)
    (h : bwdInv kdLen maxv buf) :
    bwdInv kdLen maxv (kdSet buf (dvBwdIdx kdLen maxv c) x) := by
  intro q hq
  by_cases hqc : q = c
  · subst hqc
    rw [kdGet_kdSet buf _ x (by unfold dvBwdIdx; omega)
      (by unfold dvBwdIdx; rw [hsz]; omega)]
    exact ⟨hx0, hxneg⟩
  · rw [kdGet_kdSet_ne buf _ _ x
      (by unfold dvBwdIdx; intro he; exact hqc (by omega))]
    exact h q hq

/-- On sides of equal length the forward step of the divide search never
reports a meeting (the delta-odd test fails), and it only writes into the
forward half of the buffer. -/
theorem dvFwdCol_equal (l r : View) (kdLen maxv d : Nat)
    (hkd : kdLen = maxv + 1) (hlr : r.atoms.length = l.atoms.length) :
    ∀ (ks : List Int) (buf : Array Int),
      (∀ k ∈ ks, k ≤ ((maxv / 2 : Nat) : Int)) →
      bwdInv kdLen maxv buf → buf.size = 2 * kdLen →
      (dvFwdCol l r kdLen maxv d buf ks).2 = none ∧
        bwdInv kdLen maxv (dvFwdCol l r kdLen maxv d buf ks).1 ∧
        (dvFwdCol l r kdLen maxv d buf ks).1.size = 2 * kdLen := by
  intro ks
  induction ks with
  | nil =>
      intro buf _ hinv hsz
      exact ⟨rfl, hinv, hsz⟩
  | cons k ks ih =>
      intro buf hks hinv hsz
      have hk := hks k (List.mem_cons_self ..)
      have hks' : ∀ k' ∈ ks, k' ≤ ((maxv / 2 : Nat) : Int) :=
        fun k' hk' => hks k' (List.mem_cons_of_mem _ hk')
      simp only [dvFwdCol]
      by_cases hg : k < -(r.atoms.length : Int) ∨ k > (l.atoms.length : Int)
      · rw [if_pos hg]
        by_cases hneg : k < 0
        · rw [if_pos hneg]
          exact ⟨rfl, hinv, hsz⟩
        · rw [if_neg hneg]
          exact ih buf hks' hinv hsz
      · rw [if_neg hg]
        have hC2 : ¬ (((r.atoms.length : Int) - (l.atoms.length : Int)) % 2 ≠ 0 ∧
            (d : Int) - 1 ≥ 0) := by
          rw [hlr]
          simp
        rw [if_neg hC2]
        rw [ite_self]
        exact ih _ hks' (bwdInv_kdSet_fwd kdLen maxv hkd buf k _ hk hinv)
          (by rw [kdSet_size]; exact hsz)

end Diff

namespace Diff

/-- On equal sides at d ≥ 1, every backward column skips before the meeting
test: the previous backward slot is nonpositive, so the slid x is nonpositive
and fails the range checks.  The backward step therefore reports no meeting
and keeps the invariant. -/
theorem dvBwdCol_equal (l r : View) (kdLen maxv d : Nat)
    (hkd : kdLen = maxv + 1) (hlr : r.atoms.length = l.atoms.length)
    (hd : 1 ≤ d) (hdm : d ≤ maxv / 2) (jx jy : Int) :
    ∀ (cs : List Int) (buf : Array Int),
      (∀ c ∈ cs, -(d : Int) ≤ c ∧ c ≤ (d : Int)) →
      bwdInv kdLen maxv buf → buf.size = 2 * kdLen →
      (dvBwdCol l r kdLen maxv d jx jy buf cs).2 = none ∧
        bwdInv kdLen maxv (dvBwdCol l r kdLen maxv d jx jy buf cs).1 ∧
        (dvBwdCol l r kdLen maxv d jx jy buf cs).1.size = 2 * kdLen := by
  intro cs
  induction cs with
  | nil =>
      intro buf _ hinv hsz
      exact ⟨rfl, hinv, hsz⟩
  | cons c cs ih =>
      intro buf hcs hinv hsz
      have hc := hcs c (List.mem_cons_self ..)
      have hcs' : ∀ c' ∈ cs, -(d : Int) ≤ c' ∧ c' ≤ (d : Int) :=
        fun c' hc' => hcs c' (List.mem_cons_of_mem _ hc')
      have hmv2 : (d : Int) ≤ ((maxv / 2 : Nat) : Int) := by omega
      simp only [dvBwdCol]
      by_cases hg : c < -(l.atoms.length : Int) ∨ c > (r.atoms.length : Int)
      · rw [if_pos hg]
        by_cases hneg : c < 0
        · rw [if_pos hneg]
          exact ⟨rfl, hinv, hsz⟩
        · rw [if_neg hneg]
          exact ih buf hcs' hinv hsz
      · rw [if_neg hg]
        rw [if_neg (show ¬ (d = 0) by omega)]
        by_cases hbr : c > -(d : Int) ∧ (c = (d : Int) ∨ ((c - 1 ≥ -(r.atoms.length : Int)) ∧
            kdGet buf (dvBwdIdx kdLen maxv (c - 1)) ≤ kdGet buf (dvBwdIdx kdLen maxv (c + 1))))
        · rw [if_pos hbr]
          dsimp only
          have hpx := hinv (c - 1) (by omega)
          rw [slideUp_nonpos l r _ c _ _ hpx.1]
          have hskip : kdGet buf (dvBwdIdx kdLen maxv (c - 1)) < 0 ∨
              kdGet buf (dvBwdIdx kdLen maxv (c - 1)) > (l.atoms.length : Int) ∨
              kdGet buf (dvBwdIdx kdLen maxv (c - 1)) - c +
                ((r.atoms.length : Int) - (l.atoms.length : Int)) < 0 ∨
              kdGet buf (dvBwdIdx kdLen maxv (c - 1)) - c +
                ((r.atoms.length : Int) - (l.atoms.length : Int)) >
                  (r.atoms.length : Int) := by
            rcases hpx.1.lt_or_eq with hlt | heq0
            · left
              exact hlt
            · have hc1 : ¬ (c - 1 < 0) := fun hcn => by
                have := hpx.2 hcn
                omega
              right; right; left
              rw [hlr]
              omega
          rw [if_pos hskip]
          refine ih _ hcs' ?_ (by rw [kdSet_size]; exact hsz)
          refine bwdInv_kdSet_bwd kdLen maxv hkd buf c _ hsz (by omega) (by omega)
            hpx.1 (fun hcn => hpx.2 (by omega)) hinv
        · rw [if_neg hbr]
          dsimp only
          have hpx := hinv (c + 1) (by omega)
          have hx1 : kdGet buf (dvBwdIdx kdLen maxv (c + 1)) - 1 ≤ 0 := by omega
          rw [slideUp_nonpos l r _ c _ _ hx1]
          rw [if_pos (Or.inl (show kdGet buf (dvBwdIdx kdLen maxv (c + 1)) - 1 < 0 by omega))]
          refine ih _ hcs' ?_ (by rw [kdSet_size]; exact hsz)
          exact bwdInv_kdSet_bwd kdLen maxv hkd buf c _ hsz (by omega) (by omega)
            (by omega) (fun _ => by omega) hinv

end Diff

namespace Diff

/-- With the invariant established after the d = 0 round, the divide search
on equal sides finds no meeting point in any later round and returns the box
it was given. -/
theorem dvLoop_equal (l r : View) (kdLen maxv : Nat)
    (hkd : kdLen = maxv + 1) (hlr : r.atoms.length = l.atoms.length) (jx jy : Int) :
    ∀ (fuel d : Nat) (buf : Array Int) (box : DiffBox),
      1 ≤ d → d + fuel ≤ maxv / 2 + 1 →
      bwdInv kdLen maxv buf → buf.size = 2 * kdLen →
      diffBoxEmpty box = true →
      dvLoop l r kdLen maxv jx jy buf box d fuel = box := by
  intro fuel
  induction fuel with
  | zero =>
      intro d buf box _ _ _ _ _
      rfl
  | succ f ih =>
      intro d buf box hd hdf hinv hsz hbox
      have hdm : d ≤ maxv / 2 := by omega
      have hksb : ∀ k ∈ kSeq d, k ≤ ((maxv / 2 : Nat) : Int) := by
        intro k hk
        have := kSeq_mem d k hk
        omega
      have hcsb : ∀ c ∈ kSeq d, -(d : Int) ≤ c ∧ c ≤ (d : Int) :=
        fun c hc => kSeq_mem d c hc
      have hfwd := dvFwdCol_equal l r kdLen maxv d hkd hlr (kSeq d) buf hksb hinv hsz
      simp only [dvLoop]
      rcases hE : dvFwdCol l r kdLen maxv d buf (kSeq d) with ⟨buf1, fb⟩
      rw [hE] at hfwd
      obtain ⟨hfb, hinv1, hsz1⟩ := hfwd
      dsimp only at hfb hinv1 hsz1 ⊢
      subst hfb
      simp only [Option.getD_none]
      rw [if_neg (by rw [hbox]; intro hx; cases hx)]
      have hbwd := dvBwdCol_equal l r kdLen maxv d hkd hlr hd hdm jx jy (kSeq d)
        buf1 hcsb hinv1 hsz1
      rcases hB : dvBwdCol l r kdLen maxv d jx jy buf1 (kSeq d) with ⟨buf2, bb⟩
      rw [hB] at hbwd
      obtain ⟨hbb, hinv2, hsz2⟩ := hbwd
      dsimp only at hbb hinv2 hsz2 ⊢
      subst hbb
      simp only [Option.getD_none]
      rw [if_neg (by rw [hbox]; intro hx; cases hx)]
      exact ih (d + 1) buf2 box (by omega) (by omega) hinv2 hsz2 hbox

end Diff

namespace Diff

theorem uint32_coe (n : Nat) (h : n < 2 ^ 32) : uint32 ((n : Nat) : Int) = n := by
  unfold uint32
  rw [Int.emod_eq_of_lt (by positivity) (by exact_mod_cast h)]
  simp

theorem usub_zero (n : Nat) (h : n < 2 ^ 32) : usub n 0 = n := by
  unfold usub
  rw [Nat.cast_zero, sub_zero]
  exact uint32_coe n h

/-- Emitting a section with two zero-length sides is a no-op. -/
theorem dvSection_zero (st : DState) (a b : Int) : dvSection st a 0 b 0 = st := by
  unfold dvSection
  simp

/-- The d = 0 forward column on two identical views: slide from the origin to
the end of the file, record it on diagonal 0, no meeting reported. -/
theorem dvFwdCol_zero (v : View) (kdLen maxv : Nat) (buf : Array Int)
    (hpos : 0 < v.atoms.length) :
    dvFwdCol v v kdLen maxv 0 buf [0] =
      (kdSet buf (dvFwdIdx maxv 0) ((v.atoms.length : Nat) : Int), none) := by
  simp only [dvFwdCol]
  rw [if_neg (by rintro (h | h) <;> omega)]
  simp only [if_true]
  have hsd : slideDown v v 0 (v.atoms.length + 1) ((0 : Nat) : Int) =
      ((v.atoms.length : Nat) : Int) :=
    slideDown_equal v v v.atoms.length rfl rfl
      (fun i _ => diff_atom_same_refl _) (v.atoms.length + 1) 0 (Nat.zero_le _) (by omega)
  rw [Nat.cast_zero] at hsd
  rw [hsd]
  rw [if_neg (by rintro (h | h | h | h) <;> omega)]
  rw [if_neg (by rintro ⟨h1, h2⟩; omega)]

/-- The d = 0 backward column on two identical views: slide from the end of
the file to the origin, record it on diagonal 0, and reach the d = 0 meeting
test, whose outcome is decided by the junk values standing in for the
uninitialised prev_x and prev_y of the C source. -/
theorem dvBwdCol_zero (v : View) (kdLen maxv : Nat) (jx jy : Int) (buf : Array Int)
    (hpos : 0 < v.atoms.length) (h32 : v.atoms.length < 2 ^ 32)
    (hkd : kdLen = maxv + 1) (hsz : buf.size = 2 * kdLen)
    (hfw : kdGet buf (dvFwdIdx maxv 0) = ((v.atoms.length : Nat) : Int)) :
    dvBwdCol v v kdLen maxv 0 jx jy buf [0] =
      (kdSet buf (dvBwdIdx kdLen maxv 0) 0,
        if ((v.atoms.length : Nat) : Int) ≤ jx ∧ ((v.atoms.length : Nat) : Int) ≤ jy then
          some ⟨0, v.atoms.length, 0, v.atoms.length⟩
        else none) := by
  simp only [dvBwdCol]
  rw [if_neg (by rintro (h | h) <;> omega)]
  simp only [if_true]
  rw [sub_self]
  have hsu : slideUp v v 0 0 (v.atoms.length + 1) ((v.atoms.length : Nat) : Int) = 0 :=
    slideUp_equal v (v.atoms.length + 1) v.atoms.length (by omega) (le_refl _)
  rw [hsu]
  rw [if_neg (by rintro (h | h | h | h) <;> omega)]
  rw [if_pos (by norm_num)]
  rw [if_pos (show (0 : Int) - 0 ≥ -((0 : Nat) : Int) ∧ (0 : Int) - 0 ≤ ((0 : Nat) : Int)
    from by constructor <;> omega)]
  rw [show (0 : Int) - 0 = 0 from by ring]
  rw [kdGet_kdSet_ne buf _ _ 0 (by unfold dvFwdIdx dvBwdIdx; intro he; omega)]
  rw [hfw]
  rw [sub_zero]
  by_cases hj : ((v.atoms.length : Nat) : Int) ≤ jx ∧ ((v.atoms.length : Nat) : Int) ≤ jy
  · rw [if_pos (show ((v.atoms.length : Nat) : Int) ≤ jx ∧
        ((v.atoms.length : Nat) : Int) ≤ jy ∧ ((v.atoms.length : Nat) : Int) ≥ 0
      from ⟨hj.1, hj.2, by positivity⟩)]
    rw [if_pos hj]
    rw [show (0 : Int) + 0 = 0 from by ring]
    rw [show uint32 0 = 0 from rfl]
    rw [uint32_coe _ h32]
  · rw [if_neg (fun hcond => hj ⟨hcond.1, hcond.2.1⟩)]
    rw [if_neg hj]

end Diff

namespace Diff

/-- diff_algo_myers_divide on two identical non-empty views: the d = 0 round
reaches the meeting test that reads the uninitialised prev_x/prev_y (junk).
If the junk passes the test, the mid-snake is the whole file and one solved
equal chunk is emitted; otherwise no meeting is ever found and the algorithm
returns USE_FALLBACK untouched. -/
theorem divide_equal (v : View) (st : DState) (jx jy : Int)
    (hpos : 0 < v.atoms.length) (h32 : v.atoms.length < 2 ^ 32) :
    diff_algo_myers_divide jx jy v v st =
      (if ((v.atoms.length : Nat) : Int) ≤ jx ∧ ((v.atoms.length : Nat) : Int) ≤ jy then
        (.ok, addChunk st true (some (v.off : Int)) v.atoms.length
          (some (v.off : Int)) v.atoms.length)
      else (.useFallback, st)) := by
  have hsz1 : (kdSet (Array.mkArray (2 * (v.atoms.length + v.atoms.length + 1)) (-1 : Int))
      (dvFwdIdx (v.atoms.length + v.atoms.length) 0) ((v.atoms.length : Nat) : Int)).size =
      2 * (v.atoms.length + v.atoms.length + 1) := by
    rw [kdSet_size, Array.size_mkArray]
  have hfw1 : kdGet (kdSet (Array.mkArray (2 * (v.atoms.length + v.atoms.length + 1)) (-1 : Int))
      (dvFwdIdx (v.atoms.length + v.atoms.length) 0) ((v.atoms.length : Nat) : Int))
      (dvFwdIdx (v.atoms.length + v.atoms.length) 0) = ((v.atoms.length : Nat) : Int) := by
    refine kdGet_kdSet _ _ _ (by unfold dvFwdIdx; positivity) ?_
    rw [Array.size_mkArray]
    unfold dvFwdIdx
    omega
  have hloop : dvLoop v v (v.atoms.length + v.atoms.length + 1)
      (v.atoms.length + v.atoms.length) jx jy
      (Array.mkArray (2 * (v.atoms.length + v.atoms.length + 1)) (-1 : Int))
      ⟨0, 0, 0, 0⟩ 0 ((v.atoms.length + v.atoms.length) / 2 + 1) =
      (if ((v.atoms.length : Nat) : Int) ≤ jx ∧ ((v.atoms.length : Nat) : Int) ≤ jy then
        ⟨0, v.atoms.length, 0, v.atoms.length⟩ else ⟨0, 0, 0, 0⟩) := by
    simp only [dvLoop]
    rw [show kSeq 0 = [(0 : Int)] from by decide]
    rw [dvFwdCol_zero v _ _ _ hpos]
    rw [dvBwdCol_zero v _ _ jx jy _ hpos h32 rfl hsz1 hfw1]
    by_cases hj : ((v.atoms.length : Nat) : Int) ≤ jx ∧ ((v.atoms.length : Nat) : Int) ≤ jy
    · rw [if_pos hj, if_pos hj]
      simp only [Option.getD_none, Option.getD_some]
      rw [if_neg (by decide)]
      rw [if_pos (show diffBoxEmpty ⟨0, v.atoms.length, 0, v.atoms.length⟩ = false from by
        simp only [diffBoxEmpty, beq_eq_false_iff_ne]
        omega)]
    · rw [if_neg hj, if_neg hj]
      simp only [Option.getD_none]
      rw [if_neg (by decide), if_neg (by decide)]
      have hinv2 : bwdInv (v.atoms.length + v.atoms.length + 1)
          (v.atoms.length + v.atoms.length)
          (kdSet (kdSet (Array.mkArray (2 * (v.atoms.length + v.atoms.length + 1)) (-1 : Int))
            (dvFwdIdx (v.atoms.length + v.atoms.length) 0) ((v.atoms.length : Nat) : Int))
            (dvBwdIdx (v.atoms.length + v.atoms.length + 1) (v.atoms.length + v.atoms.length) 0)
            0) := by
        intro q hq
        by_cases hq0 : q = 0
        · subst hq0
          rw [kdGet_kdSet _ _ _ (by unfold dvBwdIdx; positivity)
            (by rw [kdSet_size, Array.size_mkArray]; unfold dvBwdIdx; omega)]
          exact ⟨le_refl 0, fun h => absurd h (lt_irrefl 0)⟩
        · rw [kdGet_kdSet_ne _ _ _ _ (by unfold dvBwdIdx; intro he; exact hq0 (by omega))]
          rw [kdGet_kdSet_ne _ _ _ _ (by unfold dvFwdIdx dvBwdIdx; intro he; omega)]
          rw [kdGet_mkArray]
          exact ⟨by omega, fun _ => le_refl _⟩
      exact dvLoop_equal v v _ _ rfl rfl jx jy _ 1 _ _ (le_refl 1) (by omega) hinv2
        (by rw [kdSet_size, kdSet_size, Array.size_mkArray]) rfl
  simp only [diff_algo_myers_divide]
  rw [hloop]
  by_cases hj : ((v.atoms.length : Nat) : Int) ≤ jx ∧ ((v.atoms.length : Nat) : Int) ≤ jy
  · rw [if_pos hj, if_pos hj]
    rw [if_neg (show ¬ diffBoxEmpty ⟨0, v.atoms.length, 0, v.atoms.length⟩ = true from by
      simp only [diffBoxEmpty, beq_iff_eq]
      omega)]
    dsimp only
    rw [dvSection_zero]
    rw [usub_zero _ h32, usub_self]
    rw [dvSection_zero]
    rw [show ((v.off : Int) + ((0 : Nat) : Int)) = (v.off : Int) from by push_cast; ring]
  · rw [if_neg hj, if_neg hj]
    rw [if_pos (by decide)]

end Diff

namespace Diff

/-- When the state-size check fires, the full Myers algorithm bails out
untouched. -/
theorem myers_rejects_fb (p : Nat) (l r : View) (st : DState)
    (hrej : myersRejects l.atoms.length r.atoms.length p = true) :
    diff_algo_myers p l r st = (.useFallback, st) := by
  unfold diff_algo_myers
  rw [if_pos hrej]

/-- A non-empty buffer atomises to a non-empty atom list. -/
theorem atomize_pos (data : List Nat) (h : data ≠ []) : 0 < (atomize data).length := by
  rcases data with _ | ⟨b, bs⟩
  · exact absurd rfl h
  · rw [atomize, atomizeFrom]
    simp

/-- A contiguous atom list of non-empty atoms is no longer than the bytes it
covers. -/
theorem contig_len_le (ats : List Atom) :
    ∀ n, contiguousFrom n ats → ats.length ≤ ((ats.map Atom.bytes).flatten).length := by
  induction ats with
  | nil =>
      intro n _
      simp
  | cons a rest ih =>
      intro n hc
      obtain ⟨_, hne, hrest⟩ := hc
      have h1 : 1 ≤ a.bytes.length := List.length_pos.mpr hne
      have h2 := ih _ hrest
      simp only [List.map_cons, List.flatten_cons, List.length_cons, List.length_append]
      omega

/-- The atomiser produces at most one atom per input byte. -/
theorem atomize_len_le (data : List Nat) : (atomize data).length ≤ data.length := by
  obtain ⟨hfl, hcontig⟩ := atomizeFrom_partition (data.length + 1) data 0 (by omega)
  have h := contig_len_le (atomizeFrom (data.length + 1) data 0) 0 hcontig
  rw [hfl] at h
  exact h

end Diff

namespace Diff

set_option maxHeartbeats 2000000 in
/-- C3: running diff_main with the default pipeline on a non-empty buffer
against itself (within the unsigned-int index domain of the C code) returns a
result consisting of exactly one solved equal chunk that covers all atoms of
both sides, whichever values the uninitialised locals of the Myers divide
step happen to hold. -/
theorem C3_identity (junks : List (Int × Int)) (ldata : List Nat)
    (hne : ldata ≠ []) (h32 : ldata.length < 2 ^ 32) :
    ∃ rest, diffMain junks ldata ldata =
      some ⟨[Chunk.mk true (some 0) (atomize ldata).length
        (some 0) (atomize ldata).length], [], rest⟩ := by
  have hpos : 0 < (atomize ldata).length := atomize_pos ldata hne
  have hN32 : (atomize ldata).length < 2 ^ 32 :=
    lt_of_le_of_lt (atomize_len_le ldata) h32
  simp only [diffMain]
  rw [show diffMainFuel = 4099 + 1 from rfl]
  rw [runAlgo_succ]
  dsimp only [defaultTable, Option.bind, List.get?, runImpl]
  rw [if_neg (by decide)]
  by_cases hrej : myersRejects (atomize ldata).length (atomize ldata).length
      (1024 * 1024 * sizeofInt) = true
  · rw [myers_rejects_fb _ _ _ _ hrej]
    dsimp only
    rw [show (4099 : Nat) = 4098 + 1 from rfl]
    rw [runAlgo_succ]
    dsimp only [defaultTable, Option.bind, List.get?, runImpl]
    rw [if_neg (by decide)]
    by_cases hex : ∃ i, i < (atomize ldata).toArray.size ∧ csame (atomize ldata).toArray i = 1
    · rw [patience_equal ⟨0, atomize ldata⟩ _ hpos hex]
      exact ⟨junks, rfl⟩
    · have hnone : ∀ i, i < (atomize ldata).toArray.size →
          csame (atomize ldata).toArray i ≠ 1 :=
        fun i hi hc => hex ⟨i, hi, hc⟩
      rw [patience_nounique ⟨0, atomize ldata⟩ _ hnone]
      dsimp only
      rw [show (4098 : Nat) = 4097 + 1 from rfl]
      rw [runAlgo_succ]
      dsimp only [defaultTable, Option.bind, List.get?, runImpl]
      rw [if_neg (by decide)]
      rw [divide_equal ⟨0, atomize ldata⟩ _ _ _ hpos hN32]
      by_cases hj : (((atomize ldata).length : Nat) : Int) ≤ (junks.headD (0, 0)).1 ∧
          (((atomize ldata).length : Nat) : Int) ≤ (junks.headD (0, 0)).2
      · rw [if_pos hj]
        exact ⟨junks.tail, rfl⟩
      · rw [if_neg hj]
        dsimp only
        rw [show (4097 : Nat) = 4096 + 1 from rfl]
        rw [runAlgo_succ]
        dsimp only [Option.bind]
        rw [none_equal ⟨0, atomize ldata⟩ _ hpos]
        exact ⟨junks.tail, rfl⟩
  · rw [myers_equal (1024 * 1024 * sizeofInt) ⟨0, atomize ldata⟩ ⟨0, atomize ldata⟩
      ⟨[], [], junks⟩ rfl (fun i _ => diff_atom_same_refl _)
      (by rw [Bool.not_eq_true] at hrej; exact hrej) hpos hN32]
    exact ⟨junks, rfl⟩

end Diff

namespace Diff

theorem C3_identity_witness :
    ([104, 105, 10] : List Nat) ≠ [] ∧ ([104, 105, 10] : List Nat).length < 2 ^ 32 ∧
    ∃ rest, diffMain [] [104, 105, 10] [104, 105, 10] =
      some ⟨[Chunk.mk true (some 0) (atomize [104, 105, 10]).length
        (some 0) (atomize [104, 105, 10]).length], [], rest⟩ :=
  ⟨by decide, by decide, C3_identity [] [104, 105, 10] (by decide) (by decide)⟩

end Diff
